import Mathlib

/-!
# quantilesketch: a verification development

Shallow embedding of the three packages of the repository

* `storage`  (`src/storage/bufferedpaginatedstorage.go`)
* `mapper`   (`src/mapper/logarithmicmapper.go`)
* `quantilesketch` (`src/quantilesketch/quantilesketch.go`)

Modelling conventions.

* `float64` is modelled by an ordered field: the storage is generic over a
  `LinearOrderedField F` (so that it can be run on `ℚ`), the mapper and the
  sketch use `ℝ` because they call `math.Log` and `math.Exp`.  Rounding, `NaN`
  and the infinities are not modelled.
* Go `int` is modelled by `Int` for a 64 bit platform (`maxInt = 2^63 - 1`,
  `ptrSize = 64`).  Indices handed to the storage are assumed to be
  representable (`isInt64`) wherever that matters.
* Slices are lists.  A `nil` page is the empty list.  The capacity of the
  buffer slice is an explicit field, and the capacity chosen by the Go runtime
  when `append` has to reallocate is a parameter `growCap` of the model.
* Methods that mutate their receiver return the new state.
-/

namespace storage

/-- Go constant `float64size`. -/
def float64size : Int := 64

/-- Go constant `maxInt = int(^uint(0) >> 1)` on a 64 bit platform. -/
def maxInt : Int := 2 ^ 63 - 1

/-- Go constant `ptrSize = 32 << (^uintptr(0) >> 63)` on a 64 bit platform. -/
def ptrSize : Int := 64

/-- Go struct `BufferedPaginatedStorage`; `bufferCap` is `cap(b.buffer)`. -/
structure BufferedPaginatedStorage (F : Type) where
  buffer : List Int
  bufferCap : Nat
  compactionTriggerSize : Int
  pages : List (List F)
  minPageIndex : Int
  pageLenLog2 : Nat
  pageLenMask : Int
  bufferEntrySize : Int

/-- Go `NewBufferedPaginatedStorage`. -/
def NewBufferedPaginatedStorage (F : Type) : BufferedPaginatedStorage F :=
  { buffer := [],
    bufferCap := 4,
    compactionTriggerSize := 64,
    pages := [],
    minPageIndex := maxInt,
    pageLenLog2 := 5,
    pageLenMask := 31,
    bufferEntrySize := 64 }

section ops

variable {F : Type} [LinearOrderedField F]

/-- Go `pageIndex`: `index >> b.pageLenLog2`. -/
def pageIndex (b : BufferedPaginatedStorage F) (index : Int) : Int :=
  index >>> b.pageLenLog2

/-- Go `lineIndex`: `index & b.pageLenMask`. -/
def lineIndex (b : BufferedPaginatedStorage F) (index : Int) : Int :=
  Int.land index b.pageLenMask

/-- Go `index`: `pageIndex<<b.pageLenLog2 + lineIndex`. -/
def index (b : BufferedPaginatedStorage F) (pageIndex : Int) (lineIndex : Int) : Int :=
  (pageIndex <<< (b.pageLenLog2 : Int)) + lineIndex

/-- Go `sortBuffer`: `sort.Ints(b.buffer)`. -/
def sortBuffer (b : BufferedPaginatedStorage F) : BufferedPaginatedStorage F :=
  { b with buffer := b.buffer.insertionSort (fun x y => x ≤ y) }

/-- Go `newPagesSize`: round `required` up to a multiple of `64 * 8 / ptrSize`. -/
def newPagesSize (required : Int) : Int :=
  let growthIncrement : Int := 64 * 8 / ptrSize
  Int.land (required + growthIncrement - 1) (-growthIncrement)

/-- The page stored at `offset` of the page table (`b.pages[offset]`). -/
def pageAt (b : BufferedPaginatedStorage F) (offset : Nat) : List F :=
  b.pages.getD offset []

/-- Overwrite `b.pages[offset]`. -/
def setPage (b : BufferedPaginatedStorage F) (offset : Nat) (page : List F) :
    BufferedPaginatedStorage F :=
  { b with pages := b.pages.set offset page }

/-- The assignment `b.pages[offset][line] += delta`, written through the slice that
`page` returned (a Go slice aliases the page table entry). -/
def addToSlot (b : BufferedPaginatedStorage F) (offset : Nat) (line : Nat) (delta : F) :
    BufferedPaginatedStorage F :=
  setPage b offset ((pageAt b offset).set line ((pageAt b offset).getD line 0 + delta))

/-- The tail of Go `page`: materialise the page at `pageIndex - b.minPageIndex` when it is
still `nil`, and return it. -/
def ensurePage (b : BufferedPaginatedStorage F) (pageIndex : Int) (pageLen : Nat) :
    BufferedPaginatedStorage F × List F :=
  let offset := (pageIndex - b.minPageIndex).toNat
  let page := pageAt b offset
  if page.length = 0 then
    let page1 := page ++ List.replicate pageLen (0 : F)
    (setPage b offset page1, page1)
  else
    (b, page)

/-- The page table after Go `page` has grown it (lines 210-228), before the requested page is
materialised. -/
def growPages (b : BufferedPaginatedStorage F) (pageIndex : Int) : BufferedPaginatedStorage F :=
  if pageIndex < b.minPageIndex then
    if b.minPageIndex = maxInt then
      let pages1 :=
        if b.pages.length = 0 then b.pages ++ List.replicate (newPagesSize 1).toNat [] else b.pages
      { b with pages := pages1, minPageIndex := pageIndex - (pages1.length : Int) / 2 }
    else
      let newLen := newPagesSize (b.minPageIndex - pageIndex + 1 + (b.pages.length : Int))
      let addedLen := newLen - (b.pages.length : Int)
      let appended := b.pages ++ List.replicate addedLen.toNat []
      let copied := appended.take addedLen.toNat ++ b.pages
      let cleared := List.replicate addedLen.toNat [] ++ copied.drop addedLen.toNat
      { b with pages := cleared, minPageIndex := b.minPageIndex - addedLen }
  else
    let addedLen := newPagesSize (pageIndex - b.minPageIndex + 1) - (b.pages.length : Int)
    { b with pages := b.pages ++ List.replicate addedLen.toNat [] }

/-- Go `page`: returns the new state and the returned slice (`[]` for `nil`). -/
def page (b : BufferedPaginatedStorage F) (pageIndex : Int) (ensureExists : Bool) :
    BufferedPaginatedStorage F × List F :=
  let pageLen : Nat := ((1 : Int) <<< (b.pageLenLog2 : Int)).toNat
  if pageIndex ≥ b.minPageIndex ∧ pageIndex < b.minPageIndex + (b.pages.length : Int) then
    let offset := (pageIndex - b.minPageIndex).toNat
    let page := pageAt b offset
    if ensureExists = true ∧ page.length = 0 then
      let page1 := page ++ List.replicate pageLen (0 : F)
      (setPage b offset page1, page1)
    else
      (b, page)
  else if ensureExists = false then
    (b, [])
  else
    ensurePage (growPages b pageIndex) pageIndex pageLen

/-- The loop `for _, index := range group { newPage[b.lineIndex(index)]++ }` of Go `compact`,
where `newPage` aliases the table entry of `pageIndex`. -/
def incrementLines (b : BufferedPaginatedStorage F) (pageIndex : Int) (group : List Int) :
    BufferedPaginatedStorage F :=
  group.foldl
    (fun acc index => addToSlot acc (pageIndex - acc.minPageIndex).toNat (lineIndex acc index).toNat 1)
    b

/-- The outer loop of Go `compact` (lines 173-191).  `kept` is `b.buffer[:bufferPosition]`,
the list argument is `b.buffer[bufferPosition:]`; the result is the new state together with the
new buffer. -/
def compactLoop (b : BufferedPaginatedStorage F) (kept : List Int) :
    List Int → BufferedPaginatedStorage F × List Int
  | [] => (b, kept)
  | first :: tail =>
    let pageSize : Int := (1 : Int) <<< (b.pageLenLog2 : Int)
    let pageIdx := pageIndex b first
    let group := first :: tail.takeWhile (fun e => decide (pageIndex b e = pageIdx))
    let rest := tail.dropWhile (fun e => decide (pageIndex b e = pageIdx))
    let ensureExists : Bool :=
      decide ((group.length : Int) * b.bufferEntrySize ≥ pageSize * float64size)
    let r := page b pageIdx ensureExists
    if r.2.length > 0 then
      have : rest.length < (first :: tail).length :=
        Nat.lt_succ_of_le (List.dropWhile_sublist _).length_le
      compactLoop (incrementLines r.1 pageIdx group) kept rest
    else
      have : rest.length < (first :: tail).length :=
        Nat.lt_succ_of_le (List.dropWhile_sublist _).length_le
      compactLoop r.1 (kept ++ group) rest
termination_by l => l.length

/-- Go `compact`. -/
def compact (b : BufferedPaginatedStorage F) : BufferedPaginatedStorage F :=
  let pageSize : Int := (1 : Int) <<< (b.pageLenLog2 : Int)
  let b1 := sortBuffer b
  let r := compactLoop b1 [] b1.buffer
  { r.1 with buffer := r.2, compactionTriggerSize := (r.2.length : Int) + pageSize }

/-- Go `append(b.buffer, index)`: the capacity is kept while there is room and is otherwise
chosen by the runtime (`growCap`). -/
def appendBuffer (growCap : Nat → Nat) (b : BufferedPaginatedStorage F) (index : Int) :
    BufferedPaginatedStorage F :=
  { b with
    buffer := b.buffer ++ [index],
    bufferCap := if b.buffer.length < b.bufferCap then b.bufferCap else growCap b.bufferCap }

/-- Go `add`. -/
def add (growCap : Nat → Nat) (b : BufferedPaginatedStorage F) (index : Int) :
    BufferedPaginatedStorage F :=
  let pageIdx := pageIndex b index
  if pageIdx ≥ b.minPageIndex ∧ pageIdx < b.minPageIndex + (b.pages.length : Int) ∧
      (pageAt b (pageIdx - b.minPageIndex).toNat).length > 0 then
    addToSlot b (pageIdx - b.minPageIndex).toNat (lineIndex b index).toNat 1
  else
    let b1 :=
      if b.buffer.length = b.bufferCap ∧ (b.buffer.length : Int) ≥ b.compactionTriggerSize then
        compact b
      else b
    appendBuffer growCap b1 index

/-- Go `RecordValue` of the storage. -/
def RecordValue (growCap : Nat → Nat) (b : BufferedPaginatedStorage F) (index : Int) (count : F) :
    BufferedPaginatedStorage F :=
  if count = 0 then
    b
  else if count = 1 then
    add growCap b index
  else
    let r := page b (pageIndex b index) true
    addToSlot r.1 (pageIndex b index - r.1.minPageIndex).toNat (lineIndex b index).toNat count

/-- Go `Size`. -/
def Size (b : BufferedPaginatedStorage F) : F :=
  b.pages.foldl (fun totalCount page => page.foldl (fun acc count => acc + count) totalCount)
    (b.buffer.length : F)

/-- The loop `for rightIndex, rightCount := range rightPage { leftPage[rightIndex] += rightCount }`
of Go `Merge`, where `leftPage` aliases the table entry at `offset`. -/
def addPage (left : BufferedPaginatedStorage F) (offset : Nat) :
    Nat → List F → BufferedPaginatedStorage F
  | _, [] => left
  | rightIndex, rightCount :: rest =>
    addPage (addToSlot left offset rightIndex rightCount) offset (rightIndex + 1) rest

/-- The loop `for rightOffset, rightPage := range right.pages` of Go `Merge`; the list argument
is `right.pages[rightOffset:]`.  The loop over `right.buffer` is inside the body, after the
`continue` for empty pages, as in the source. -/
def mergePages (growCap : Nat → Nat) (right : BufferedPaginatedStorage F) :
    Nat → List (List F) → BufferedPaginatedStorage F → BufferedPaginatedStorage F
  | _, [], left => left
  | rightOffset, rightPage :: rest, left =>
    if rightPage.length = 0 then
      mergePages growCap right (rightOffset + 1) rest left
    else
      let rightPageIndex := right.minPageIndex + (rightOffset : Int)
      let r := page left rightPageIndex true
      let left1 := addPage r.1 (rightPageIndex - r.1.minPageIndex).toNat 0 rightPage
      let left2 := right.buffer.foldl (fun acc rightIndex => add growCap acc rightIndex) left1
      mergePages growCap right (rightOffset + 1) rest left2

/-- Go `Merge` of the storage: the error (if any) and the state of `left` afterwards. -/
def Merge (growCap : Nat → Nat) (left right : BufferedPaginatedStorage F) :
    Option String × BufferedPaginatedStorage F :=
  if left.pageLenLog2 ≠ right.pageLenLog2 then
    (some "storages cannot be merged", left)
  else
    (none, mergePages growCap right 0 right.pages left)

/-- The first loop of Go `maxIndex`: the pair `(isEmpty, maxIndex)` after the buffer scan. -/
def maxIndexBuffer : List Int → Bool × Int → Bool × Int
  | [], acc => acc
  | index :: rest, (isEmpty, maxIdx) =>
    if isEmpty = true ∨ index > maxIdx then maxIndexBuffer rest (false, index)
    else maxIndexBuffer rest (isEmpty, maxIdx)

/-- The inner loop of Go `maxIndex`: `for lineIndex := n - 1; lineIndex >= start; lineIndex--`,
returning the first line with a positive count. -/
def maxIndexLines (page : List F) (lineIndexRangeStart : Int) : Nat → Option Nat
  | 0 => none
  | n + 1 =>
    if (n : Int) ≥ lineIndexRangeStart then
      if page.getD n 0 > 0 then some n else maxIndexLines page lineIndexRangeStart n
    else none

/-- The second loop of Go `maxIndex`: `pageIndex` runs from `b.minPageIndex + n - 1` downwards. -/
def maxIndexPages (b : BufferedPaginatedStorage F) (isEmpty : Bool) (maxIdx : Int) :
    Nat → Option Int
  | 0 => none
  | n + 1 =>
    let pageIdx := b.minPageIndex + (n : Int)
    if isEmpty = true ∨ pageIdx ≥ pageIndex b maxIdx then
      let page := pageAt b (pageIdx - b.minPageIndex).toNat
      if page.length = 0 then
        maxIndexPages b isEmpty maxIdx n
      else
        let lineIndexRangeStart : Int :=
          if isEmpty = false ∧ pageIdx = pageIndex b maxIdx then lineIndex b maxIdx else 0
        match maxIndexLines page lineIndexRangeStart page.length with
        | some line => some (index b pageIdx (line : Int))
        | none => maxIndexPages b isEmpty maxIdx n
    else none

/-- Go `maxIndex`. -/
def maxIndex (b : BufferedPaginatedStorage F) : Except String Int :=
  let r := maxIndexBuffer b.buffer (true, 0)
  match maxIndexPages b r.1 r.2 b.pages.length with
  | some found => .ok found
  | none => if r.1 = true then .error "max index not found" else .ok r.2

/-- State of the scan of Go `minIndexWithCumulativeCount`: either it has returned `key`, or it
goes on with `cumulativeCount` and `b.buffer[bufferPosition:]`. -/
inductive Scan (F : Type) where
  | found (key : Int) : Scan F
  | next (cumulativeCount : F) (bufferRest : List Int) : Scan F

/-- The loop `for ; bufferPosition < len(b.buffer) && b.buffer[bufferPosition] < index;
bufferPosition++` of Go `minIndexWithCumulativeCount`. -/
def drainBelow (rank : F) (index : Int) : F → List Int → Scan F
  | cumulativeCount, [] => Scan.next cumulativeCount []
  | cumulativeCount, entry :: rest =>
    if entry < index then
      if cumulativeCount + 1 > rank then Scan.found entry
      else drainBelow rank index (cumulativeCount + 1) rest
    else Scan.next cumulativeCount (entry :: rest)

/-- The loop `for lineIndex, count := range page`; the list argument is `page[lineIndex:]`. -/
def scanLines (b : BufferedPaginatedStorage F) (rank : F) (pageIdx : Int) :
    Nat → List F → F → List Int → Scan F
  | _, [], cumulativeCount, bufferRest => Scan.next cumulativeCount bufferRest
  | line, count :: rest, cumulativeCount, bufferRest =>
    match drainBelow rank (index b pageIdx (line : Int)) cumulativeCount bufferRest with
    | Scan.found key => Scan.found key
    | Scan.next cumulativeCount1 bufferRest1 =>
      if cumulativeCount1 + count > rank then Scan.found (index b pageIdx (line : Int))
      else scanLines b rank pageIdx (line + 1) rest (cumulativeCount1 + count) bufferRest1

/-- The loop `for pageOffset, page := range b.pages`; the list argument is
`b.pages[pageOffset:]`. -/
def scanPages (b : BufferedPaginatedStorage F) (rank : F) :
    Nat → List (List F) → F → List Int → Scan F
  | _, [], cumulativeCount, bufferRest => Scan.next cumulativeCount bufferRest
  | pageOffset, page :: rest, cumulativeCount, bufferRest =>
    match scanLines b rank (b.minPageIndex + (pageOffset : Int)) 0 page cumulativeCount
        bufferRest with
    | Scan.found key => Scan.found key
    | Scan.next cumulativeCount1 bufferRest1 =>
      scanPages b rank (pageOffset + 1) rest cumulativeCount1 bufferRest1

/-- The last loop of Go `minIndexWithCumulativeCount` (lines 143-148). -/
def drainAll (rank : F) : F → List Int → Option Int
  | _, [] => none
  | cumulativeCount, entry :: rest =>
    if cumulativeCount + 1 > rank then some entry else drainAll rank (cumulativeCount + 1) rest

/-- Go `minIndexWithCumulativeCount`: the result and the state (the buffer is sorted in place). -/
def minIndexWithCumulativeCount (b : BufferedPaginatedStorage F) (rank : F) :
    Except String Int × BufferedPaginatedStorage F :=
  let b1 := sortBuffer b
  match scanPages b1 rank 0 b1.pages 0 b1.buffer with
  | Scan.found key => (.ok key, b1)
  | Scan.next cumulativeCount bufferRest =>
    match drainAll rank cumulativeCount bufferRest with
    | some key => (.ok key, b1)
    | none => (.error "min index with cumulative rank not found", b1)

/-- Go `KeyAtRank`: the result and the state afterwards. -/
def KeyAtRank (b : BufferedPaginatedStorage F) (rank : F) :
    Except String Int × BufferedPaginatedStorage F :=
  let rank1 := max 0 rank
  let r := minIndexWithCumulativeCount b rank1
  match r.1 with
  | .ok key => (.ok key, r.2)
  | .error _ =>
    match maxIndex r.2 with
    | .ok maxIdx => (.ok maxIdx, r.2)
    | .error err => (.error err, r.2)

end ops

end storage

namespace mapper

/-- Go constant `minNormalFloat64`. -/
noncomputable def minNormalFloat64 : ℝ := 2.2250738585072014e-308

/-- Go constant `expOverflow`. -/
noncomputable def expOverflow : ℝ := 7.094361393031e+02

/-- Go constant `math.MinInt32`. -/
def minInt32 : Int := -2147483648

/-- Go constant `math.MaxInt32`. -/
def maxInt32 : Int := 2147483647

/-- Go struct `LogarithmicMapper`. -/
structure LogarithmicMapper where
  relativeAccuracy : ℝ
  gamma : ℝ
  multiplier : ℝ
  minValue : ℝ
  maxValue : ℝ

/-- Go `NewLogarithmicMapper`. -/
noncomputable def NewLogarithmicMapper (relativeAccuracy : ℝ) : Except String LogarithmicMapper :=
  if relativeAccuracy ≤ 0 ∨ relativeAccuracy ≥ 1 then
    .error "relative accuracy must be between 0 and 1"
  else
    let gamma := (1 + relativeAccuracy) / (1 - relativeAccuracy)
    let multiplier := 1 / Real.log gamma
    .ok
      { relativeAccuracy := relativeAccuracy,
        gamma := gamma,
        multiplier := multiplier,
        minValue := max (Real.exp ((minInt32 : ℝ) / multiplier + 1)) (minNormalFloat64 * gamma),
        maxValue := min (Real.exp ((maxInt32 : ℝ) / multiplier - 1))
          (Real.exp expOverflow / (2 * gamma) * (gamma + 1)) }

/-- Go `IsMergeable`. -/
noncomputable def IsMergeable (left right : LogarithmicMapper) : Bool :=
  if left.relativeAccuracy = right.relativeAccuracy then true else false

/-- Go `MinValue`. -/
def MinValue (m : LogarithmicMapper) : ℝ := m.minValue

/-- Go `MaxValue`. -/
def MaxValue (m : LogarithmicMapper) : ℝ := m.maxValue

/-- The Go conversion `int(x)` of a `float64`: truncation towards zero. -/
noncomputable def toInt (x : ℝ) : Int :=
  if 0 ≤ x then ⌊x⌋ else ⌈x⌉

/-- Go `Index`. -/
noncomputable def Index (m : LogarithmicMapper) (value : ℝ) : Int :=
  let index := Real.log value * m.multiplier
  if index ≥ 0 then toInt index else toInt index - 1

/-- Go `Value`. -/
noncomputable def Value (m : LogarithmicMapper) (index : Int) : ℝ :=
  let lowerBound := Real.exp ((index : ℝ) / m.multiplier)
  let relativeAccuracy := 1 - 2 / (1 + m.gamma)
  lowerBound * (1 + relativeAccuracy)

end mapper

namespace quantilesketch

open storage mapper

/-- Go struct `QuantileSketch`.  The interface fields `mapper`, `positiveValues` and
`negativeValues` hold the only implementations of the repository, which is what `New` stores in
them. -/
structure QuantileSketch where
  mapper : LogarithmicMapper
  positiveValues : BufferedPaginatedStorage ℝ
  negativeValues : BufferedPaginatedStorage ℝ
  zeroCount : ℝ

/-- Go `New`. -/
noncomputable def New (relativeAccuracy : ℝ) : Except String QuantileSketch :=
  match NewLogarithmicMapper relativeAccuracy with
  | .error err => .error err
  | .ok logarithmicMapper =>
    .ok
      { mapper := logarithmicMapper,
        positiveValues := NewBufferedPaginatedStorage ℝ,
        negativeValues := NewBufferedPaginatedStorage ℝ,
        zeroCount := 0 }

/-- Go `isMappersMergeable` (both mappers are `*mapper.LogarithmicMapper`). -/
noncomputable def isMappersMergeable (left right : LogarithmicMapper) : Option String :=
  if IsMergeable left right = false then some "mappers are not mergeable" else none

/-- Go `mergeStorages` (both storages are `*storage.BufferedPaginatedStorage`). -/
noncomputable def mergeStorages (growCap : Nat → Nat) (left right : BufferedPaginatedStorage ℝ) :
    Option String × BufferedPaginatedStorage ℝ :=
  storage.Merge growCap left right

/-- Go `Merge` of the sketch: the error (if any) and the state of `left` afterwards. -/
noncomputable def Merge (growCap : Nat → Nat) (left right : QuantileSketch) :
    Option String × QuantileSketch :=
  match isMappersMergeable left.mapper right.mapper with
  | some err => (some err, left)
  | none =>
    let p := mergeStorages growCap left.positiveValues right.positiveValues
    match p.1 with
    | some err => (some err, { left with positiveValues := p.2 })
    | none =>
      let n := mergeStorages growCap left.negativeValues right.negativeValues
      match n.1 with
      | some err => (some err, { left with positiveValues := p.2, negativeValues := n.2 })
      | none =>
        (none,
          { left with
            positiveValues := p.2,
            negativeValues := n.2,
            zeroCount := left.zeroCount + right.zeroCount })

/-- Go `RecordValue` of the sketch: the error (if any) and the state afterwards.  The tests
`math.IsNaN(value)` and `math.IsInf(value, 0)` are false for every real number. -/
noncomputable def RecordValue (growCap : Nat → Nat) (s : QuantileSketch) (value count : ℝ) :
    Option String × QuantileSketch :=
  if count < 0 then
    (some "count must be non-negative", s)
  else if value > MaxValue s.mapper ∨ value < -MaxValue s.mapper then
    (some "value is not within proper range", s)
  else if value > MinValue s.mapper then
    let index := Index s.mapper value
    (none, { s with positiveValues := storage.RecordValue growCap s.positiveValues index count })
  else if value < -MinValue s.mapper then
    (none, { s with negativeValues :=
      storage.RecordValue growCap s.negativeValues (Index s.mapper (-value)) count })
  else
    (none, { s with zeroCount := s.zeroCount + count })

/-- Go `GetValueAtQuantile`: the result and the state afterwards (`KeyAtRank` sorts the buffer of
the storage it is called on). -/
noncomputable def GetValueAtQuantile (s : QuantileSketch) (quantile : ℝ) :
    Except String ℝ × QuantileSketch :=
  if quantile < 0 ∨ quantile > 1 then
    (.error "quantile must be between 0 and 1", s)
  else
    let count := s.zeroCount + Size s.positiveValues + Size s.negativeValues
    if count = 0 then
      (.error "empty sketch", s)
    else
      let rank := quantile * (count - 1)
      let negativeValuesCount := Size s.negativeValues
      if rank < negativeValuesCount then
        let r := KeyAtRank s.negativeValues (negativeValuesCount - 1 - rank)
        match r.1 with
        | .error err => (.error err, { s with negativeValues := r.2 })
        | .ok key => (.ok (-Value s.mapper key), { s with negativeValues := r.2 })
      else if rank < s.zeroCount + negativeValuesCount then
        (.ok 0, s)
      else
        let r := KeyAtRank s.positiveValues (rank - s.zeroCount - negativeValuesCount)
        match r.1 with
        | .error err => (.error err, { s with positiveValues := r.2 })
        | .ok key => (.ok (Value s.mapper key), { s with positiveValues := r.2 })

end quantilesketch

/-! ## Vocabulary of the specification -/

namespace storage

section vocabulary

variable {F : Type} [LinearOrderedField F]

/-- An index that a Go `int` can hold on a 64 bit platform. -/
def isInt64 (i : Int) : Prop := -2 ^ 63 ≤ i ∧ i < 2 ^ 63

/-- The page of page number `p`: `b.pages[p - b.minPageIndex]`, and `[]` when the table has no
such entry. -/
def pageOf (b : BufferedPaginatedStorage F) (p : Int) : List F :=
  if p ≥ b.minPageIndex ∧ p < b.minPageIndex + (b.pages.length : Int) then
    pageAt b (p - b.minPageIndex).toNat
  else []

/-- The weight that the page table stores for index `i`:
`b.pages[pageIndex(i) - b.minPageIndex][lineIndex(i)]`, and `0` when there is no such slot. -/
def slotAt (b : BufferedPaginatedStorage F) (i : Int) : F :=
  (pageOf b (pageIndex b i)).getD (lineIndex b i).toNat 0

/-- The logical weight of index `i`: its number of occurrences in the buffer plus its page
slot. -/
def weightAt (b : BufferedPaginatedStorage F) (i : Int) : F :=
  (b.buffer.count i : F) + slotAt b i

/-- The slots of one page with their indices; the list argument is `page[line:]`. -/
def lineSlots (b : BufferedPaginatedStorage F) (pageIdx : Int) : Nat → List F → List (Int × F)
  | _, [] => []
  | line, count :: rest => (index b pageIdx (line : Int), count) :: lineSlots b pageIdx (line + 1) rest

/-- The slots of the pages `b.pages[pageOffset:]` with their indices. -/
def pageSlots (b : BufferedPaginatedStorage F) : Nat → List (List F) → List (Int × F)
  | _, [] => []
  | pageOffset, page :: rest =>
    lineSlots b (b.minPageIndex + (pageOffset : Int)) 0 page ++ pageSlots b (pageOffset + 1) rest

/-- All slots of the page table with their indices, in table order. -/
def slots (b : BufferedPaginatedStorage F) : List (Int × F) :=
  pageSlots b 0 b.pages

/-- The weight that a buffer and a list of indexed slots give to the indices `≤ i`: buffer
entries `≤ i` count one each, slots of an index `≤ i` count their value. -/
def weightBelow (buffer : List Int) (sl : List (Int × F)) (i : Int) : F :=
  ((buffer.filter (fun e => decide (e ≤ i))).length : F) +
    ((sl.filter (fun s => decide (s.1 ≤ i))).map (fun s => s.2)).sum

/-- The total weight of all indices `≤ i`: buffer occurrences plus page slot weights. -/
def cumWeight (b : BufferedPaginatedStorage F) (i : Int) : F :=
  weightBelow b.buffer (slots b) i

/-- The scan of `minIndexWithCumulativeCount` over a flat list of indexed slots (the two nested
loops of the source walk `slots b`). -/
def scanSlots (rank : F) : List (Int × F) → F → List Int → Scan F
  | [], cumulativeCount, bufferRest => Scan.next cumulativeCount bufferRest
  | s :: rest, cumulativeCount, bufferRest =>
    match drainBelow rank s.1 cumulativeCount bufferRest with
    | Scan.found key => Scan.found key
    | Scan.next cumulativeCount1 bufferRest1 =>
      if cumulativeCount1 + s.2 > rank then Scan.found s.1
      else scanSlots rank rest (cumulativeCount1 + s.2) bufferRest1

/-- The scan over a flat list of slots followed by the last loop over the buffer. -/
def scanResult (rank : F) (sl : List (Int × F)) (cumulativeCount : F) (bufferRest : List Int) :
    Option Int :=
  match scanSlots rank sl cumulativeCount bufferRest with
  | Scan.found key => some key
  | Scan.next cumulativeCount1 bufferRest1 => drainAll rank cumulativeCount1 bufferRest1

/-- Well-formed storage states: the constants of `NewBufferedPaginatedStorage`, pages that are
`nil` or have `2^5` slots, a base that is the sentinel exactly when no table was allocated, and
representable contents. -/
structure WF (b : BufferedPaginatedStorage F) : Prop where
  log2 : b.pageLenLog2 = 5
  mask : b.pageLenMask = 31
  entrySize : b.bufferEntrySize = 64
  pageLen : ∀ pg ∈ b.pages, pg.length = 0 ∨ pg.length = 32
  base : b.minPageIndex = maxInt → b.pages = []
  top : b.minPageIndex + (b.pages.length : Int) ≤ maxInt
  low : -2 ^ 59 ≤ b.minPageIndex
  bufferRange : ∀ e ∈ b.buffer, isInt64 e

/-- The effect of a call `page(p, e)` that leads from `b` to `b1` and returns `pg`: nothing but
the page table changes, and the table changes only by materialising the page `p` (when `e` is
set). -/
structure PageStep (b b1 : BufferedPaginatedStorage F) (p : Int) (e : Bool) (pg : List F) :
    Prop where
  buffer : b1.buffer = b.buffer
  bufferCap : b1.bufferCap = b.bufferCap
  trigger : b1.compactionTriggerSize = b.compactionTriggerSize
  wf : WF b1
  pages : ∀ q, pageOf b1 q = pageOf b q ∨
    (q = p ∧ e = true ∧ pageOf b q = [] ∧ pageOf b1 q = List.replicate 32 0)
  returned : pg = pageOf b1 p
  ensured : e = true → (pageOf b1 p).length = 32
  unchanged : e = false → b1 = b

/-- Every page slot holds a non-negative weight. -/
def NonNeg (b : BufferedPaginatedStorage F) : Prop :=
  ∀ pg ∈ b.pages, ∀ c ∈ pg, 0 ≤ c

/-- The weight that a list of `(index, count)` records gives to index `j`. -/
def recordedAt (recs : List (Int × F)) (j : Int) : F :=
  ((recs.filter (fun r => decide (r.1 = j))).map (fun r => r.2)).sum

/-- The weight that a list of `(index, count)` records gives to the indices `≤ i`. -/
def recordedBelow (recs : List (Int × F)) (i : Int) : F :=
  ((recs.filter (fun r => decide (r.1 ≤ i))).map (fun r => r.2)).sum

/-- `RecordValue` called for each `(index, count)` of a list, in order. -/
def recordEach (growCap : Nat → Nat) (b : BufferedPaginatedStorage F) (recs : List (Int × F)) :
    BufferedPaginatedStorage F :=
  recs.foldl (fun acc r => RecordValue growCap acc r.1 r.2) b

/-- The number of entries of a buffer that lie on the page of entry `e` (the size of the group
of `e` in Go `compact`). -/
def groupSize (b : BufferedPaginatedStorage F) (buffer : List Int) (e : Int) : Nat :=
  (buffer.filter (fun x => decide (pageIndex b x = pageIndex b e))).length

/-- Whether Go `compact` folds the buffered entry `e` into its page: the page exists already, or
the group of `e` is large enough for `ensureExists`. -/
def foldsEntry (b : BufferedPaginatedStorage F) (buffer : List Int) (e : Int) : Bool :=
  decide ((pageOf b (pageIndex b e)).length > 0) ||
    decide ((groupSize b buffer e : Int) * b.bufferEntrySize ≥
      ((1 : Int) <<< (b.pageLenLog2 : Int)) * float64size)

/-- The states that `RecordValue` calls with representable indices and non-negative counts
produce from `NewBufferedPaginatedStorage`. -/
inductive Reachable (growCap : Nat → Nat) : BufferedPaginatedStorage F → Prop where
  | new : Reachable growCap (NewBufferedPaginatedStorage F)
  | record (b : BufferedPaginatedStorage F) (index : Int) (count : F) :
      Reachable growCap b → isInt64 index → 0 ≤ count →
      Reachable growCap (RecordValue growCap b index count)

end vocabulary

end storage

namespace quantilesketch

open storage mapper

/-- `RecordValue` called for each `(value, count)` of a list, in order. -/
noncomputable def recordAll (growCap : Nat → Nat) (s : QuantileSketch) (l : List (ℝ × ℝ)) :
    QuantileSketch :=
  l.foldl (fun acc p => (RecordValue growCap acc p.1 p.2).2) s

/-- A `(value, count)` pair that `RecordValue` accepts: the count is not negative and the value
is within `±MaxValue`. -/
def Accepted (m : LogarithmicMapper) (p : ℝ × ℝ) : Prop :=
  0 ≤ p.2 ∧ ¬ (p.1 > MaxValue m ∨ p.1 < -MaxValue m)

/-- The `(index, count)` records that a list of accepted pairs sends to the positive store. -/
noncomputable def positiveRecords (m : LogarithmicMapper) (l : List (ℝ × ℝ)) : List (Int × ℝ) :=
  (l.filter (fun p => decide (p.1 > MinValue m))).map (fun p => (Index m p.1, p.2))

/-- The `(index, count)` records that a list of accepted pairs sends to the negative store. -/
noncomputable def negativeRecords (m : LogarithmicMapper) (l : List (ℝ × ℝ)) : List (Int × ℝ) :=
  (l.filter (fun p => decide (¬ p.1 > MinValue m ∧ p.1 < -MinValue m))).map
    (fun p => (Index m (-p.1), p.2))

/-- The weight that a list of accepted pairs adds to `zeroCount`. -/
noncomputable def zeroWeight (m : LogarithmicMapper) (l : List (ℝ × ℝ)) : ℝ :=
  ((l.filter (fun p => decide (¬ p.1 > MinValue m ∧ ¬ p.1 < -MinValue m))).map
    (fun p => p.2)).sum

/-- A Go `float64` argument: a real number, an infinity or NaN. -/
inductive Float64 where
  | finite (x : ℝ) : Float64
  | posInf : Float64
  | negInf : Float64
  | nan : Float64

/-- Go `RecordValue` of the sketch at an arbitrary `float64` value.  After the test of the count,
`+Inf` is rejected by `value > MaxValue` (and `math.IsInf`), `-Inf` by `value < -MaxValue`, and
NaN by `math.IsNaN`; a finite value is handled by `RecordValue`. -/
noncomputable def RecordValueFloat (growCap : Nat → Nat) (s : QuantileSketch) (value : Float64)
    (count : ℝ) : Option String × QuantileSketch :=
  match value with
  | Float64.finite x => RecordValue growCap s x count
  | _ =>
    if count < 0 then (some "count must be non-negative", s)
    else (some "value is not within proper range", s)

/-- Go comparison `x <= y` of two `float64`: false as soon as one side is NaN. -/
noncomputable def Float64.le : Float64 → Float64 → Bool
  | Float64.nan, _ => false
  | _, Float64.nan => false
  | Float64.negInf, _ => true
  | _, Float64.posInf => true
  | Float64.finite a, Float64.finite b => decide (a ≤ b)
  | _, _ => false

/-- Go `NewLogarithmicMapper` at an arbitrary `float64` argument: the error that it returns, if
any.  The only error is the one of the guard `relativeAccuracy <= 0 || relativeAccuracy >= 1`
(written `1 <= relativeAccuracy` here); past the guard the function returns its mapper and a nil
error. -/
noncomputable def NewLogarithmicMapperFloat (relativeAccuracy : Float64) : Option String :=
  if Float64.le relativeAccuracy (Float64.finite 0) = true ∨
      Float64.le (Float64.finite 1) relativeAccuracy = true then
    some "relative accuracy must be between 0 and 1"
  else none

/-- Go `New` at an arbitrary `float64` argument: the error that it returns, if any (the error of
`NewLogarithmicMapper`, and nil otherwise). -/
noncomputable def NewFloat (relativeAccuracy : Float64) : Option String :=
  match NewLogarithmicMapperFloat relativeAccuracy with
  | some err => some err
  | none => none

/-- Sketch states with a mapper built by `NewLogarithmicMapper` and well-formed stores (every
state that `New` and `RecordValue` produce). -/
def WellFormed (s : QuantileSketch) : Prop :=
  (∃ a, NewLogarithmicMapper a = Except.ok s.mapper) ∧ WF s.positiveValues ∧ WF s.negativeValues

end quantilesketch

set_option linter.unusedSectionVars false

/-! ## Index arithmetic -/

namespace storage

section arithmetic

variable {F : Type} [LinearOrderedField F]

theorem ldiff_mask (m n : Nat) : Nat.ldiff (2 ^ n - 1) m = 2 ^ n - 1 - m % 2 ^ n := by
  apply Nat.eq_of_testBit_eq
  intro k
  have hlt : m % 2 ^ n < 2 ^ n := Nat.mod_lt _ (by positivity)
  have h2 := Nat.testBit_two_pow_sub_succ hlt k
  have e : 2 ^ n - (m % 2 ^ n + 1) = 2 ^ n - 1 - m % 2 ^ n := by omega
  rw [e] at h2
  rw [h2, Nat.testBit_ldiff, Nat.testBit_mod_two_pow, Nat.testBit_two_pow_sub_one]
  by_cases hk : k < n <;> simp [hk]

theorem land_31 (i : Int) : Int.land i 31 = i % 32 := by
  cases i with
  | ofNat m =>
    show ((m &&& 31 : Nat) : Int) = (m : Int) % 32
    have := Nat.and_pow_two_sub_one_eq_mod m 5
    norm_num at this
    rw [this]; rfl
  | negSucc m =>
    show ((Nat.ldiff 31 m : Nat) : Int) = Int.negSucc m % 32
    have h := ldiff_mask m 5
    norm_num at h
    rw [h, Int.negSucc_eq]
    omega

theorem ldiff_low (m n : Nat) : Nat.ldiff m (2 ^ n - 1) = m - m % 2 ^ n := by
  apply Nat.eq_of_testBit_eq
  intro k
  have e : m - m % 2 ^ n = 2 ^ n * (m / 2 ^ n) := by
    have := Nat.div_add_mod m (2 ^ n)
    omega
  rw [e, Nat.testBit_ldiff, Nat.testBit_two_pow_sub_one, Nat.testBit_mul_pow_two,
    ← Nat.shiftRight_eq_div_pow, Nat.testBit_shiftRight]
  by_cases hk : k < n
  · simp [hk]
  · have : n ≤ k := by omega
    simp [hk, this]

theorem land_neg8 (r : Int) (h : 0 ≤ r) : Int.land r (-8) = r - r % 8 := by
  obtain ⟨m, rfl⟩ := Int.eq_ofNat_of_zero_le h
  show ((Nat.ldiff m 7 : Nat) : Int) = _
  have h := ldiff_low m 3
  norm_num at h
  rw [h]
  omega

theorem newPagesSize_eq (r : Int) (h : 0 ≤ r) : newPagesSize r = r + 7 - (r + 7) % 8 := by
  unfold newPagesSize ptrSize
  norm_num
  have e : r + 8 - 1 = r + 7 := by ring
  rw [e]
  exact land_neg8 (r + 7) (by omega)

theorem newPagesSize_one : newPagesSize 1 = 8 := by
  rw [newPagesSize_eq 1 (by norm_num)]; norm_num

theorem newPagesSize_ge (r : Int) (h : 0 ≤ r) : r ≤ newPagesSize r ∧ newPagesSize r ≤ r + 7 := by
  rw [newPagesSize_eq r h]; omega

theorem pageIndex_eq {b : BufferedPaginatedStorage F} (h : WF b) (i : Int) :
    pageIndex b i = i / 32 := by
  unfold pageIndex
  rw [h.log2, Int.shiftRight_eq_div_pow]
  norm_num

theorem lineIndex_eq {b : BufferedPaginatedStorage F} (h : WF b) (i : Int) :
    lineIndex b i = i % 32 := by
  unfold lineIndex
  rw [h.mask, land_31]

theorem index_eq {b : BufferedPaginatedStorage F} (h : WF b) (p l : Int) :
    index b p l = p * 32 + l := by
  unfold index
  rw [h.log2, Int.shiftLeft_eq_mul_pow]
  norm_num

theorem pageSize_eq {b : BufferedPaginatedStorage F} (h : WF b) :
    (1 : Int) <<< (b.pageLenLog2 : Int) = 32 := by
  rw [h.log2, Int.shiftLeft_eq_mul_pow]
  norm_num

theorem lineIndex_toNat_lt {b : BufferedPaginatedStorage F} (h : WF b) (i : Int) :
    (lineIndex b i).toNat < 32 := by
  rw [lineIndex_eq h]; omega

theorem index_pageIndex_lineIndex {b : BufferedPaginatedStorage F} (h : WF b) (i : Int) :
    index b (pageIndex b i) (lineIndex b i) = i := by
  rw [index_eq h, pageIndex_eq h, lineIndex_eq h]; omega

theorem pageIndex_index {b : BufferedPaginatedStorage F} (h : WF b) (p : Int) (l : Nat)
    (hl : l < 32) : pageIndex b (index b p (l : Int)) = p := by
  rw [index_eq h, pageIndex_eq h]; omega

theorem lineIndex_index {b : BufferedPaginatedStorage F} (h : WF b) (p : Int) (l : Nat)
    (hl : l < 32) : (lineIndex b (index b p (l : Int))).toNat = l := by
  rw [index_eq h, lineIndex_eq h]; omega

theorem pageIndex_bound {b : BufferedPaginatedStorage F} (h : WF b) (i : Int) (hi : isInt64 i) :
    -2 ^ 58 ≤ pageIndex b i ∧ pageIndex b i < 2 ^ 58 := by
  rw [pageIndex_eq h]
  unfold isInt64 at hi
  omega

end arithmetic

end storage

/-! ## The page table -/

namespace storage

section pagetable

variable {F : Type} [LinearOrderedField F]

theorem getD_set_eq {α : Type} (l : List α) (i : Nat) (a d : α) (h : i < l.length) :
    (l.set i a).getD i d = a := by
  rw [List.getD_eq_getElem?_getD, List.getElem?_set]
  simp [h]

theorem getD_set_ne {α : Type} (l : List α) (i j : Nat) (a d : α) (h : i ≠ j) :
    (l.set i a).getD j d = l.getD j d := by
  rw [List.getD_eq_getElem?_getD, List.getD_eq_getElem?_getD, List.getElem?_set]
  simp [h]

theorem getD_replicate_self {α : Type} (n m : Nat) (a : α) :
    (List.replicate n a).getD m a = a := by
  rw [List.getD_eq_getElem?_getD, List.getElem?_replicate]
  split <;> rfl

theorem getD_mem_or {α : Type} (l : List α) (n : Nat) (d : α) :
    l.getD n d ∈ l ∨ l.getD n d = d := by
  by_cases h : n < l.length
  · left
    rw [List.getD_eq_getElem l d h]
    exact List.getElem_mem _
  · right
    exact List.getD_eq_default l d (by omega)

theorem pageOf_eq_nil_of_pages_nil {b : BufferedPaginatedStorage F} (h : b.pages = [])
    (q : Int) : pageOf b q = [] := by
  unfold pageOf pageAt
  rw [h]
  split <;> rfl

theorem pageOf_mem_or {b : BufferedPaginatedStorage F} (q : Int) :
    pageOf b q ∈ b.pages ∨ pageOf b q = [] := by
  unfold pageOf pageAt
  split
  · exact getD_mem_or _ _ _
  · right; rfl

theorem pageOf_length {b : BufferedPaginatedStorage F} (h : WF b) (q : Int) :
    (pageOf b q).length = 0 ∨ (pageOf b q).length = 32 := by
  rcases pageOf_mem_or (b := b) q with hm | hm
  · exact h.pageLen _ hm
  · left; rw [hm]; rfl

theorem pageOf_inRange {b : BufferedPaginatedStorage F} {q : Int} (h : (pageOf b q).length ≠ 0) :
    q ≥ b.minPageIndex ∧ q < b.minPageIndex + (b.pages.length : Int) := by
  unfold pageOf at h
  by_contra hc
  rw [if_neg hc] at h
  exact h rfl

theorem pageOf_of_inRange {b : BufferedPaginatedStorage F} {q : Int}
    (h : q ≥ b.minPageIndex ∧ q < b.minPageIndex + (b.pages.length : Int)) :
    pageOf b q = pageAt b (q - b.minPageIndex).toNat := by
  unfold pageOf
  rw [if_pos h]

theorem mem_pages_pageOf {b : BufferedPaginatedStorage F} (pg : List F) (h : pg ∈ b.pages) :
    ∃ q, pageOf b q = pg := by
  obtain ⟨n, hn, rfl⟩ := List.mem_iff_getElem.mp h
  refine ⟨b.minPageIndex + (n : Int), ?_⟩
  rw [pageOf_of_inRange (by omega)]
  unfold pageAt
  have : (b.minPageIndex + (n : Int) - b.minPageIndex).toNat = n := by omega
  rw [this, List.getD_eq_getElem _ _ hn]

theorem pageOf_setPage (b : BufferedPaginatedStorage F) (off : Nat) (pg : List F)
    (h : off < b.pages.length) (q : Int) :
    pageOf (setPage b off pg) q = if q = b.minPageIndex + (off : Int) then pg else pageOf b q := by
  unfold pageOf pageAt setPage
  simp only [List.length_set]
  by_cases hq : q = b.minPageIndex + (off : Int)
  · subst hq
    rw [if_pos (by omega), if_pos rfl]
    have : (b.minPageIndex + (off : Int) - b.minPageIndex).toNat = off := by omega
    rw [this]
    exact getD_set_eq _ _ _ _ h
  · rw [if_neg hq]
    by_cases hr : q ≥ b.minPageIndex ∧ q < b.minPageIndex + (b.pages.length : Int)
    · rw [if_pos hr, if_pos hr]
      apply getD_set_ne
      omega
    · rw [if_neg hr, if_neg hr]

theorem pageOf_prepend (b b1 : BufferedPaginatedStorage F) (k : Nat)
    (hp : b1.pages = List.replicate k [] ++ b.pages)
    (hm : b1.minPageIndex = b.minPageIndex - (k : Int)) (q : Int) :
    pageOf b1 q = pageOf b q := by
  unfold pageOf pageAt
  rw [hp, hm]
  simp only [List.length_append, List.length_replicate]
  by_cases hr : q ≥ b.minPageIndex ∧ q < b.minPageIndex + (b.pages.length : Int)
  · rw [if_pos hr, if_pos (by push_cast; omega)]
    rw [List.getD_append_right _ _ _ _ (by simp; omega)]
    congr 1
    simp
    omega
  · rw [if_neg hr]
    split
    · rename_i h2
      rw [List.getD_append _ _ _ _ (by simp; push_cast at h2; omega)]
      exact getD_replicate_self _ _ _
    · rfl

theorem pageOf_append (b b1 : BufferedPaginatedStorage F) (k : Nat)
    (hp : b1.pages = b.pages ++ List.replicate k [])
    (hm : b1.minPageIndex = b.minPageIndex) (q : Int) :
    pageOf b1 q = pageOf b q := by
  unfold pageOf pageAt
  rw [hp, hm]
  simp only [List.length_append, List.length_replicate]
  by_cases hr : q ≥ b.minPageIndex ∧ q < b.minPageIndex + (b.pages.length : Int)
  · rw [if_pos hr, if_pos (by push_cast; omega)]
    rw [List.getD_append _ _ _ _ (by omega)]
  · rw [if_neg hr]
    split
    · rename_i h2
      rw [List.getD_append_right _ _ _ _ (by push_cast at h2; omega)]
      exact getD_replicate_self _ _ _
    · rfl

theorem pageOf_replicate (b1 : BufferedPaginatedStorage F) (k : Nat)
    (hp : b1.pages = List.replicate k []) (q : Int) : pageOf b1 q = [] := by
  unfold pageOf pageAt
  rw [hp]
  split
  · exact getD_replicate_self _ _ _
  · rfl

end pagetable

end storage

/-! ## `page` -/

namespace storage

section pagestep

variable {F : Type} [LinearOrderedField F]

theorem growPages_down_pages (pages : List (List F)) (k : Nat) :
    List.replicate k [] ++ ((pages ++ List.replicate k []).take k ++ pages).drop k =
      List.replicate k [] ++ pages := by
  congr 1
  have hl : ((pages ++ List.replicate k []).take k).length = k := by
    simp [List.length_take]
  rw [List.drop_append_of_le_length (by omega)]
  rw [List.drop_of_length_le (by omega)]
  rfl

theorem ensurePage_step {b : BufferedPaginatedStorage F} (h : WF b) (p : Int)
    (hr : p ≥ b.minPageIndex ∧ p < b.minPageIndex + (b.pages.length : Int)) :
    PageStep b (ensurePage b p 32).1 p true (ensurePage b p 32).2 := by
  have hoff : (p - b.minPageIndex).toNat < b.pages.length := by omega
  have hback : b.minPageIndex + ((p - b.minPageIndex).toNat : Int) = p := by omega
  unfold ensurePage
  by_cases hl : (pageAt b (p - b.minPageIndex).toNat).length = 0
  · simp only [hl, if_true]
    have hnil : pageAt b (p - b.minPageIndex).toNat = [] := List.eq_nil_of_length_eq_zero hl
    rw [hnil, List.nil_append]
    have hpo : ∀ q, pageOf (setPage b (p - b.minPageIndex).toNat (List.replicate 32 (0 : F))) q =
        if q = p then List.replicate 32 0 else pageOf b q := by
      intro q
      rw [pageOf_setPage b _ _ hoff q, hback]
    refine ⟨rfl, rfl, rfl, ?_, ?_, ?_, ?_, ?_⟩
    · refine ⟨h.log2, h.mask, h.entrySize, ?_, ?_, ?_, h.low, h.bufferRange⟩
      · intro pg hpg
        rcases List.mem_or_eq_of_mem_set hpg with hm | hm
        · exact h.pageLen pg hm
        · right; rw [hm]; simp
      · intro hm
        exfalso
        have := h.base hm
        rw [this] at hoff
        simp at hoff
      · show b.minPageIndex + ((b.pages.set _ _).length : Int) ≤ maxInt
        rw [List.length_set]
        exact h.top
    · intro q
      rw [hpo q]
      by_cases hq : q = p
      · right
        rw [if_pos hq]
        refine ⟨hq, rfl, ?_, rfl⟩
        rw [hq, pageOf_of_inRange hr, hnil]
      · left
        rw [if_neg hq]
    · rw [hpo p, if_pos rfl]
    · intro _
      rw [hpo p, if_pos rfl]
      simp
    · intro hc
      cases hc
  · simp only [hl, if_false]
    refine ⟨rfl, rfl, rfl, h, fun q => Or.inl rfl, ?_, ?_, ?_⟩
    · rw [pageOf_of_inRange hr]
    · intro _
      have := pageOf_length h p
      rw [pageOf_of_inRange hr] at this ⊢
      omega
    · intro hc
      cases hc

theorem growPages_spec {b : BufferedPaginatedStorage F} (h : WF b) (p : Int)
    (hp : -2 ^ 58 ≤ p ∧ p < 2 ^ 58)
    (hnr : ¬ (p ≥ b.minPageIndex ∧ p < b.minPageIndex + (b.pages.length : Int))) :
    (growPages b p).buffer = b.buffer ∧ (growPages b p).bufferCap = b.bufferCap ∧
    (growPages b p).compactionTriggerSize = b.compactionTriggerSize ∧
    WF (growPages b p) ∧ (∀ q, pageOf (growPages b p) q = pageOf b q) ∧
    (p ≥ (growPages b p).minPageIndex ∧
      p < (growPages b p).minPageIndex + ((growPages b p).pages.length : Int)) := by
  have htop := h.top
  have hlow := h.low
  unfold maxInt at htop
  unfold growPages
  by_cases h1 : p < b.minPageIndex
  · rw [if_pos h1]
    by_cases h2 : b.minPageIndex = maxInt
    · rw [if_pos h2]
      have hnil := h.base h2
      simp only [hnil, List.length_nil, if_true, List.nil_append, newPagesSize_one,
        List.length_replicate]
      norm_num
      refine ⟨?_, ?_, ?_⟩
      · refine ⟨h.log2, h.mask, h.entrySize, ?_, ?_, ?_, ?_, h.bufferRange⟩
        · intro pg hpg
          left
          rw [List.eq_of_mem_replicate hpg]
          rfl
        · intro hm
          exfalso
          simp only [maxInt] at hm
          omega
        · simp only [maxInt, List.length_replicate]
          norm_num
          omega
        · show -2 ^ 59 ≤ p - 4
          omega
      · intro q
        rw [pageOf_eq_nil_of_pages_nil hnil]
        exact pageOf_replicate _ 8 rfl q
      · omega
    · rw [if_neg h2]
      simp only [growPages_down_pages]
      have hreq : 0 ≤ b.minPageIndex - p + 1 + (b.pages.length : Int) := by omega
      have hge := newPagesSize_ge _ hreq
      generalize newPagesSize (b.minPageIndex - p + 1 + (b.pages.length : Int)) = newLen at hge ⊢
      have hk : ((newLen - (b.pages.length : Int)).toNat : Int) = newLen - (b.pages.length : Int) := by
        omega
      refine ⟨trivial, trivial, trivial, ?_, ?_, ?_⟩
      · refine ⟨h.log2, h.mask, h.entrySize, ?_, ?_, ?_, ?_, h.bufferRange⟩
        · intro pg hpg
          rcases List.mem_append.mp hpg with hm | hm
          · left
            rw [List.eq_of_mem_replicate hm]
            rfl
          · exact h.pageLen pg hm
        · intro hm
          exfalso
          simp only [maxInt] at hm
          omega
        · simp only [maxInt, List.length_append, List.length_replicate]
          push_cast
          omega
        · show -2 ^ 59 ≤ b.minPageIndex - (newLen - (b.pages.length : Int))
          omega
      · intro q
        exact pageOf_prepend b _ (newLen - (b.pages.length : Int)).toNat rfl (by simp only; omega) q
      · simp only [List.length_append, List.length_replicate]
        push_cast
        omega
  · rw [if_neg h1]
    have hreq : 0 ≤ p - b.minPageIndex + 1 := by omega
    have hge := newPagesSize_ge _ hreq
    generalize newPagesSize (p - b.minPageIndex + 1) = newLen at hge ⊢
    have hk : ((newLen - (b.pages.length : Int)).toNat : Int) = newLen - (b.pages.length : Int) := by
      omega
    refine ⟨rfl, rfl, rfl, ?_, ?_, ?_⟩
    · refine ⟨h.log2, h.mask, h.entrySize, ?_, ?_, ?_, h.low, h.bufferRange⟩
      · intro pg hpg
        rcases List.mem_append.mp hpg with hm | hm
        · exact h.pageLen pg hm
        · left
          rw [List.eq_of_mem_replicate hm]
          rfl
      · intro hm
        exfalso
        have hm2 : b.minPageIndex = maxInt := hm
        simp only [maxInt] at hm2
        omega
      · simp only [maxInt, List.length_append, List.length_replicate]
        push_cast
        omega
    · intro q
      exact pageOf_append b
        { b with pages := b.pages ++ List.replicate (newLen - (b.pages.length : Int)).toNat [] }
        (newLen - (b.pages.length : Int)).toNat rfl rfl q
    · simp only [List.length_append, List.length_replicate]
      push_cast
      omega

theorem page_step {b : BufferedPaginatedStorage F} (h : WF b) (p : Int) (e : Bool)
    (hp : -2 ^ 58 ≤ p ∧ p < 2 ^ 58) :
    PageStep b (page b p e).1 p e (page b p e).2 := by
  have hlen : ((1 : Int) <<< (b.pageLenLog2 : Int)).toNat = 32 := by
    rw [pageSize_eq h]; rfl
  by_cases hr : p ≥ b.minPageIndex ∧ p < b.minPageIndex + (b.pages.length : Int)
  · cases e with
    | true =>
      have he : page b p true = ensurePage b p 32 := by
        unfold page ensurePage
        simp only [hlen, if_pos hr, true_and]
      rw [he]
      exact ensurePage_step h p hr
    | false =>
      have he : page b p false = (b, pageAt b (p - b.minPageIndex).toNat) := by
        unfold page
        simp only [if_pos hr]
        simp
      rw [he]
      refine ⟨rfl, rfl, rfl, h, fun q => Or.inl rfl, ?_, ?_, fun _ => rfl⟩
      · show pageAt b (p - b.minPageIndex).toNat = pageOf b p
        rw [pageOf_of_inRange hr]
      · intro hc
        cases hc
  · cases e with
    | false =>
      have he : page b p false = (b, []) := by
        unfold page
        simp only [if_neg hr]
        simp
      rw [he]
      refine ⟨rfl, rfl, rfl, h, fun q => Or.inl rfl, ?_, ?_, fun _ => rfl⟩
      · show [] = pageOf b p
        unfold pageOf
        rw [if_neg hr]
      · intro hc
        cases hc
    | true =>
      have he : page b p true = ensurePage (growPages b p) p 32 := by
        unfold page
        simp only [if_neg hr, hlen]
        simp
      rw [he]
      obtain ⟨g1, g2, g3, g4, g5, g6⟩ := growPages_spec h p hp hr
      have s := ensurePage_step g4 p g6
      refine ⟨s.buffer.trans g1, s.bufferCap.trans g2, s.trigger.trans g3, s.wf, ?_, s.returned,
        s.ensured, ?_⟩
      · intro q
        rcases s.pages q with hq | ⟨hq1, hq2, hq3, hq4⟩
        · left; rw [hq, g5]
        · right
          refine ⟨hq1, hq2, ?_, hq4⟩
          rw [← g5, hq3]
      · intro hc
        cases hc

end pagestep

end storage

/-! ## Slots and logical weights -/

namespace storage

section slotweights

variable {F : Type} [LinearOrderedField F]

theorem slotAt_eq {b : BufferedPaginatedStorage F} (h : WF b) (i : Int) :
    slotAt b i = (pageOf b (i / 32)).getD (i % 32).toNat 0 := by
  unfold slotAt
  rw [pageIndex_eq h, lineIndex_eq h]

theorem slotAt_of_pages {b b1 : BufferedPaginatedStorage F} (h : WF b) (h1 : WF b1)
    (hp : ∀ q, pageOf b1 q = pageOf b q ∨ (pageOf b q = [] ∧ pageOf b1 q = List.replicate 32 0))
    (i : Int) : slotAt b1 i = slotAt b i := by
  rw [slotAt_eq h, slotAt_eq h1]
  rcases hp (i / 32) with hq | ⟨hq1, hq2⟩
  · rw [hq]
  · rw [hq1, hq2, getD_replicate_self]
    rfl

theorem PageStep.slotAt_preserved {b b1 : BufferedPaginatedStorage F} {p : Int} {e : Bool} {pg : List F}
    (h : WF b) (s : PageStep b b1 p e pg) (i : Int) : slotAt b1 i = slotAt b i := by
  apply slotAt_of_pages h s.wf
  intro q
  rcases s.pages q with hq | ⟨_, _, hq3, hq4⟩
  · exact Or.inl hq
  · exact Or.inr ⟨hq3, hq4⟩

theorem nonNeg_iff_pageOf (b : BufferedPaginatedStorage F) :
    NonNeg b ↔ ∀ q, ∀ c ∈ pageOf b q, 0 ≤ c := by
  constructor
  · intro h q c hc
    rcases pageOf_mem_or (b := b) q with hm | hm
    · exact h _ hm c hc
    · rw [hm] at hc
      cases hc
  · intro h pg hpg c hc
    obtain ⟨q, hq⟩ := mem_pages_pageOf pg hpg
    exact h q c (hq ▸ hc)

theorem PageStep.nonNeg {b b1 : BufferedPaginatedStorage F} {p : Int} {e : Bool} {pg : List F}
    (s : PageStep b b1 p e pg) (hn : NonNeg b) : NonNeg b1 := by
  rw [nonNeg_iff_pageOf] at hn ⊢
  intro q c hc
  rcases s.pages q with hq | ⟨_, _, _, hq4⟩
  · rw [hq] at hc
    exact hn q c hc
  · rw [hq4] at hc
    rw [List.eq_of_mem_replicate hc]

/-- The effect of `b.pages[p - b.minPageIndex][l] += d` on a materialised page. -/
theorem addToSlot_spec {b : BufferedPaginatedStorage F} (h : WF b) (p : Int) (l : Nat) (d : F)
    (hlen : (pageOf b p).length = 32) (_hl : l < 32) :
    WF (addToSlot b (p - b.minPageIndex).toNat l d) ∧
    (addToSlot b (p - b.minPageIndex).toNat l d).buffer = b.buffer ∧
    (addToSlot b (p - b.minPageIndex).toNat l d).bufferCap = b.bufferCap ∧
    (addToSlot b (p - b.minPageIndex).toNat l d).compactionTriggerSize =
      b.compactionTriggerSize ∧
    (addToSlot b (p - b.minPageIndex).toNat l d).minPageIndex = b.minPageIndex ∧
    (∀ q, pageOf (addToSlot b (p - b.minPageIndex).toNat l d) q =
      if q = p then (pageOf b p).set l ((pageOf b p).getD l 0 + d) else pageOf b q) := by
  have hr := pageOf_inRange (b := b) (q := p) (by omega)
  have hoff : (p - b.minPageIndex).toNat < b.pages.length := by omega
  have hback : b.minPageIndex + ((p - b.minPageIndex).toNat : Int) = p := by omega
  have hpa : pageAt b (p - b.minPageIndex).toNat = pageOf b p := (pageOf_of_inRange hr).symm
  unfold addToSlot
  rw [hpa]
  refine ⟨?_, rfl, rfl, rfl, rfl, ?_⟩
  · refine ⟨h.log2, h.mask, h.entrySize, ?_, ?_, ?_, h.low, h.bufferRange⟩
    · intro pg hpg
      rcases List.mem_or_eq_of_mem_set hpg with hm | hm
      · exact h.pageLen pg hm
      · right; rw [hm, List.length_set]; exact hlen
    · intro hm
      exfalso
      have := h.base hm
      rw [this] at hoff
      simp at hoff
    · show b.minPageIndex + ((b.pages.set _ _).length : Int) ≤ maxInt
      rw [List.length_set]
      exact h.top
  · intro q
    rw [pageOf_setPage b _ _ hoff q, hback]

theorem addToSlot_slotAt {b : BufferedPaginatedStorage F} (h : WF b) (p : Int) (l : Nat) (d : F)
    (hlen : (pageOf b p).length = 32) (hl : l < 32) (i : Int) :
    slotAt (addToSlot b (p - b.minPageIndex).toNat l d) i =
      slotAt b i + if i = p * 32 + (l : Int) then d else 0 := by
  obtain ⟨w, _, _, _, _, hp⟩ := addToSlot_spec h p l d hlen hl
  rw [slotAt_eq w, slotAt_eq h, hp]
  by_cases hq : i / 32 = p
  · rw [if_pos hq]
    by_cases hi : i = p * 32 + (l : Int)
    · rw [if_pos hi]
      have : (i % 32).toNat = l := by omega
      rw [this, hq]
      exact getD_set_eq _ _ _ _ (by omega)
    · rw [if_neg hi, add_zero, hq]
      apply getD_set_ne
      omega
  · rw [if_neg hq, if_neg (by omega), add_zero]

theorem addToSlot_nonNeg {b : BufferedPaginatedStorage F} (h : WF b) (p : Int) (l : Nat) (d : F)
    (hlen : (pageOf b p).length = 32) (hl : l < 32) (hn : NonNeg b) (hd : 0 ≤ d) :
    NonNeg (addToSlot b (p - b.minPageIndex).toNat l d) := by
  obtain ⟨_, _, _, _, _, hp⟩ := addToSlot_spec h p l d hlen hl
  rw [nonNeg_iff_pageOf] at hn ⊢
  intro q c hc
  rw [hp] at hc
  by_cases hq : q = p
  · rw [if_pos hq] at hc
    rcases List.mem_or_eq_of_mem_set hc with hm | hm
    · exact hn p c hm
    · rw [hm]
      have : 0 ≤ (pageOf b p).getD l 0 := by
        rcases getD_mem_or (pageOf b p) l (0 : F) with h1 | h1
        · exact hn p _ h1
        · rw [h1]
      linarith
  · rw [if_neg hq] at hc
    exact hn q c hc

theorem weightAt_addToSlot {b : BufferedPaginatedStorage F} (h : WF b) (p : Int) (l : Nat) (d : F)
    (hlen : (pageOf b p).length = 32) (hl : l < 32) (i : Int) :
    weightAt (addToSlot b (p - b.minPageIndex).toNat l d) i =
      weightAt b i + if i = p * 32 + (l : Int) then d else 0 := by
  unfold weightAt
  rw [addToSlot_slotAt h p l d hlen hl i, (addToSlot_spec h p l d hlen hl).2.1]
  ring

/-- Adding `d` to the slot of index `j`, whose page is materialised. -/
theorem weightAt_addToSlot_index {b : BufferedPaginatedStorage F} (h : WF b) (j : Int) (d : F)
    (hlen : (pageOf b (pageIndex b j)).length = 32) (i : Int) :
    weightAt (addToSlot b (pageIndex b j - b.minPageIndex).toNat (lineIndex b j).toNat d) i =
      weightAt b i + if i = j then d else 0 := by
  rw [weightAt_addToSlot h _ _ d hlen (lineIndex_toNat_lt h j) i]
  have : pageIndex b j * 32 + ((lineIndex b j).toNat : Int) = j := by
    rw [pageIndex_eq h, lineIndex_eq h]; omega
  rw [this]

end slotweights

end storage

/-! ## `compact`, `add` and `RecordValue` -/

namespace storage

section recording

variable {F : Type} [LinearOrderedField F]

theorem count_cons_cast (e i : Int) (rest : List Int) :
    (((e :: rest).count i : Nat) : F) = (rest.count i : F) + if i = e then 1 else 0 := by
  rw [List.count_cons]
  by_cases h : i = e
  · subst h
    simp
  · have : ¬ (e = i) := fun hc => h hc.symm
    simp [h, this]

theorem incrementLines_spec (group : List Int) :
    ∀ (b : BufferedPaginatedStorage F) (p : Int), WF b → (pageOf b p).length = 32 →
      (∀ e ∈ group, e / 32 = p) →
      WF (incrementLines b p group) ∧ (incrementLines b p group).buffer = b.buffer ∧
      (incrementLines b p group).bufferCap = b.bufferCap ∧
      (∀ i, slotAt (incrementLines b p group) i = slotAt b i + (group.count i : F)) ∧
      (NonNeg b → NonNeg (incrementLines b p group)) := by
  induction group with
  | nil =>
    intro b p h _ _
    refine ⟨h, rfl, rfl, ?_, fun hn => hn⟩
    intro i
    simp [incrementLines]
  | cons e rest ih =>
    intro b p h hlen hg
    have hl := lineIndex_toNat_lt h e
    obtain ⟨w, hb, hc, _, _, hp⟩ := addToSlot_spec h p (lineIndex b e).toNat 1 hlen hl
    have hlen1 : (pageOf (addToSlot b (p - b.minPageIndex).toNat (lineIndex b e).toNat 1)
        p).length = 32 := by
      rw [hp, if_pos rfl, List.length_set]
      exact hlen
    have hstep : incrementLines b p (e :: rest) =
        incrementLines (addToSlot b (p - b.minPageIndex).toNat (lineIndex b e).toNat 1) p rest := by
      simp [incrementLines]
    obtain ⟨w2, hb2, hc2, hs2, hn2⟩ := ih _ p w hlen1 (fun x hx => hg x (List.mem_cons_of_mem _ hx))
    rw [hstep]
    refine ⟨w2, hb2.trans hb, hc2.trans hc, ?_, ?_⟩
    · intro i
      rw [hs2 i, addToSlot_slotAt h p _ 1 hlen hl i, count_cons_cast]
      have he : p * 32 + ((lineIndex b e).toNat : Int) = e := by
        have := hg e (List.mem_cons_self _ _)
        rw [lineIndex_eq h]
        omega
      rw [he]
      ring
    · intro hn
      exact hn2 (addToSlot_nonNeg h p _ 1 hlen hl hn (by norm_num))

theorem isInt64_div {e : Int} (h : isInt64 e) : -2 ^ 58 ≤ e / 32 ∧ e / 32 < 2 ^ 58 := by
  unfold isInt64 at h
  omega

theorem compactLoop_spec (n : Nat) :
    ∀ (b : BufferedPaginatedStorage F) (kept rest : List Int), rest.length ≤ n → WF b →
      (∀ e ∈ rest, isInt64 e) →
      WF (compactLoop b kept rest).1 ∧ (compactLoop b kept rest).1.buffer = b.buffer ∧
      (compactLoop b kept rest).1.bufferCap = b.bufferCap ∧
      (∀ i, (((compactLoop b kept rest).2.count i : Nat) : F) + slotAt (compactLoop b kept rest).1 i
        = (((kept ++ rest).count i : Nat) : F) + slotAt b i) ∧
      (∀ e ∈ (compactLoop b kept rest).2, e ∈ kept ++ rest) ∧
      (NonNeg b → NonNeg (compactLoop b kept rest).1) := by
  induction n with
  | zero =>
    intro b kept rest hlen h _
    have : rest = [] := List.eq_nil_of_length_eq_zero (by omega)
    subst this
    rw [compactLoop, List.append_nil]
    exact ⟨h, rfl, rfl, fun i => rfl, fun e he => he, fun hn => hn⟩
  | succ n ih =>
    intro b kept rest hlen h hrange
    cases rest with
    | nil =>
      rw [compactLoop, List.append_nil]
      exact ⟨h, rfl, rfl, fun i => rfl, fun e he => he, fun hn => hn⟩
    | cons first tail =>
      rw [compactLoop]
      simp only []
      have hdrop : (tail.dropWhile (fun e => decide (pageIndex b e = pageIndex b first))).length ≤ n := by
        have := (List.dropWhile_sublist (fun e => decide (pageIndex b e = pageIndex b first))
          (l := tail)).length_le
        simp only [List.length_cons] at hlen
        omega
      have hsplit : tail.takeWhile (fun e => decide (pageIndex b e = pageIndex b first)) ++
          tail.dropWhile (fun e => decide (pageIndex b e = pageIndex b first)) = tail :=
        List.takeWhile_append_dropWhile _ _
      have hrest : ∀ e ∈ tail.dropWhile (fun e => decide (pageIndex b e = pageIndex b first)),
          isInt64 e := by
        intro e he
        exact hrange e (List.mem_cons_of_mem _ (List.dropWhile_subset _ he))
      have hgroup : ∀ e ∈ first :: tail.takeWhile
          (fun e => decide (pageIndex b e = pageIndex b first)), e / 32 = pageIndex b first := by
        intro e he
        rcases List.mem_cons.mp he with he | he
        · rw [he, pageIndex_eq h]
        · have := List.mem_takeWhile_imp he
          simp only [decide_eq_true_eq] at this
          rw [← this, pageIndex_eq h]
      have hcount : ∀ i, (((kept ++ first :: tail).count i : Nat) : F) =
          ((kept.count i : Nat) : F) +
          (((first :: tail.takeWhile
            (fun e => decide (pageIndex b e = pageIndex b first))).count i : Nat) : F) +
          (((tail.dropWhile
            (fun e => decide (pageIndex b e = pageIndex b first))).count i : Nat) : F) := by
        intro i
        conv_lhs => rw [← hsplit]
        rw [List.count_append, List.count_cons, List.count_append, List.count_cons]
        push_cast
        ring
      have hpb : -2 ^ 58 ≤ pageIndex b first ∧ pageIndex b first < 2 ^ 58 :=
        pageIndex_bound h first (hrange first (List.mem_cons_self _ _))
      generalize hE : decide (((first :: tail.takeWhile
          (fun e => decide (pageIndex b e = pageIndex b first))).length : Int) *
          b.bufferEntrySize ≥ (1 : Int) <<< (b.pageLenLog2 : Int) * float64size) = ens
      have s := page_step h (pageIndex b first) ens hpb
      by_cases hpg : (page b (pageIndex b first) ens).2.length > 0
      · rw [if_pos hpg]
        have hlen32 : (pageOf (page b (pageIndex b first) ens).1 (pageIndex b first)).length = 32 := by
          have := pageOf_length s.wf (pageIndex b first)
          rw [← s.returned] at this ⊢
          omega
        obtain ⟨w1, hb1, hc1, hs1, hn1⟩ := incrementLines_spec
          (first :: tail.takeWhile (fun e => decide (pageIndex b e = pageIndex b first)))
          (page b (pageIndex b first) ens).1 (pageIndex b first) s.wf hlen32 hgroup
        obtain ⟨w2, hb2, hc2, hs2, hm2, hn2⟩ := ih _ kept _ hdrop w1 hrest
        refine ⟨w2, hb2.trans (hb1.trans s.buffer), hc2.trans (hc1.trans s.bufferCap), ?_, ?_, ?_⟩
        · intro i
          rw [hs2 i, hs1 i, s.slotAt_preserved h i, hcount i, List.count_append]
          push_cast
          ring
        · intro e he
          have := hm2 e he
          rcases List.mem_append.mp this with hk | hk
          · exact List.mem_append_left _ hk
          · exact List.mem_append_right _ (List.mem_cons_of_mem _ (List.dropWhile_subset _ hk))
        · intro hn
          exact hn2 (hn1 (s.nonNeg hn))
      · rw [if_neg hpg]
        obtain ⟨w2, hb2, hc2, hs2, hm2, hn2⟩ := ih (page b (pageIndex b first) ens).1
          (kept ++ first :: tail.takeWhile (fun e => decide (pageIndex b e = pageIndex b first)))
          _ hdrop s.wf hrest
        refine ⟨w2, hb2.trans s.buffer, hc2.trans s.bufferCap, ?_, ?_, ?_⟩
        · intro i
          rw [hs2 i, s.slotAt_preserved h i, hcount i, List.count_append, List.count_append]
          push_cast
          ring
        · intro e he
          have := hm2 e he
          rw [List.append_assoc, List.cons_append, hsplit] at this
          exact this
        · intro hn
          exact hn2 (s.nonNeg hn)

end recording

end storage

namespace storage

section recording2

variable {F : Type} [LinearOrderedField F]

theorem sortBuffer_wf {b : BufferedPaginatedStorage F} (h : WF b) : WF (sortBuffer b) := by
  refine ⟨h.log2, h.mask, h.entrySize, h.pageLen, h.base, h.top, h.low, ?_⟩
  intro e he
  exact h.bufferRange e ((List.perm_insertionSort _ _).mem_iff.mp he)

theorem sortBuffer_weightAt (b : BufferedPaginatedStorage F) (i : Int) :
    weightAt (sortBuffer b) i = weightAt b i := by
  unfold weightAt
  have : (sortBuffer b).buffer.count i = b.buffer.count i :=
    (List.perm_insertionSort _ _).count_eq i
  rw [this]
  rfl

/-- Compaction keeps the state well formed and the logical weight of every index. -/
theorem compact_spec {b : BufferedPaginatedStorage F} (h : WF b) :
    WF (compact b) ∧ (∀ i, weightAt (compact b) i = weightAt b i) ∧
    (NonNeg b → NonNeg (compact b)) ∧ (compact b).bufferCap = b.bufferCap := by
  have w1 := sortBuffer_wf h
  obtain ⟨w, _, hc, hs, hm, hn⟩ := compactLoop_spec (sortBuffer b).buffer.length (sortBuffer b) []
    (sortBuffer b).buffer le_rfl w1 w1.bufferRange
  refine ⟨?_, ?_, ?_, ?_⟩
  · refine ⟨w.log2, w.mask, w.entrySize, w.pageLen, w.base, w.top, w.low, ?_⟩
    intro e he
    exact w1.bufferRange e (by simpa using hm e he)
  · intro i
    have := hs i
    rw [List.nil_append] at this
    rw [← sortBuffer_weightAt b i]
    exact this
  · intro hnn
    exact hn hnn
  · exact hc

theorem appendBuffer_spec (growCap : Nat → Nat) {b : BufferedPaginatedStorage F} (h : WF b)
    (j : Int) (hj : isInt64 j) :
    WF (appendBuffer growCap b j) ∧
    (∀ i, weightAt (appendBuffer growCap b j) i = weightAt b i + if i = j then 1 else 0) ∧
    (NonNeg b → NonNeg (appendBuffer growCap b j)) := by
  refine ⟨?_, ?_, fun hn => hn⟩
  · refine ⟨h.log2, h.mask, h.entrySize, h.pageLen, h.base, h.top, h.low, ?_⟩
    intro e he
    rcases List.mem_append.mp he with hm | hm
    · exact h.bufferRange e hm
    · rw [List.mem_singleton.mp hm]
      exact hj
  · intro i
    unfold weightAt
    have : (appendBuffer growCap b j).buffer.count i = b.buffer.count i + if i = j then 1 else 0 := by
      show (b.buffer ++ [j]).count i = _
      rw [List.count_append, List.count_singleton]
      by_cases hij : i = j
      · subst hij; simp
      · have : ¬ (j = i) := fun hc => hij hc.symm
        simp [hij, this]
    rw [this]
    have e2 : slotAt (appendBuffer growCap b j) i = slotAt b i := rfl
    rw [e2]
    push_cast
    ring

/-- `add` raises the logical weight of `j` by one and leaves every other index alone. -/
theorem add_spec (growCap : Nat → Nat) {b : BufferedPaginatedStorage F} (h : WF b)
    (j : Int) (hj : isInt64 j) :
    WF (add growCap b j) ∧
    (∀ i, weightAt (add growCap b j) i = weightAt b i + if i = j then 1 else 0) ∧
    (NonNeg b → NonNeg (add growCap b j)) := by
  unfold add
  simp only []
  split
  · rename_i hc
    have hlen : (pageOf b (pageIndex b j)).length = 32 := by
      have := pageOf_length h (pageIndex b j)
      rw [pageOf_of_inRange ⟨hc.1, hc.2.1⟩] at this ⊢
      omega
    refine ⟨(addToSlot_spec h _ _ 1 hlen (lineIndex_toNat_lt h j)).1, ?_, ?_⟩
    · intro i
      exact weightAt_addToSlot_index h j 1 hlen i
    · intro hn
      exact addToSlot_nonNeg h _ _ 1 hlen (lineIndex_toNat_lt h j) hn (by norm_num)
  · split
    · obtain ⟨w, hw, hn, _⟩ := compact_spec h
      obtain ⟨w2, hw2, hn2⟩ := appendBuffer_spec growCap w j hj
      refine ⟨w2, ?_, fun hnn => hn2 (hn hnn)⟩
      intro i
      rw [hw2 i, hw i]
    · exact appendBuffer_spec growCap h j hj

/-- `RecordValue` raises the logical weight of `j` by `count` and leaves every other index
alone. -/
theorem RecordValue_spec (growCap : Nat → Nat) {b : BufferedPaginatedStorage F} (h : WF b)
    (j : Int) (hj : isInt64 j) (count : F) :
    WF (RecordValue growCap b j count) ∧
    (∀ i, weightAt (RecordValue growCap b j count) i = weightAt b i + if i = j then count else 0) ∧
    (NonNeg b → 0 ≤ count → NonNeg (RecordValue growCap b j count)) := by
  unfold RecordValue
  by_cases h0 : count = 0
  · rw [if_pos h0]
    refine ⟨h, ?_, fun hn _ => hn⟩
    intro i
    rw [h0]
    simp
  · rw [if_neg h0]
    by_cases h1 : count = 1
    · rw [if_pos h1]
      obtain ⟨w, hw, hn⟩ := add_spec growCap h j hj
      refine ⟨w, ?_, fun hnn _ => hn hnn⟩
      intro i
      rw [hw i, h1]
    · rw [if_neg h1]
      simp only []
      have s := page_step h (pageIndex b j) true (pageIndex_bound h j hj)
      have hlen := s.ensured rfl
      have hl1 : lineIndex b j = lineIndex (page b (pageIndex b j) true).1 j :=
        (lineIndex_eq h j).trans (lineIndex_eq s.wf j).symm
      have hp1 : pageIndex (page b (pageIndex b j) true).1 j = pageIndex b j :=
        (pageIndex_eq s.wf j).trans (pageIndex_eq h j).symm
      rw [hl1]
      generalize hpdef : pageIndex b j = p at s hlen hp1 ⊢
      generalize (page b p true).1 = b1 at s hlen hp1 ⊢
      subst hp1
      refine ⟨(addToSlot_spec s.wf _ _ count hlen (lineIndex_toNat_lt s.wf j)).1, ?_, ?_⟩
      · intro i
        rw [weightAt_addToSlot_index s.wf j count hlen i]
        congr 1
        unfold weightAt
        rw [s.buffer, s.slotAt_preserved h i]
      · intro hn hc
        exact addToSlot_nonNeg s.wf _ _ count hlen (lineIndex_toNat_lt s.wf j) (s.nonNeg hn) hc

theorem new_wf : WF (NewBufferedPaginatedStorage F) := by
  refine ⟨rfl, rfl, rfl, ?_, fun _ => rfl, ?_, ?_, ?_⟩
  · intro pg hpg
    cases hpg
  · show maxInt + ((0 : Nat) : Int) ≤ maxInt
    simp
  · show -2 ^ 59 ≤ maxInt
    unfold maxInt
    norm_num
  · intro e he
    cases he

theorem new_nonNeg : NonNeg (NewBufferedPaginatedStorage F) := by
  intro pg hpg
  cases hpg

theorem new_weightAt (i : Int) : weightAt (NewBufferedPaginatedStorage F) i = 0 := by
  unfold weightAt slotAt
  rw [pageOf_eq_nil_of_pages_nil rfl]
  simp [NewBufferedPaginatedStorage]

theorem Reachable.wf {growCap : Nat → Nat} {b : BufferedPaginatedStorage F}
    (h : Reachable growCap b) : WF b ∧ NonNeg b := by
  induction h with
  | new => exact ⟨new_wf, new_nonNeg⟩
  | record b j c _ hj hc ih =>
    obtain ⟨w, _, hn⟩ := RecordValue_spec growCap ih.1 j hj c
    exact ⟨w, hn ih.2 hc⟩

end recording2

end storage

/-! ## The rank scan -/

namespace storage

section rankscan

variable {F : Type} [LinearOrderedField F]

theorem scanResult_nil (rank cum : F) (buf : List Int) :
    scanResult rank [] cum buf = drainAll rank cum buf := rfl

theorem scanResult_cons_nil (rank cum : F) (s : Int × F) (rest : List (Int × F)) :
    scanResult rank (s :: rest) cum [] =
      if cum + s.2 > rank then some s.1 else scanResult rank rest (cum + s.2) [] := by
  unfold scanResult
  rw [scanSlots, drainBelow]
  simp only []
  by_cases hc : cum + s.2 > rank
  · rw [if_pos hc, if_pos hc]
  · rw [if_neg hc, if_neg hc]

theorem scanResult_cons_lt (rank cum : F) (s : Int × F) (rest : List (Int × F)) (e : Int)
    (bt : List Int) (h : e < s.1) :
    scanResult rank (s :: rest) cum (e :: bt) =
      if cum + 1 > rank then some e else scanResult rank (s :: rest) (cum + 1) bt := by
  unfold scanResult
  rw [scanSlots, drainBelow, if_pos h]
  by_cases hc : cum + 1 > rank
  · rw [if_pos hc, if_pos hc]
  · rw [if_neg hc, if_neg hc]
    conv_rhs => rw [scanSlots]

theorem scanResult_cons_ge (rank cum : F) (s : Int × F) (rest : List (Int × F)) (e : Int)
    (bt : List Int) (h : ¬ e < s.1) :
    scanResult rank (s :: rest) cum (e :: bt) =
      if cum + s.2 > rank then some s.1 else scanResult rank rest (cum + s.2) (e :: bt) := by
  unfold scanResult
  rw [scanSlots, drainBelow, if_neg h]
  simp only []
  by_cases hc : cum + s.2 > rank
  · rw [if_pos hc, if_pos hc]
  · rw [if_neg hc, if_neg hc]

theorem drainAll_cons (rank cum : F) (e : Int) (bt : List Int) :
    drainAll rank cum (e :: bt) =
      if cum + 1 > rank then some e else drainAll rank (cum + 1) bt := by
  rw [drainAll]

theorem weightBelow_cons_buffer (e : Int) (bt : List Int) (sl : List (Int × F)) (i : Int) :
    weightBelow (e :: bt) sl i = weightBelow bt sl i + if e ≤ i then 1 else 0 := by
  unfold weightBelow
  by_cases h : e ≤ i
  · simp [List.filter_cons, h]; ring
  · simp [List.filter_cons, h]

theorem weightBelow_cons_slot (buf : List Int) (s : Int × F) (rest : List (Int × F)) (i : Int) :
    weightBelow buf (s :: rest) i = weightBelow buf rest i + if s.1 ≤ i then s.2 else 0 := by
  unfold weightBelow
  by_cases h : s.1 ≤ i
  · simp [List.filter_cons, h]; ring
  · simp [List.filter_cons, h]

theorem weightBelow_eq_zero (buf : List Int) (sl : List (Int × F)) (i : Int)
    (hb : ∀ e ∈ buf, i < e) (hs : ∀ s ∈ sl, i < s.1) : weightBelow buf sl i = 0 := by
  unfold weightBelow
  have h1 : buf.filter (fun e => decide (e ≤ i)) = [] := by
    rw [List.filter_eq_nil_iff]
    intro e he
    have := hb e he
    simp only [decide_eq_true_eq]
    omega
  have h2 : sl.filter (fun s => decide (s.1 ≤ i)) = [] := by
    rw [List.filter_eq_nil_iff]
    intro s hs2
    have := hs s hs2
    simp only [decide_eq_true_eq]
    omega
  rw [h1, h2]
  simp

theorem slots_sum_nonneg (sl : List (Int × F)) (hn : ∀ s ∈ sl, 0 ≤ s.2) :
    0 ≤ (sl.map (fun s => s.2)).sum := by
  apply List.sum_nonneg
  intro x hx
  obtain ⟨s, hs, rfl⟩ := List.mem_map.mp hx
  exact hn s hs

theorem weightBelow_le_total (buf : List Int) (sl : List (Int × F)) (i : Int)
    (hn : ∀ s ∈ sl, 0 ≤ s.2) :
    weightBelow buf sl i ≤ (buf.length : F) + (sl.map (fun s => s.2)).sum := by
  induction sl with
  | nil =>
    unfold weightBelow
    have : (buf.filter (fun e => decide (e ≤ i))).length ≤ buf.length := List.length_filter_le _ _
    have : (((buf.filter (fun e => decide (e ≤ i))).length : Nat) : F) ≤ (buf.length : F) := by
      exact_mod_cast this
    simpa using this
  | cons s rest ih =>
    rw [weightBelow_cons_slot]
    have h1 := ih (fun x hx => hn x (List.mem_cons_of_mem _ hx))
    have h2 := hn s (List.mem_cons_self _ _)
    simp only [List.map_cons, List.sum_cons]
    split <;> linarith

theorem weightBelow_nonneg (buf : List Int) (sl : List (Int × F)) (i : Int)
    (hn : ∀ s ∈ sl, 0 ≤ s.2) : 0 ≤ weightBelow buf sl i := by
  unfold weightBelow
  have h1 : (0 : F) ≤ ((buf.filter (fun e => decide (e ≤ i))).length : F) := Nat.cast_nonneg _
  have h2 := slots_sum_nonneg (sl.filter (fun s => decide (s.1 ≤ i)))
    (fun s hs => hn s (List.mem_of_mem_filter hs))
  linarith

/-- The merged scan returns the least index whose cumulative weight exceeds `rank`, and fails
only when the whole weight does not exceed it. -/
theorem scanResult_spec (rank : F) (n : Nat) :
    ∀ (sl : List (Int × F)) (buf : List Int) (cum : F), sl.length + buf.length ≤ n →
      cum ≤ rank → buf.Pairwise (fun x y => x ≤ y) → sl.Pairwise (fun x y => x.1 < y.1) →
      (∀ s ∈ sl, 0 ≤ s.2) →
      (∀ k, scanResult rank sl cum buf = some k →
        rank < cum + weightBelow buf sl k ∧ (∀ i, i < k → cum + weightBelow buf sl i ≤ rank) ∧
        (k ∈ buf ∨ ∃ s ∈ sl, s.1 = k)) ∧
      (scanResult rank sl cum buf = none →
        cum + (buf.length : F) + (sl.map (fun s => s.2)).sum ≤ rank) := by
  induction n with
  | zero =>
    intro sl buf cum hlen hc _ _ _
    have h1 : sl = [] := List.eq_nil_of_length_eq_zero (by omega)
    have h2 : buf = [] := List.eq_nil_of_length_eq_zero (by omega)
    subst h1 h2
    refine ⟨?_, ?_⟩
    · intro k hk
      simp [scanResult_nil, drainAll] at hk
    · intro _
      simpa using hc
  | succ n ih =>
    intro sl buf cum hlen hc hbs hss hnn
    -- consuming the head of the buffer
    have bufStep : ∀ (e : Int) (bt : List Int), buf = e :: bt → (∀ s ∈ sl, e < s.1) →
        scanResult rank sl cum buf =
          (if cum + 1 > rank then some e else scanResult rank sl (cum + 1) bt) →
        (∀ k, scanResult rank sl cum buf = some k →
          rank < cum + weightBelow buf sl k ∧ (∀ i, i < k → cum + weightBelow buf sl i ≤ rank) ∧
          (k ∈ buf ∨ ∃ s ∈ sl, s.1 = k)) ∧
        (scanResult rank sl cum buf = none →
          cum + (buf.length : F) + (sl.map (fun s => s.2)).sum ≤ rank) := by
      intro e bt hbuf hlt heq
      subst hbuf
      have hge : ∀ x ∈ bt, e ≤ x := (List.pairwise_cons.mp hbs).1
      have hzero : ∀ i, i < e → weightBelow (e :: bt) sl i = 0 := by
        intro i hi
        apply weightBelow_eq_zero
        · intro x hx
          rcases List.mem_cons.mp hx with hx | hx
          · omega
          · have := hge x hx
            omega
        · intro s hs
          have := hlt s hs
          omega
      rw [heq]
      by_cases hx : cum + 1 > rank
      · rw [if_pos hx]
        refine ⟨?_, fun hcon => by cases hcon⟩
        intro k hk
        cases hk
        refine ⟨?_, ?_, Or.inl (List.mem_cons_self _ _)⟩
        · rw [weightBelow_cons_buffer, if_pos le_rfl]
          have := weightBelow_nonneg bt sl e hnn
          linarith
        · intro i hi
          rw [hzero i hi]
          linarith
      · rw [if_neg hx]
        have hc1 : cum + 1 ≤ rank := not_lt.mp hx
        obtain ⟨ih1, ih2⟩ := ih sl bt (cum + 1) (by simp only [List.length_cons] at hlen; omega)
          hc1 (List.pairwise_cons.mp hbs).2 hss hnn
        refine ⟨?_, ?_⟩
        · intro k hk
          obtain ⟨a1, a2, a3⟩ := ih1 k hk
          have hek : e ≤ k := by
            rcases a3 with a3 | ⟨s, hs, rfl⟩
            · exact hge k a3
            · exact le_of_lt (hlt s hs)
          refine ⟨?_, ?_, ?_⟩
          · rw [weightBelow_cons_buffer, if_pos hek]
            linarith
          · intro i hi
            by_cases hei : e ≤ i
            · rw [weightBelow_cons_buffer, if_pos hei]
              have := a2 i hi
              linarith
            · rw [hzero i (by omega)]
              linarith
          · rcases a3 with a3 | a3
            · exact Or.inl (List.mem_cons_of_mem _ a3)
            · exact Or.inr a3
        · intro hnone
          have := ih2 hnone
          simp only [List.length_cons]
          push_cast
          linarith
    -- consuming the head of the slot list
    have slotStep : ∀ (s : Int × F) (rest : List (Int × F)), sl = s :: rest →
        (∀ e ∈ buf, s.1 ≤ e) →
        scanResult rank sl cum buf =
          (if cum + s.2 > rank then some s.1 else scanResult rank rest (cum + s.2) buf) →
        (∀ k, scanResult rank sl cum buf = some k →
          rank < cum + weightBelow buf sl k ∧ (∀ i, i < k → cum + weightBelow buf sl i ≤ rank) ∧
          (k ∈ buf ∨ ∃ s ∈ sl, s.1 = k)) ∧
        (scanResult rank sl cum buf = none →
          cum + (buf.length : F) + (sl.map (fun s => s.2)).sum ≤ rank) := by
      intro s rest hsl hge heq
      subst hsl
      have hgt : ∀ x ∈ rest, s.1 < x.1 := (List.pairwise_cons.mp hss).1
      have hnr : ∀ x ∈ rest, 0 ≤ x.2 := fun x hx => hnn x (List.mem_cons_of_mem _ hx)
      have hs0 : 0 ≤ s.2 := hnn s (List.mem_cons_self _ _)
      have hzero : ∀ i, i < s.1 → weightBelow buf (s :: rest) i = 0 := by
        intro i hi
        apply weightBelow_eq_zero
        · intro x hx
          have := hge x hx
          omega
        · intro x hx
          rcases List.mem_cons.mp hx with hx | hx
          · rw [hx]; exact hi
          · have := hgt x hx
            omega
      rw [heq]
      by_cases hx : cum + s.2 > rank
      · rw [if_pos hx]
        refine ⟨?_, fun hcon => by cases hcon⟩
        intro k hk
        cases hk
        refine ⟨?_, ?_, Or.inr ⟨s, List.mem_cons_self _ _, rfl⟩⟩
        · rw [weightBelow_cons_slot, if_pos le_rfl]
          have := weightBelow_nonneg buf rest s.1 hnr
          linarith
        · intro i hi
          rw [hzero i hi]
          linarith
      · rw [if_neg hx]
        have hc1 : cum + s.2 ≤ rank := not_lt.mp hx
        obtain ⟨ih1, ih2⟩ := ih rest buf (cum + s.2)
          (by simp only [List.length_cons] at hlen; omega)
          hc1 hbs (List.pairwise_cons.mp hss).2 hnr
        refine ⟨?_, ?_⟩
        · intro k hk
          obtain ⟨a1, a2, a3⟩ := ih1 k hk
          have hek : s.1 ≤ k := by
            rcases a3 with a3 | ⟨x, hx, rfl⟩
            · exact hge k a3
            · exact le_of_lt (hgt x hx)
          refine ⟨?_, ?_, ?_⟩
          · rw [weightBelow_cons_slot, if_pos hek]
            linarith
          · intro i hi
            by_cases hei : s.1 ≤ i
            · rw [weightBelow_cons_slot, if_pos hei]
              have := a2 i hi
              linarith
            · rw [hzero i (by omega)]
              linarith
          · rcases a3 with a3 | ⟨x, hx, hxk⟩
            · exact Or.inl a3
            · exact Or.inr ⟨x, List.mem_cons_of_mem _ hx, hxk⟩
        · intro hnone
          have := ih2 hnone
          simp only [List.map_cons, List.sum_cons]
          linarith
    cases sl with
    | nil =>
      cases buf with
      | nil =>
        refine ⟨?_, ?_⟩
        · intro k hk
          simp [scanResult_nil, drainAll] at hk
        · intro _
          simpa using hc
      | cons e bt =>
        apply bufStep e bt rfl
        · intro s hs
          cases hs
        · rw [scanResult_nil, drainAll_cons, scanResult_nil]
    | cons s rest =>
      cases buf with
      | nil =>
        apply slotStep s rest rfl
        · intro e he
          cases he
        · exact scanResult_cons_nil rank cum s rest
      | cons e bt =>
        by_cases hlt : e < s.1
        · apply bufStep e bt rfl
          · intro x hx
            rcases List.mem_cons.mp hx with hx | hx
            · rw [hx]; exact hlt
            · have := (List.pairwise_cons.mp hss).1 x hx
              omega
          · exact scanResult_cons_lt rank cum s rest e bt hlt
        · apply slotStep s rest rfl
          · intro x hx
            rcases List.mem_cons.mp hx with hx | hx
            · rw [hx]; omega
            · have := (List.pairwise_cons.mp hbs).1 x hx
              omega
          · exact scanResult_cons_ge rank cum s rest e bt hlt

end rankscan

end storage

/-! ## The slots of the page table -/

namespace storage

section slotlist

variable {F : Type} [LinearOrderedField F]

theorem scanLines_eq (b : BufferedPaginatedStorage F) (rank : F) (p : Int) (page : List F) :
    ∀ (line : Nat) (cum : F) (buf : List Int),
      scanLines b rank p line page cum buf = scanSlots rank (lineSlots b p line page) cum buf := by
  induction page with
  | nil =>
    intro line cum buf
    rw [scanLines, lineSlots, scanSlots]
  | cons c rest ih =>
    intro line cum buf
    rw [scanLines, lineSlots, scanSlots]
    simp only []
    cases drainBelow rank (index b p (line : Int)) cum buf with
    | found k => rfl
    | next c1 b1 =>
      simp only []
      rw [ih]

theorem scanSlots_append (rank : F) (s1 s2 : List (Int × F)) :
    ∀ (cum : F) (buf : List Int),
      scanSlots rank (s1 ++ s2) cum buf =
        match scanSlots rank s1 cum buf with
        | Scan.found k => Scan.found k
        | Scan.next c r => scanSlots rank s2 c r := by
  induction s1 with
  | nil =>
    intro cum buf
    rw [List.nil_append]
    conv_rhs => rw [scanSlots]
  | cons s rest ih =>
    intro cum buf
    rw [List.cons_append, scanSlots]
    conv_rhs => rw [scanSlots]
    cases drainBelow rank s.1 cum buf with
    | found k => rfl
    | next c1 b1 =>
      simp only []
      by_cases hc : c1 + s.2 > rank
      · rw [if_pos hc, if_pos hc]
      · rw [if_neg hc, if_neg hc, ih]

theorem scanPages_eq (b : BufferedPaginatedStorage F) (rank : F) (pages : List (List F)) :
    ∀ (off : Nat) (cum : F) (buf : List Int),
      scanPages b rank off pages cum buf = scanSlots rank (pageSlots b off pages) cum buf := by
  induction pages with
  | nil =>
    intro off cum buf
    rw [scanPages, pageSlots, scanSlots]
  | cons page rest ih =>
    intro off cum buf
    rw [scanPages, pageSlots, scanSlots_append, scanLines_eq]
    cases scanSlots rank (lineSlots b (b.minPageIndex + (off : Int)) 0 page) cum buf with
    | found k => rfl
    | next c1 b1 =>
      simp only []
      rw [ih]

theorem minIndexWithCumulativeCount_eq (b : BufferedPaginatedStorage F) (rank : F) :
    minIndexWithCumulativeCount b rank =
      (match scanResult rank (slots (sortBuffer b)) 0 (sortBuffer b).buffer with
        | some k => Except.ok k
        | none => Except.error "min index with cumulative rank not found", sortBuffer b) := by
  unfold minIndexWithCumulativeCount scanResult slots
  simp only []
  rw [scanPages_eq]
  cases scanSlots rank (pageSlots (sortBuffer b) 0 (sortBuffer b).pages) 0 (sortBuffer b).buffer with
  | found k => rfl
  | next c1 b1 =>
    simp only []
    cases drainAll rank c1 b1 <;> rfl

theorem lineSlots_congr (b b1 : BufferedPaginatedStorage F) (h : b1.pageLenLog2 = b.pageLenLog2)
    (p : Int) (page : List F) :
    ∀ line, lineSlots b1 p line page = lineSlots b p line page := by
  induction page with
  | nil => intro line; rw [lineSlots, lineSlots]
  | cons c rest ih =>
    intro line
    rw [lineSlots, lineSlots, ih]
    unfold index
    rw [h]

theorem pageSlots_congr (b b1 : BufferedPaginatedStorage F) (h : b1.pageLenLog2 = b.pageLenLog2)
    (hm : b1.minPageIndex = b.minPageIndex) (pages : List (List F)) :
    ∀ off, pageSlots b1 off pages = pageSlots b off pages := by
  induction pages with
  | nil => intro off; rw [pageSlots, pageSlots]
  | cons c rest ih =>
    intro off
    rw [pageSlots, pageSlots, ih, hm, lineSlots_congr b b1 h]

theorem slots_sortBuffer (b : BufferedPaginatedStorage F) : slots (sortBuffer b) = slots b := by
  unfold slots
  exact pageSlots_congr b (sortBuffer b) rfl rfl _ 0

theorem lineSlots_mem {b : BufferedPaginatedStorage F} (h : WF b) (p : Int) (page : List F) :
    ∀ (line : Nat) (s : Int × F), s ∈ lineSlots b p line page →
      p * 32 + (line : Int) ≤ s.1 ∧ s.1 < p * 32 + (line : Int) + (page.length : Int) ∧
      s.2 ∈ page := by
  induction page with
  | nil =>
    intro line s hs
    rw [lineSlots] at hs
    cases hs
  | cons c rest ih =>
    intro line s hs
    rw [lineSlots] at hs
    rcases List.mem_cons.mp hs with hs | hs
    · subst hs
      simp only [index_eq h, List.length_cons]
      refine ⟨le_rfl, by push_cast; omega, List.mem_cons_self _ _⟩
    · obtain ⟨a1, a2, a3⟩ := ih (line + 1) s hs
      simp only [List.length_cons]
      push_cast at a1 a2 ⊢
      exact ⟨by omega, by omega, List.mem_cons_of_mem _ a3⟩

theorem lineSlots_pairwise {b : BufferedPaginatedStorage F} (h : WF b) (p : Int)
    (page : List F) :
    ∀ (line : Nat), (lineSlots b p line page).Pairwise (fun x y => x.1 < y.1) := by
  induction page with
  | nil =>
    intro line
    rw [lineSlots]
    exact List.Pairwise.nil
  | cons c rest ih =>
    intro line
    rw [lineSlots]
    refine List.pairwise_cons.mpr ⟨?_, ih (line + 1)⟩
    intro s hs
    have := (lineSlots_mem h p rest (line + 1) s hs).1
    simp only [index_eq h]
    push_cast at this
    omega

theorem lineSlots_map_snd (b : BufferedPaginatedStorage F) (p : Int) (page : List F) :
    ∀ (line : Nat), (lineSlots b p line page).map (fun s => s.2) = page := by
  induction page with
  | nil => intro line; rw [lineSlots]; rfl
  | cons c rest ih =>
    intro line
    rw [lineSlots, List.map_cons, ih]

theorem pageSlots_mem {b : BufferedPaginatedStorage F} (h : WF b) (pages : List (List F))
    (hp : ∀ pg ∈ pages, pg.length = 0 ∨ pg.length = 32) :
    ∀ (off : Nat) (s : Int × F), s ∈ pageSlots b off pages →
      (b.minPageIndex + (off : Int)) * 32 ≤ s.1 ∧ ∃ pg ∈ pages, s.2 ∈ pg := by
  induction pages with
  | nil =>
    intro off s hs
    rw [pageSlots] at hs
    cases hs
  | cons pg rest ih =>
    intro off s hs
    rw [pageSlots] at hs
    rcases List.mem_append.mp hs with hs | hs
    · obtain ⟨a1, _, a3⟩ := lineSlots_mem h _ pg 0 s hs
      exact ⟨by push_cast at a1; omega, pg, List.mem_cons_self _ _, a3⟩
    · obtain ⟨a1, q, hq, a3⟩ := ih (fun x hx => hp x (List.mem_cons_of_mem _ hx)) (off + 1) s hs
      exact ⟨by push_cast at a1; omega, q, List.mem_cons_of_mem _ hq, a3⟩

theorem pageSlots_pairwise {b : BufferedPaginatedStorage F} (h : WF b) (pages : List (List F))
    (hp : ∀ pg ∈ pages, pg.length = 0 ∨ pg.length = 32) :
    ∀ (off : Nat), (pageSlots b off pages).Pairwise (fun x y => x.1 < y.1) := by
  induction pages with
  | nil =>
    intro off
    rw [pageSlots]
    exact List.Pairwise.nil
  | cons pg rest ih =>
    intro off
    rw [pageSlots]
    have hr : ∀ x ∈ rest, x.length = 0 ∨ x.length = 32 :=
      fun x hx => hp x (List.mem_cons_of_mem _ hx)
    refine List.pairwise_append.mpr ⟨lineSlots_pairwise h _ pg 0, ih hr (off + 1), ?_⟩
    intro x hx y hy
    obtain ⟨_, a2, _⟩ := lineSlots_mem h _ pg 0 x hx
    obtain ⟨c1, _⟩ := pageSlots_mem h rest hr (off + 1) y hy
    have := hp pg (List.mem_cons_self _ _)
    push_cast at a2 c1
    omega

theorem slots_pairwise {b : BufferedPaginatedStorage F} (h : WF b) :
    (slots b).Pairwise (fun x y => x.1 < y.1) :=
  pageSlots_pairwise h b.pages h.pageLen 0

theorem slots_nonneg {b : BufferedPaginatedStorage F} (h : WF b) (hn : NonNeg b) :
    ∀ s ∈ slots b, 0 ≤ s.2 := by
  intro s hs
  obtain ⟨_, pg, hpg, hc⟩ := pageSlots_mem h b.pages h.pageLen 0 s hs
  exact hn pg hpg s.2 hc

theorem foldl_add_eq (page : List F) : ∀ init : F,
    page.foldl (fun acc count => acc + count) init = init + page.sum := by
  induction page with
  | nil => intro init; simp
  | cons c rest ih =>
    intro init
    rw [List.foldl_cons, ih, List.sum_cons]
    ring

theorem pageSlots_sum (b : BufferedPaginatedStorage F) (pages : List (List F)) :
    ∀ (off : Nat) (init : F),
      pages.foldl (fun totalCount page => page.foldl (fun acc count => acc + count) totalCount)
        init = init + ((pageSlots b off pages).map (fun s => s.2)).sum := by
  induction pages with
  | nil =>
    intro off init
    rw [pageSlots]
    simp
  | cons pg rest ih =>
    intro off init
    rw [List.foldl_cons, ih (off + 1), pageSlots, List.map_append, List.sum_append,
      lineSlots_map_snd, foldl_add_eq]
    ring

/-- `Size` is the length of the buffer plus the sum of all page slots. -/
theorem Size_eq (b : BufferedPaginatedStorage F) :
    Size b = (b.buffer.length : F) + ((slots b).map (fun s => s.2)).sum := by
  unfold Size slots
  exact pageSlots_sum b b.pages 0 _

theorem weightBelow_perm (l1 l2 : List Int) (hp : l1.Perm l2) (sl : List (Int × F)) (i : Int) :
    weightBelow l1 sl i = weightBelow l2 sl i := by
  unfold weightBelow
  rw [(hp.filter _).length_eq]

theorem cumWeight_sortBuffer (b : BufferedPaginatedStorage F) (i : Int) :
    cumWeight (sortBuffer b) i = cumWeight b i := by
  unfold cumWeight
  rw [slots_sortBuffer]
  exact weightBelow_perm _ _ (List.perm_insertionSort _ _) _ _

theorem cumWeight_le_Size {b : BufferedPaginatedStorage F} (h : WF b) (hn : NonNeg b) (i : Int) :
    cumWeight b i ≤ Size b := by
  rw [Size_eq]
  exact weightBelow_le_total _ _ _ (slots_nonneg h hn)

theorem sortBuffer_sorted (b : BufferedPaginatedStorage F) :
    (sortBuffer b).buffer.Pairwise (fun x y => x ≤ y) :=
  List.sorted_insertionSort (fun x y : Int => x ≤ y) b.buffer

theorem Size_sortBuffer (b : BufferedPaginatedStorage F) : Size (sortBuffer b) = Size b := by
  rw [Size_eq, Size_eq, slots_sortBuffer]
  have : (sortBuffer b).buffer.length = b.buffer.length :=
    (List.perm_insertionSort _ _).length_eq
  rw [this]

/-- The scan of `minIndexWithCumulativeCount` succeeds exactly below the total weight, and then
returns the least index whose cumulative weight exceeds the rank. -/
theorem minIndex_spec {b : BufferedPaginatedStorage F} (h : WF b) (hn : NonNeg b) (rank : F)
    (hr : 0 ≤ rank) :
    (rank < Size b → ∃ k, (minIndexWithCumulativeCount b rank).1 = Except.ok k ∧
      rank < cumWeight b k ∧ ∀ i, i < k → cumWeight b i ≤ rank) ∧
    (Size b ≤ rank → (minIndexWithCumulativeCount b rank).1 =
      Except.error "min index with cumulative rank not found") := by
  have w1 := sortBuffer_wf h
  have hn1 : NonNeg (sortBuffer b) := hn
  obtain ⟨s1, s2⟩ := scanResult_spec rank _ (slots (sortBuffer b)) (sortBuffer b).buffer 0 le_rfl hr
    (sortBuffer_sorted b) (slots_pairwise w1) (slots_nonneg w1 hn1)
  rw [minIndexWithCumulativeCount_eq]
  cases hres : scanResult rank (slots (sortBuffer b)) 0 (sortBuffer b).buffer with
  | none =>
    have := s2 hres
    rw [zero_add, ← Size_eq, Size_sortBuffer] at this
    refine ⟨?_, fun _ => rfl⟩
    intro hlt
    exfalso
    linarith
  | some k =>
    obtain ⟨a1, a2, _⟩ := s1 k hres
    rw [zero_add] at a1
    have e : ∀ i, weightBelow (sortBuffer b).buffer (slots (sortBuffer b)) i = cumWeight b i :=
      fun i => cumWeight_sortBuffer b i
    rw [e] at a1
    refine ⟨fun _ => ⟨k, rfl, a1, ?_⟩, ?_⟩
    · intro i hi
      have := a2 i hi
      rw [zero_add, e] at this
      exact this
    · intro hle
      exfalso
      have := cumWeight_le_Size h hn k
      linarith

end slotlist

end storage

/-! ## `maxIndex` -/

namespace storage

section maxindex

variable {F : Type} [LinearOrderedField F]

theorem maxIndexBuffer_spec (buf : List Int) :
    ∀ (e0 : Bool) (m0 : Int),
      ((maxIndexBuffer buf (e0, m0)).1 = true ↔ (e0 = true ∧ buf = [])) ∧
      ((maxIndexBuffer buf (e0, m0)).1 = false →
        ((maxIndexBuffer buf (e0, m0)).2 ∈ buf ∨
          (e0 = false ∧ (maxIndexBuffer buf (e0, m0)).2 = m0)) ∧
        (∀ x ∈ buf, x ≤ (maxIndexBuffer buf (e0, m0)).2) ∧
        (e0 = false → m0 ≤ (maxIndexBuffer buf (e0, m0)).2)) := by
  induction buf with
  | nil =>
    intro e0 m0
    rw [maxIndexBuffer]
    refine ⟨by simp, ?_⟩
    intro h
    exact ⟨Or.inr ⟨h, rfl⟩, fun x hx => (by cases hx), fun _ => le_rfl⟩
  | cons e rest ih =>
    intro e0 m0
    rw [maxIndexBuffer]
    by_cases hc : e0 = true ∨ e > m0
    · rw [if_pos hc]
      obtain ⟨i1, i2⟩ := ih false e
      refine ⟨?_, ?_⟩
      · constructor
        · intro h
          have := i1.mp h
          simp at this
        · intro h
          simp at h
      · intro h
        obtain ⟨a1, a2, a3⟩ := i2 h
        have hle := a3 rfl
        refine ⟨?_, ?_, ?_⟩
        · rcases a1 with a1 | ⟨_, a1⟩
          · exact Or.inl (List.mem_cons_of_mem _ a1)
          · left
            rw [a1]
            exact List.mem_cons_self _ _
        · intro x hx
          rcases List.mem_cons.mp hx with hx | hx
          · rw [hx]; exact hle
          · exact a2 x hx
        · intro he0
          rcases hc with hc | hc
          · rw [he0] at hc
            cases hc
          · omega
    · rw [if_neg hc]
      push_neg at hc
      obtain ⟨i1, i2⟩ := ih e0 m0
      have he0 : e0 = false := by
        cases e0
        · rfl
        · exact absurd rfl hc.1
      refine ⟨?_, ?_⟩
      · constructor
        · intro h
          have := (i1.mp h).1
          rw [he0] at this
          cases this
        · intro h
          simp at h
      · intro h
        obtain ⟨a1, a2, a3⟩ := i2 h
        refine ⟨?_, ?_, a3⟩
        · rcases a1 with a1 | a1
          · exact Or.inl (List.mem_cons_of_mem _ a1)
          · exact Or.inr a1
        · intro x hx
          rcases List.mem_cons.mp hx with hx | hx
          · have := a3 he0
            rw [hx]
            omega
          · exact a2 x hx

theorem maxIndexLines_spec (page : List F) (start : Int) (n : Nat) :
    (∀ l, maxIndexLines page start n = some l →
      l < n ∧ start ≤ (l : Int) ∧ 0 < page.getD l 0 ∧
      ∀ l2 : Nat, l < l2 → l2 < n → ¬ 0 < page.getD l2 0) ∧
    (maxIndexLines page start n = none →
      ∀ l2 : Nat, start ≤ (l2 : Int) → l2 < n → ¬ 0 < page.getD l2 0) := by
  induction n with
  | zero =>
    rw [maxIndexLines]
    refine ⟨fun l hl => (by cases hl), fun _ l2 _ h2 => by omega⟩
  | succ n ih =>
    rw [maxIndexLines]
    by_cases h1 : (n : Int) ≥ start
    · rw [if_pos h1]
      by_cases h2 : page.getD n 0 > 0
      · rw [if_pos h2]
        refine ⟨?_, fun hc => by cases hc⟩
        intro l hl
        cases hl
        exact ⟨by omega, h1, h2, fun l2 a b => by omega⟩
      · rw [if_neg h2]
        obtain ⟨i1, i2⟩ := ih
        refine ⟨?_, ?_⟩
        · intro l hl
          obtain ⟨a1, a2, a3, a4⟩ := i1 l hl
          refine ⟨by omega, a2, a3, ?_⟩
          intro l2 c1 c2
          by_cases hl2 : l2 = n
          · rw [hl2]; exact h2
          · exact a4 l2 c1 (by omega)
        · intro hnone l2 c1 c2
          by_cases hl2 : l2 = n
          · rw [hl2]; exact h2
          · exact i2 hnone l2 c1 (by omega)
    · rw [if_neg h1]
      refine ⟨fun l hl => (by cases hl), ?_⟩
      intro _ l2 c1 c2
      omega

theorem slotAt_pos_inRange {b : BufferedPaginatedStorage F} (h : WF b) (j : Int)
    (hj : 0 < slotAt b j) :
    j / 32 ≥ b.minPageIndex ∧ j / 32 < b.minPageIndex + (b.pages.length : Int) := by
  rw [slotAt_eq h] at hj
  apply pageOf_inRange
  intro hc
  have : pageOf b (j / 32) = [] := List.eq_nil_of_length_eq_zero hc
  rw [this] at hj
  simp at hj

theorem maxIndexPages_spec {b : BufferedPaginatedStorage F} (h : WF b) (isEmpty : Bool)
    (M : Int) (n : Nat) (hn : n ≤ b.pages.length) :
    (∀ k, maxIndexPages b isEmpty M n = some k →
      0 < slotAt b k ∧ (isEmpty = false → M ≤ k) ∧
      ∀ j, 0 < slotAt b j → j / 32 < b.minPageIndex + (n : Int) → j ≤ k) ∧
    (maxIndexPages b isEmpty M n = none →
      ∀ j, 0 < slotAt b j → j / 32 < b.minPageIndex + (n : Int) → isEmpty = false ∧ j < M) := by
  induction n with
  | zero =>
    rw [maxIndexPages]
    refine ⟨fun k hk => (by cases hk), ?_⟩
    intro _ j hj hlt
    have := (slotAt_pos_inRange h j hj).1
    push_cast at hlt
    omega
  | succ n ih =>
    obtain ⟨i1, i2⟩ := ih (by omega)
    rw [maxIndexPages]
    simp only []
    rw [pageIndex_eq h, lineIndex_eq h]
    have hoff : (b.minPageIndex + (n : Int) - b.minPageIndex).toNat = n := by omega
    have hpo : pageAt b n = pageOf b (b.minPageIndex + (n : Int)) := by
      rw [pageOf_of_inRange (by omega), hoff]
    rw [hoff, hpo]
    by_cases hc : isEmpty = true ∨ b.minPageIndex + (n : Int) ≥ M / 32
    · rw [if_pos hc]
      by_cases hl : (pageOf b (b.minPageIndex + (n : Int))).length = 0
      · rw [if_pos hl]
        have hnil : pageOf b (b.minPageIndex + (n : Int)) = [] := List.eq_nil_of_length_eq_zero hl
        have hnone : ∀ j, 0 < slotAt b j → j / 32 < b.minPageIndex + ((n + 1 : Nat) : Int) →
            j / 32 < b.minPageIndex + (n : Int) := by
          intro j hj hlt
          by_contra hcon
          have hp : j / 32 = b.minPageIndex + (n : Int) := by push_cast at hlt; omega
          rw [slotAt_eq h, hp, hnil] at hj
          simp at hj
        refine ⟨?_, ?_⟩
        · intro k hk
          obtain ⟨a1, a2, a3⟩ := i1 k hk
          exact ⟨a1, a2, fun j hj hlt => a3 j hj (hnone j hj hlt)⟩
        · intro hk j hj hlt
          exact i2 hk j hj (hnone j hj hlt)
      · rw [if_neg hl]
        have hl32 : (pageOf b (b.minPageIndex + (n : Int))).length = 32 := by
          have := pageOf_length h (b.minPageIndex + (n : Int))
          omega
        rw [hl32]
        obtain ⟨l1, l2⟩ := maxIndexLines_spec (pageOf b (b.minPageIndex + (n : Int)))
          (if isEmpty = false ∧ b.minPageIndex + (n : Int) = M / 32 then M % 32 else 0) 32
        cases hres : maxIndexLines (pageOf b (b.minPageIndex + (n : Int)))
          (if isEmpty = false ∧ b.minPageIndex + (n : Int) = M / 32 then M % 32 else 0) 32 with
        | some l =>
          simp only []
          obtain ⟨a1, a2, a3, a4⟩ := l1 l hres
          refine ⟨?_, fun hcon => by cases hcon⟩
          intro k hk
          cases hk
          rw [index_eq h]
          refine ⟨?_, ?_, ?_⟩
          · rw [slotAt_eq h]
            have e1 : ((b.minPageIndex + (n : Int)) * 32 + (l : Int)) / 32 =
                b.minPageIndex + (n : Int) := by omega
            have e2 : (((b.minPageIndex + (n : Int)) * 32 + (l : Int)) % 32).toNat = l := by omega
            rw [e1, e2]
            exact a3
          · intro he
            rcases hc with hc | hc
            · rw [he] at hc
              cases hc
            · by_cases hp : b.minPageIndex + (n : Int) = M / 32
              · rw [if_pos ⟨he, hp⟩] at a2
                omega
              · omega
          · intro j hj hlt
            by_cases hp : j / 32 = b.minPageIndex + (n : Int)
            · by_contra hcon
              have hlj : l < (j % 32).toNat := by omega
              apply a4 (j % 32).toNat hlj (by omega)
              rw [slotAt_eq h, hp] at hj
              exact hj
            · push_cast at hlt
              omega
        | none =>
          simp only []
          have hnol := l2 hres
          have hpage : ∀ j, 0 < slotAt b j → j / 32 = b.minPageIndex + (n : Int) →
              isEmpty = false ∧ j < M := by
            intro j hj hp
            by_cases hs : isEmpty = false ∧ b.minPageIndex + (n : Int) = M / 32
            · rw [if_pos hs] at hnol
              refine ⟨hs.1, ?_⟩
              by_contra hcon
              apply hnol (j % 32).toNat (by omega) (by omega)
              rw [slotAt_eq h, hp] at hj
              exact hj
            · rw [if_neg hs] at hnol
              exfalso
              apply hnol (j % 32).toNat (by omega) (by omega)
              rw [slotAt_eq h, hp] at hj
              exact hj
          refine ⟨?_, ?_⟩
          · intro k hk
            obtain ⟨a1, a2, a3⟩ := i1 k hk
            refine ⟨a1, a2, ?_⟩
            intro j hj hlt
            by_cases hp : j / 32 = b.minPageIndex + (n : Int)
            · obtain ⟨c1, c2⟩ := hpage j hj hp
              have := a2 c1
              omega
            · exact a3 j hj (by push_cast at hlt; omega)
          · intro hk j hj hlt
            by_cases hp : j / 32 = b.minPageIndex + (n : Int)
            · exact hpage j hj hp
            · exact i2 hk j hj (by push_cast at hlt; omega)
    · rw [if_neg hc]
      push_neg at hc
      refine ⟨fun k hk => (by cases hk), ?_⟩
      intro _ j hj hlt
      have he : isEmpty = false := by
        cases isEmpty
        · rfl
        · exact absurd rfl hc.1
      refine ⟨he, ?_⟩
      push_cast at hlt
      omega

theorem slotAt_nonneg {b : BufferedPaginatedStorage F} (hn : NonNeg b) (j : Int) :
    0 ≤ slotAt b j := by
  unfold slotAt
  rcases getD_mem_or (pageOf b (pageIndex b j)) (lineIndex b j).toNat (0 : F) with h1 | h1
  · exact (nonNeg_iff_pageOf b).mp hn _ _ h1
  · rw [h1]

theorem weightAt_pos_iff {b : BufferedPaginatedStorage F} (hn : NonNeg b) (j : Int) :
    0 < weightAt b j ↔ (j ∈ b.buffer ∨ 0 < slotAt b j) := by
  unfold weightAt
  have h0 := slotAt_nonneg hn j
  constructor
  · intro hw
    by_cases hm : j ∈ b.buffer
    · exact Or.inl hm
    · right
      have : b.buffer.count j = 0 := List.count_eq_zero.mpr hm
      rw [this] at hw
      simpa using hw
  · intro hw
    rcases hw with hw | hw
    · have : 0 < b.buffer.count j := List.count_pos_iff.mpr hw
      have : (0 : F) < (b.buffer.count j : F) := by exact_mod_cast this
      linarith
    · have : (0 : F) ≤ (b.buffer.count j : F) := Nat.cast_nonneg _
      linarith

/-- `maxIndex` returns the largest index of positive weight, and fails only when no index has
positive weight. -/
theorem maxIndex_spec {b : BufferedPaginatedStorage F} (h : WF b) (hn : NonNeg b) :
    (∀ k, maxIndex b = Except.ok k → 0 < weightAt b k ∧ ∀ j, 0 < weightAt b j → j ≤ k) ∧
    (∀ err, maxIndex b = Except.error err →
      err = "max index not found" ∧ ∀ j, ¬ 0 < weightAt b j) := by
  obtain ⟨b1, b2⟩ := maxIndexBuffer_spec b.buffer true 0
  obtain ⟨p1, p2⟩ := maxIndexPages_spec h (maxIndexBuffer b.buffer (true, 0)).1
    (maxIndexBuffer b.buffer (true, 0)).2 b.pages.length le_rfl
  have hall : ∀ j, 0 < slotAt b j → j / 32 < b.minPageIndex + (b.pages.length : Int) :=
    fun j hj => (slotAt_pos_inRange h j hj).2
  unfold maxIndex
  simp only []
  cases hres : maxIndexPages b (maxIndexBuffer b.buffer (true, 0)).1
      (maxIndexBuffer b.buffer (true, 0)).2 b.pages.length with
  | some k =>
    simp only []
    obtain ⟨a1, a2, a3⟩ := p1 k hres
    refine ⟨?_, fun err herr => by cases herr⟩
    intro k2 hk2
    cases hk2
    refine ⟨(weightAt_pos_iff hn k).mpr (Or.inr a1), ?_⟩
    intro j hj
    rcases (weightAt_pos_iff hn j).mp hj with hj | hj
    · have hne : (maxIndexBuffer b.buffer (true, 0)).1 = false := by
        cases hb : (maxIndexBuffer b.buffer (true, 0)).1
        · rfl
        · have := (b1.mp hb).2
          rw [this] at hj
          cases hj
      have := (b2 hne).2.1 j hj
      have := a2 hne
      omega
    · exact a3 j hj (hall j hj)
  | none =>
    simp only []
    have hp := p2 hres
    cases hb : (maxIndexBuffer b.buffer (true, 0)).1 with
    | true =>
      simp only [if_true]
      refine ⟨fun k hk => (by cases hk), ?_⟩
      intro err herr
      cases herr
      refine ⟨rfl, ?_⟩
      intro j hj
      rcases (weightAt_pos_iff hn j).mp hj with hj | hj
      · have := (b1.mp hb).2
        rw [this] at hj
        cases hj
      · have := (hp j hj (hall j hj)).1
        rw [hb] at this
        cases this
    | false =>
      simp only [Bool.false_eq_true, if_false]
      refine ⟨?_, fun err herr => by cases herr⟩
      intro k hk
      cases hk
      obtain ⟨c1, c2, _⟩ := b2 hb
      have hmem : (maxIndexBuffer b.buffer (true, 0)).2 ∈ b.buffer := by
        rcases c1 with c1 | ⟨c1, _⟩
        · exact c1
        · cases c1
      refine ⟨(weightAt_pos_iff hn _).mpr (Or.inl hmem), ?_⟩
      intro j hj
      rcases (weightAt_pos_iff hn j).mp hj with hj | hj
      · exact c2 j hj
      · have := (hp j hj (hall j hj)).2
        omega

end maxindex

end storage

/-! ## `KeyAtRank` -/

namespace storage

section keyatrank

variable {F : Type} [LinearOrderedField F]

theorem KeyAtRank_snd (b : BufferedPaginatedStorage F) (rank : F) :
    (KeyAtRank b rank).2 = sortBuffer b := by
  unfold KeyAtRank
  simp only []
  rw [minIndexWithCumulativeCount_eq]
  cases scanResult (max 0 rank) (slots (sortBuffer b)) 0 (sortBuffer b).buffer with
  | some k => rfl
  | none =>
    simp only []
    cases maxIndex (sortBuffer b) <;> rfl

/-- Below the total weight `KeyAtRank` returns the least index whose cumulative weight exceeds
the clamped rank. -/
theorem KeyAtRank_below {b : BufferedPaginatedStorage F} (h : WF b) (hn : NonNeg b) (rank : F)
    (hr : max 0 rank < Size b) :
    ∃ k, (KeyAtRank b rank).1 = Except.ok k ∧ max 0 rank < cumWeight b k ∧
      ∀ i, i < k → cumWeight b i ≤ max 0 rank := by
  obtain ⟨k, hk, a1, a2⟩ := (minIndex_spec h hn (max 0 rank) (le_max_left _ _)).1 hr
  refine ⟨k, ?_, a1, a2⟩
  unfold KeyAtRank
  simp only []
  rw [hk]

/-- At or above the total weight `KeyAtRank` falls back to `maxIndex`. -/
theorem KeyAtRank_above {b : BufferedPaginatedStorage F} (h : WF b) (hn : NonNeg b) (rank : F)
    (hr2 : Size b ≤ max 0 rank) :
    ((∃ j, 0 < weightAt b j) → ∃ k, (KeyAtRank b rank).1 = Except.ok k ∧ 0 < weightAt b k ∧
      ∀ j, 0 < weightAt b j → j ≤ k) ∧
    ((∀ j, ¬ 0 < weightAt b j) → (KeyAtRank b rank).1 = Except.error "max index not found") := by
  have hk := (minIndex_spec h hn (max 0 rank) (le_max_left _ _)).2 hr2
  have hsnd : (minIndexWithCumulativeCount b (max 0 rank)).2 = sortBuffer b := by
    rw [minIndexWithCumulativeCount_eq]
  have hn1 : NonNeg (sortBuffer b) := hn
  obtain ⟨m1, m2⟩ := maxIndex_spec (sortBuffer_wf h) hn1
  have hkey : (KeyAtRank b rank).1 =
      match maxIndex (sortBuffer b) with
      | Except.ok maxIdx => Except.ok maxIdx
      | Except.error err => Except.error err := by
    unfold KeyAtRank
    simp only []
    rw [hk]
    simp only []
    rw [hsnd]
    cases maxIndex (sortBuffer b) <;> rfl
  rw [hkey]
  cases hres : maxIndex (sortBuffer b) with
  | ok k =>
    simp only []
    obtain ⟨a1, a2⟩ := m1 k hres
    refine ⟨?_, ?_⟩
    · intro _
      refine ⟨k, rfl, ?_, ?_⟩
      · rw [← sortBuffer_weightAt]; exact a1
      · intro j hj
        rw [← sortBuffer_weightAt] at hj
        exact a2 j hj
    · intro hall
      exfalso
      apply hall k
      rw [← sortBuffer_weightAt]
      exact a1
  | error err =>
    simp only []
    obtain ⟨a1, a2⟩ := m2 err hres
    refine ⟨?_, ?_⟩
    · rintro ⟨j, hj⟩
      exfalso
      rw [← sortBuffer_weightAt] at hj
      exact a2 j hj
    · intro _
      rw [a1]

end keyatrank

end storage

/-! ## Cumulative weight and size as sums of logical weights -/

namespace storage

section weightsums

variable {F : Type} [LinearOrderedField F]

theorem sum_ite_key (lo i k : Int) (v : F) (hk : lo ≤ k) :
    (∑ j ∈ Finset.Icc lo i, if k = j then v else 0) = if k ≤ i then v else 0 := by
  rw [Finset.sum_ite_eq]
  by_cases h : k ≤ i
  · rw [if_pos h, if_pos (Finset.mem_Icc.mpr ⟨hk, h⟩)]
  · rw [if_neg h, if_neg]
    intro hc
    exact h (Finset.mem_Icc.mp hc).2

theorem buffer_filter_sum (buf : List Int) (lo i : Int) (h : ∀ e ∈ buf, lo ≤ e) :
    (((buf.filter (fun e => decide (e ≤ i))).length : Nat) : F) =
      ∑ j ∈ Finset.Icc lo i, ((buf.count j : Nat) : F) := by
  induction buf with
  | nil => simp
  | cons e rest ih =>
    have ih2 := ih (fun x hx => h x (List.mem_cons_of_mem _ hx))
    have he := h e (List.mem_cons_self _ _)
    have hcount : ∀ j : Int, (((e :: rest).count j : Nat) : F) =
        ((rest.count j : Nat) : F) + if e = j then 1 else 0 := by
      intro j
      rw [count_cons_cast]
      by_cases hj : j = e
      · subst hj; simp
      · have : ¬ e = j := fun hc => hj hc.symm
        simp [hj, this]
    simp only [hcount, Finset.sum_add_distrib]
    rw [sum_ite_key lo i e 1 he, ← ih2]
    by_cases hi : e ≤ i
    · simp [List.filter_cons, hi]
    · simp [List.filter_cons, hi]

theorem slots_filter_sum (sl : List (Int × F)) (lo i : Int) (h : ∀ s ∈ sl, lo ≤ s.1) :
    ((sl.filter (fun s => decide (s.1 ≤ i))).map (fun s => s.2)).sum =
      ∑ j ∈ Finset.Icc lo i, ((sl.filter (fun s => decide (s.1 = j))).map (fun s => s.2)).sum := by
  induction sl with
  | nil => simp
  | cons s rest ih =>
    have ih2 := ih (fun x hx => h x (List.mem_cons_of_mem _ hx))
    have hs := h s (List.mem_cons_self _ _)
    have hkey : ∀ j : Int,
        (((s :: rest).filter (fun s => decide (s.1 = j))).map (fun s => s.2)).sum =
        ((rest.filter (fun s => decide (s.1 = j))).map (fun s => s.2)).sum +
          if s.1 = j then s.2 else 0 := by
      intro j
      by_cases hj : s.1 = j
      · simp [List.filter_cons, hj]; ring
      · simp [List.filter_cons, hj]
    simp only [hkey, Finset.sum_add_distrib]
    rw [sum_ite_key lo i s.1 s.2 hs, ← ih2]
    by_cases hi : s.1 ≤ i
    · simp [List.filter_cons, hi]; ring
    · simp [List.filter_cons, hi]

theorem lineSlots_keySum {b : BufferedPaginatedStorage F} (h : WF b) (p : Int) (page : List F)
    (j : Int) :
    ∀ (line : Nat), line + page.length ≤ 32 →
      (((lineSlots b p line page).filter (fun s => decide (s.1 = j))).map (fun s => s.2)).sum =
        if j / 32 = p ∧ line ≤ (j % 32).toNat then page.getD ((j % 32).toNat - line) 0 else 0 := by
  induction page with
  | nil =>
    intro line _
    rw [lineSlots]
    simp
  | cons c rest ih =>
    intro line hlen
    simp only [List.length_cons] at hlen
    rw [lineSlots, List.filter_cons, index_eq h]
    have ih2 := ih (line + 1) (by omega)
    by_cases hj : p * 32 + (line : Int) = j
    · have h1 : j / 32 = p := by omega
      have h2 : (j % 32).toNat = line := by omega
      simp only [hj, decide_True, if_true, List.map_cons, List.sum_cons]
      rw [ih2, if_neg (by omega), if_pos ⟨h1, by omega⟩, h2]
      simp
    · simp only [hj, decide_False, Bool.false_eq_true, if_false]
      rw [ih2]
      by_cases hc : j / 32 = p ∧ line + 1 ≤ (j % 32).toNat
      · rw [if_pos hc, if_pos ⟨hc.1, by omega⟩]
        have : (j % 32).toNat - line = ((j % 32).toNat - (line + 1)) + 1 := by omega
        rw [this, List.getD_cons_succ]
      · rw [if_neg hc, if_neg]
        intro hc2
        apply hc
        refine ⟨hc2.1, ?_⟩
        omega

theorem pageSlots_keySum {b : BufferedPaginatedStorage F} (h : WF b) (pages : List (List F))
    (hp : ∀ pg ∈ pages, pg.length = 0 ∨ pg.length = 32) (j : Int) :
    ∀ (off : Nat),
      (((pageSlots b off pages).filter (fun s => decide (s.1 = j))).map (fun s => s.2)).sum =
        if b.minPageIndex + (off : Int) ≤ j / 32 ∧
            j / 32 < b.minPageIndex + (off : Int) + (pages.length : Int) then
          (pages.getD (j / 32 - (b.minPageIndex + (off : Int))).toNat []).getD (j % 32).toNat 0
        else 0 := by
  induction pages with
  | nil =>
    intro off
    rw [pageSlots]
    simp
  | cons pg rest ih =>
    intro off
    have ih2 := ih (fun x hx => hp x (List.mem_cons_of_mem _ hx)) (off + 1)
    have hpg := hp pg (List.mem_cons_self _ _)
    rw [pageSlots, List.filter_append, List.map_append, List.sum_append, ih2,
      lineSlots_keySum h _ pg j 0 (by omega)]
    simp only [List.length_cons]
    push_cast
    by_cases h1 : j / 32 = b.minPageIndex + (off : Int)
    · rw [if_pos ⟨h1, by omega⟩, if_neg (by omega), if_pos ⟨by omega, by omega⟩]
      have : (j / 32 - (b.minPageIndex + (off : Int))).toNat = 0 := by omega
      rw [this]
      simp
    · rw [if_neg (fun hc => h1 hc.1), zero_add]
      by_cases h2 : b.minPageIndex + ((off : Int) + 1) ≤ j / 32 ∧
          j / 32 < b.minPageIndex + ((off : Int) + 1) + (rest.length : Int)
      · rw [if_pos h2, if_pos ⟨by omega, by omega⟩]
        have : (j / 32 - (b.minPageIndex + (off : Int))).toNat =
            (j / 32 - (b.minPageIndex + ((off : Int) + 1))).toNat + 1 := by omega
        rw [this, List.getD_cons_succ]
      · rw [if_neg h2, if_neg]
        intro hc
        apply h2
        omega

theorem slots_keySum {b : BufferedPaginatedStorage F} (h : WF b) (j : Int) :
    (((slots b).filter (fun s => decide (s.1 = j))).map (fun s => s.2)).sum = slotAt b j := by
  unfold slots
  rw [pageSlots_keySum h b.pages h.pageLen j 0, slotAt_eq h]
  unfold pageOf pageAt
  simp only [Nat.cast_zero, add_zero]
  by_cases hc : b.minPageIndex ≤ j / 32 ∧ j / 32 < b.minPageIndex + (b.pages.length : Int)
  · rw [if_pos hc, if_pos ⟨hc.1, hc.2⟩]
  · rw [if_neg hc, if_neg (fun h2 => hc ⟨h2.1, h2.2⟩)]
    simp

theorem list_lower_bound (buf : List Int) : ∃ lo : Int, ∀ e ∈ buf, lo ≤ e := by
  induction buf with
  | nil => exact ⟨0, fun e he => by cases he⟩
  | cons x rest ih =>
    obtain ⟨lo, hlo⟩ := ih
    refine ⟨min lo x, ?_⟩
    intro e he
    rcases List.mem_cons.mp he with he | he
    · rw [he]; exact min_le_right _ _
    · exact le_trans (min_le_left _ _) (hlo e he)

theorem list_upper_bound (buf : List Int) : ∃ hi : Int, ∀ e ∈ buf, e ≤ hi := by
  induction buf with
  | nil => exact ⟨0, fun e he => by cases he⟩
  | cons x rest ih =>
    obtain ⟨hi, hhi⟩ := ih
    refine ⟨max hi x, ?_⟩
    intro e he
    rcases List.mem_cons.mp he with he | he
    · rw [he]; exact le_max_right _ _
    · exact le_trans (hhi e he) (le_max_left _ _)

/-- The cumulative weight is the sum of the logical weights from any sufficiently low index on. -/
theorem cumWeight_eq_sum {b : BufferedPaginatedStorage F} (h : WF b) :
    ∃ lo0 : Int, ∀ lo, lo ≤ lo0 → ∀ i, cumWeight b i = ∑ j ∈ Finset.Icc lo i, weightAt b j := by
  obtain ⟨lb, hlb⟩ := list_lower_bound b.buffer
  refine ⟨min lb (b.minPageIndex * 32), ?_⟩
  intro lo hlo i
  have h1 : ∀ e ∈ b.buffer, lo ≤ e := fun e he =>
    le_trans (le_trans hlo (min_le_left _ _)) (hlb e he)
  have h2 : ∀ s ∈ slots b, lo ≤ s.1 := by
    intro s hs
    have := (pageSlots_mem h b.pages h.pageLen 0 s hs).1
    have h3 : lo ≤ b.minPageIndex * 32 := le_trans hlo (min_le_right _ _)
    push_cast at this
    omega
  unfold cumWeight weightBelow weightAt
  rw [buffer_filter_sum b.buffer lo i h1, slots_filter_sum (slots b) lo i h2,
    Finset.sum_add_distrib]
  congr 1
  apply Finset.sum_congr rfl
  intro j _
  exact slots_keySum h j

theorem weightBelow_eq_total (buf : List Int) (sl : List (Int × F)) (i : Int)
    (hb : ∀ e ∈ buf, e ≤ i) (hs : ∀ s ∈ sl, s.1 ≤ i) :
    weightBelow buf sl i = (buf.length : F) + (sl.map (fun s => s.2)).sum := by
  unfold weightBelow
  have h1 : buf.filter (fun e => decide (e ≤ i)) = buf := by
    rw [List.filter_eq_self]
    intro e he
    simpa using hb e he
  have h2 : sl.filter (fun s => decide (s.1 ≤ i)) = sl := by
    rw [List.filter_eq_self]
    intro s hs2
    simpa using hs s hs2
  rw [h1, h2]

theorem pageSlots_upper {b : BufferedPaginatedStorage F} (h : WF b) (pages : List (List F))
    (hp : ∀ pg ∈ pages, pg.length = 0 ∨ pg.length = 32) :
    ∀ (off : Nat) (s : Int × F), s ∈ pageSlots b off pages →
      s.1 < (b.minPageIndex + (off : Int) + (pages.length : Int)) * 32 := by
  induction pages with
  | nil =>
    intro off s hs
    rw [pageSlots] at hs
    cases hs
  | cons pg rest ih =>
    intro off s hs
    rw [pageSlots] at hs
    simp only [List.length_cons]
    push_cast
    rcases List.mem_append.mp hs with hs | hs
    · obtain ⟨_, a2, _⟩ := lineSlots_mem h _ pg 0 s hs
      have := hp pg (List.mem_cons_self _ _)
      push_cast at a2
      omega
    · have := ih (fun x hx => hp x (List.mem_cons_of_mem _ hx)) (off + 1) s hs
      push_cast at this
      omega

/-- The size is the cumulative weight at any sufficiently high index. -/
theorem Size_eq_cumWeight {b : BufferedPaginatedStorage F} (h : WF b) :
    ∃ hi0 : Int, ∀ hi, hi0 ≤ hi → Size b = cumWeight b hi := by
  obtain ⟨ub, hub⟩ := list_upper_bound b.buffer
  refine ⟨max ub ((b.minPageIndex + (b.pages.length : Int)) * 32), ?_⟩
  intro hi hhi
  rw [Size_eq]
  unfold cumWeight
  rw [weightBelow_eq_total]
  · intro e he
    exact le_trans (hub e he) (le_trans (le_max_left _ _) hhi)
  · intro s hs
    have := pageSlots_upper h b.pages h.pageLen 0 s hs
    have h3 : (b.minPageIndex + (b.pages.length : Int)) * 32 ≤ hi :=
      le_trans (le_max_right _ _) hhi
    push_cast at this
    omega

end weightsums

end storage

/-! ## Queries are determined by the logical weights -/

namespace storage

section determined

variable {F : Type} [LinearOrderedField F]

theorem weightAt_nonneg {b : BufferedPaginatedStorage F} (hn : NonNeg b) (j : Int) :
    0 ≤ weightAt b j := by
  unfold weightAt
  have h1 : (0 : F) ≤ (b.buffer.count j : F) := Nat.cast_nonneg _
  have h2 := slotAt_nonneg hn j
  linarith

theorem cumWeight_congr {b1 b2 : BufferedPaginatedStorage F} (h1 : WF b1) (h2 : WF b2)
    (hw : ∀ j, weightAt b1 j = weightAt b2 j) (i : Int) : cumWeight b1 i = cumWeight b2 i := by
  obtain ⟨l1, hl1⟩ := cumWeight_eq_sum h1
  obtain ⟨l2, hl2⟩ := cumWeight_eq_sum h2
  rw [hl1 (min l1 l2) (min_le_left _ _) i, hl2 (min l1 l2) (min_le_right _ _) i]
  exact Finset.sum_congr rfl (fun j _ => hw j)

theorem Size_congr {b1 b2 : BufferedPaginatedStorage F} (h1 : WF b1) (h2 : WF b2)
    (hw : ∀ j, weightAt b1 j = weightAt b2 j) : Size b1 = Size b2 := by
  obtain ⟨u1, hu1⟩ := Size_eq_cumWeight h1
  obtain ⟨u2, hu2⟩ := Size_eq_cumWeight h2
  rw [hu1 (max u1 u2) (le_max_left _ _), hu2 (max u1 u2) (le_max_right _ _)]
  exact cumWeight_congr h1 h2 hw _

/-- An index whose cumulative weight is the first to exceed the clamped rank is what `KeyAtRank`
returns. -/
theorem KeyAtRank_unique {b : BufferedPaginatedStorage F} (h : WF b) (hn : NonNeg b) (rank : F)
    (k : Int) (h1 : max 0 rank < cumWeight b k) (h2 : ∀ i, i < k → cumWeight b i ≤ max 0 rank) :
    (KeyAtRank b rank).1 = Except.ok k := by
  have hs : max 0 rank < Size b := lt_of_lt_of_le h1 (cumWeight_le_Size h hn k)
  obtain ⟨k2, e, a1, a2⟩ := KeyAtRank_below h hn rank hs
  rw [e]
  congr 1
  by_contra hne
  rcases lt_or_gt_of_ne hne with hlt | hgt
  · have := h2 k2 hlt
    linarith
  · have := a2 k hgt
    linarith

/-- Two well-formed states with the same logical weights answer every rank query alike. -/
theorem KeyAtRank_congr {b1 b2 : BufferedPaginatedStorage F} (h1 : WF b1) (h2 : WF b2)
    (n1 : NonNeg b1) (n2 : NonNeg b2) (hw : ∀ j, weightAt b1 j = weightAt b2 j) (rank : F) :
    (KeyAtRank b1 rank).1 = (KeyAtRank b2 rank).1 := by
  have hs := Size_congr h1 h2 hw
  by_cases hr : max 0 rank < Size b1
  · obtain ⟨k, e, a1, a2⟩ := KeyAtRank_below h1 n1 rank hr
    rw [e]
    symm
    apply KeyAtRank_unique h2 n2 rank k
    · rw [← cumWeight_congr h1 h2 hw]; exact a1
    · intro i hi
      rw [← cumWeight_congr h1 h2 hw]
      exact a2 i hi
  · have hr1 : Size b1 ≤ max 0 rank := not_lt.mp hr
    have hr2 : Size b2 ≤ max 0 rank := hs ▸ hr1
    obtain ⟨p1, q1⟩ := KeyAtRank_above h1 n1 rank hr1
    obtain ⟨p2, q2⟩ := KeyAtRank_above h2 n2 rank hr2
    by_cases hex : ∃ j, 0 < weightAt b1 j
    · obtain ⟨k1, e1, c1, d1⟩ := p1 hex
      obtain ⟨k2, e2, c2, d2⟩ := p2 (by obtain ⟨j, hj⟩ := hex; exact ⟨j, hw j ▸ hj⟩)
      rw [e1, e2]
      congr 1
      have a := d1 k2 (by rw [hw]; exact c2)
      have b := d2 k1 (by rw [← hw]; exact c1)
      omega
    · push_neg at hex
      rw [q1 (fun j hj => absurd hj (not_lt.mpr (hex j))),
        q2 (fun j hj => absurd (hw j ▸ hj) (not_lt.mpr (hex j)))]

theorem cumWeight_eq_zero {b : BufferedPaginatedStorage F} (h : WF b) (i : Int)
    (hz : ∀ j, j ≤ i → weightAt b j = 0) : cumWeight b i = 0 := by
  obtain ⟨l, hl⟩ := cumWeight_eq_sum h
  rw [hl l le_rfl i]
  apply Finset.sum_eq_zero
  intro j hj
  exact hz j (Finset.mem_Icc.mp hj).2

theorem cumWeight_add_le {b : BufferedPaginatedStorage F} (h : WF b) (hn : NonNeg b) (i k : Int)
    (hik : i < k) : cumWeight b i + weightAt b k ≤ cumWeight b k := by
  obtain ⟨l, hl⟩ := cumWeight_eq_sum h
  rw [hl (min l k) (min_le_left _ _) i, hl (min l k) (min_le_left _ _) k]
  have hsub : insert k (Finset.Icc (min l k) i) ⊆ Finset.Icc (min l k) k := by
    intro x hx
    rcases Finset.mem_insert.mp hx with hx | hx
    · rw [hx]
      exact Finset.mem_Icc.mpr ⟨min_le_right _ _, le_rfl⟩
    · have := Finset.mem_Icc.mp hx
      exact Finset.mem_Icc.mpr ⟨this.1, by omega⟩
  have hnot : k ∉ Finset.Icc (min l k) i := by
    intro hc
    have := (Finset.mem_Icc.mp hc).2
    omega
  have := Finset.sum_le_sum_of_subset_of_nonneg hsub
    (f := fun j => weightAt b j) (fun j _ _ => weightAt_nonneg hn j)
  rw [Finset.sum_insert hnot] at this
  linarith

theorem weightAt_le_cumWeight {b : BufferedPaginatedStorage F} (h : WF b) (hn : NonNeg b)
    (k : Int) : weightAt b k ≤ cumWeight b k := by
  obtain ⟨l, hl⟩ := cumWeight_eq_sum h
  rw [hl (min l k) (min_le_left _ _) k]
  exact Finset.single_le_sum (f := fun j => weightAt b j) (fun j _ => weightAt_nonneg hn j)
    (Finset.mem_Icc.mpr ⟨min_le_right _ _, le_rfl⟩)

theorem cumWeight_eq_Size {b : BufferedPaginatedStorage F} (h : WF b) (k : Int)
    (hz : ∀ j, k < j → weightAt b j = 0) : cumWeight b k = Size b := by
  obtain ⟨l, hl⟩ := cumWeight_eq_sum h
  obtain ⟨u, hu⟩ := Size_eq_cumWeight h
  rw [hu (max u k) (le_max_left _ _), hl l le_rfl k, hl l le_rfl (max u k)]
  apply Finset.sum_subset
  · intro x hx
    have := Finset.mem_Icc.mp hx
    exact Finset.mem_Icc.mpr ⟨this.1, le_trans this.2 (le_max_right _ _)⟩
  · intro x hx hnx
    apply hz
    have a := Finset.mem_Icc.mp hx
    by_contra hc
    exact hnx (Finset.mem_Icc.mpr ⟨a.1, by omega⟩)

/-- The lowest index of positive weight answers every rank below its weight. -/
theorem KeyAtRank_lowest {b : BufferedPaginatedStorage F} (h : WF b) (hn : NonNeg b) (rank : F)
    (k : Int) (hk : max 0 rank < weightAt b k) (hz : ∀ j, j < k → weightAt b j = 0) :
    (KeyAtRank b rank).1 = Except.ok k := by
  apply KeyAtRank_unique h hn rank k
  · exact lt_of_lt_of_le hk (weightAt_le_cumWeight h hn k)
  · intro i hi
    rw [cumWeight_eq_zero h i (fun j hj => hz j (by omega))]
    exact le_max_left _ _

/-- The highest index of positive weight answers every rank within its weight of the size. -/
theorem KeyAtRank_highest {b : BufferedPaginatedStorage F} (h : WF b) (hn : NonNeg b) (rank : F)
    (k : Int) (hr : max 0 rank < Size b) (hk : Size b - weightAt b k ≤ max 0 rank)
    (hz : ∀ j, k < j → weightAt b j = 0) :
    (KeyAtRank b rank).1 = Except.ok k := by
  have hs := cumWeight_eq_Size h k hz
  apply KeyAtRank_unique h hn rank k
  · rw [hs]; exact hr
  · intro i hi
    have := cumWeight_add_le h hn i k hi
    rw [hs] at this
    linarith

theorem recordedAt_cons (r : Int × F) (rest : List (Int × F)) (j : Int) :
    recordedAt (r :: rest) j = recordedAt rest j + if j = r.1 then r.2 else 0 := by
  unfold recordedAt
  by_cases hj : r.1 = j
  · simp [List.filter_cons, hj]; ring
  · have : ¬ j = r.1 := fun hc => hj hc.symm
    simp [List.filter_cons, hj, this]

theorem recordedBelow_cons (r : Int × F) (rest : List (Int × F)) (i : Int) :
    recordedBelow (r :: rest) i = recordedBelow rest i + if r.1 ≤ i then r.2 else 0 := by
  unfold recordedBelow
  by_cases hj : r.1 ≤ i
  · simp [List.filter_cons, hj]; ring
  · simp [List.filter_cons, hj]

/-- Recording a list of `(index, count)` pairs adds their recorded weight to every index. -/
theorem recordEach_spec (growCap : Nat → Nat) (recs : List (Int × F)) :
    ∀ (b : BufferedPaginatedStorage F), WF b → NonNeg b →
      (∀ r ∈ recs, isInt64 r.1 ∧ 0 ≤ r.2) →
      WF (recordEach growCap b recs) ∧ NonNeg (recordEach growCap b recs) ∧
      ∀ j, weightAt (recordEach growCap b recs) j = weightAt b j + recordedAt recs j := by
  induction recs with
  | nil =>
    intro b h hn _
    refine ⟨h, hn, ?_⟩
    intro j
    simp [recordEach, recordedAt]
  | cons r rest ih =>
    intro b h hn hr
    obtain ⟨c1, c2⟩ := hr r (List.mem_cons_self _ _)
    obtain ⟨w, hw, hnn⟩ := RecordValue_spec growCap h r.1 c1 r.2
    obtain ⟨w2, n2, hw2⟩ := ih (RecordValue growCap b r.1 r.2) w (hnn hn c2)
      (fun x hx => hr x (List.mem_cons_of_mem _ hx))
    have e : recordEach growCap b (r :: rest) =
        recordEach growCap (RecordValue growCap b r.1 r.2) rest := rfl
    rw [e]
    refine ⟨w2, n2, ?_⟩
    intro j
    rw [hw2 j, hw j, recordedAt_cons]
    ring

/-- When the logical weights are those of a list of records, so are the cumulative weights and
the size. -/
theorem cumWeight_of_records {b : BufferedPaginatedStorage F} (h : WF b)
    (recs : List (Int × F)) (hw : ∀ j, weightAt b j = recordedAt recs j) :
    (∀ i, cumWeight b i = recordedBelow recs i) ∧ Size b = (recs.map (fun r => r.2)).sum := by
  obtain ⟨l, hl⟩ := cumWeight_eq_sum h
  obtain ⟨u, hu⟩ := Size_eq_cumWeight h
  obtain ⟨lr, hlr⟩ := list_lower_bound (recs.map (fun r => r.1))
  obtain ⟨ur, hur⟩ := list_upper_bound (recs.map (fun r => r.1))
  have hlow : ∀ r ∈ recs, min l lr ≤ r.1 := fun r hr =>
    le_trans (min_le_right _ _) (hlr r.1 (List.mem_map_of_mem _ hr))
  have hcum : ∀ i, cumWeight b i = recordedBelow recs i := by
    intro i
    rw [hl (min l lr) (min_le_left _ _) i]
    unfold recordedBelow
    rw [slots_filter_sum recs (min l lr) i hlow]
    exact Finset.sum_congr rfl (fun j _ => hw j)
  refine ⟨hcum, ?_⟩
  rw [hu (max u ur) (le_max_left _ _), hcum]
  unfold recordedBelow
  have : recs.filter (fun r => decide (r.1 ≤ max u ur)) = recs := by
    rw [List.filter_eq_self]
    intro r hr
    have := hur r.1 (List.mem_map_of_mem _ hr)
    simp only [decide_eq_true_eq]
    exact le_trans this (le_max_right _ _)
  rw [this]

/-- A storage built from `NewBufferedPaginatedStorage` by a list of records. -/
theorem recordEach_new (growCap : Nat → Nat) (recs : List (Int × F))
    (hr : ∀ r ∈ recs, isInt64 r.1 ∧ 0 ≤ r.2) :
    WF (recordEach growCap (NewBufferedPaginatedStorage F) recs) ∧
    NonNeg (recordEach growCap (NewBufferedPaginatedStorage F) recs) ∧
    (∀ j, weightAt (recordEach growCap (NewBufferedPaginatedStorage F) recs) j =
      recordedAt recs j) ∧
    (∀ i, cumWeight (recordEach growCap (NewBufferedPaginatedStorage F) recs) i =
      recordedBelow recs i) ∧
    Size (recordEach growCap (NewBufferedPaginatedStorage F) recs) =
      (recs.map (fun r => r.2)).sum := by
  obtain ⟨w, n, hw⟩ := recordEach_spec growCap recs _ new_wf new_nonNeg hr
  have hw2 : ∀ j, weightAt (recordEach growCap (NewBufferedPaginatedStorage F) recs) j =
      recordedAt recs j := by
    intro j
    rw [hw j, new_weightAt, zero_add]
  obtain ⟨c1, c2⟩ := cumWeight_of_records w recs hw2
  exact ⟨w, n, hw2, c1, c2⟩

end determined

end storage

/-! ## The logarithmic mapper -/

namespace mapper

open storage

theorem NewLogarithmicMapper_fields {a : ℝ} {m : LogarithmicMapper}
    (hm : NewLogarithmicMapper a = Except.ok m) :
    0 < a ∧ a < 1 ∧ m.relativeAccuracy = a ∧ m.gamma = (1 + a) / (1 - a) ∧
    m.multiplier = 1 / Real.log m.gamma ∧
    m.minValue = max (Real.exp ((minInt32 : ℝ) / m.multiplier + 1)) (minNormalFloat64 * m.gamma) ∧
    m.maxValue = min (Real.exp ((maxInt32 : ℝ) / m.multiplier - 1))
      (Real.exp expOverflow / (2 * m.gamma) * (m.gamma + 1)) := by
  unfold NewLogarithmicMapper at hm
  by_cases hc : a ≤ 0 ∨ a ≥ 1
  · rw [if_pos hc] at hm
    cases hm
  · rw [if_neg hc] at hm
    push_neg at hc
    injection hm with hm
    subst hm
    exact ⟨hc.1, hc.2, rfl, rfl, rfl, rfl, rfl⟩

theorem NewLogarithmicMapper_ok {a : ℝ} (h0 : 0 < a) (h1 : a < 1) :
    ∃ m, NewLogarithmicMapper a = Except.ok m := by
  unfold NewLogarithmicMapper
  rw [if_neg (by push_neg; exact ⟨h0, h1⟩)]
  exact ⟨_, rfl⟩

theorem gamma_gt_one {a : ℝ} {m : LogarithmicMapper}
    (hm : NewLogarithmicMapper a = Except.ok m) : 1 < m.gamma := by
  obtain ⟨h0, h1, _, hg, _⟩ := NewLogarithmicMapper_fields hm
  rw [hg, lt_div_iff₀ (by linarith)]
  linarith

theorem log_gamma_pos {a : ℝ} {m : LogarithmicMapper}
    (hm : NewLogarithmicMapper a = Except.ok m) : 0 < Real.log m.gamma :=
  Real.log_pos (gamma_gt_one hm)

theorem multiplier_pos {a : ℝ} {m : LogarithmicMapper}
    (hm : NewLogarithmicMapper a = Except.ok m) : 0 < m.multiplier := by
  rw [(NewLogarithmicMapper_fields hm).2.2.2.2.1]
  exact one_div_pos.mpr (log_gamma_pos hm)

theorem div_multiplier {a : ℝ} {m : LogarithmicMapper}
    (hm : NewLogarithmicMapper a = Except.ok m) (x : ℝ) :
    x / m.multiplier = x * Real.log m.gamma := by
  rw [(NewLogarithmicMapper_fields hm).2.2.2.2.1]
  field_simp

theorem Index_le (m : LogarithmicMapper) (v : ℝ) :
    ((Index m v : Int) : ℝ) ≤ Real.log v * m.multiplier := by
  unfold Index toInt
  simp only []
  by_cases hx : Real.log v * m.multiplier ≥ 0
  · rw [if_pos hx, if_pos hx]
    exact Int.floor_le _
  · rw [if_neg hx, if_neg hx]
    push_cast
    have := Int.ceil_lt_add_one (Real.log v * m.multiplier)
    linarith

theorem le_Index_add_one (m : LogarithmicMapper) (v : ℝ) :
    Real.log v * m.multiplier ≤ ((Index m v : Int) : ℝ) + 1 := by
  unfold Index toInt
  simp only []
  by_cases hx : Real.log v * m.multiplier ≥ 0
  · rw [if_pos hx, if_pos hx]
    exact le_of_lt (Int.lt_floor_add_one _)
  · rw [if_neg hx, if_neg hx]
    push_cast
    have := Int.le_ceil (Real.log v * m.multiplier)
    linarith

theorem Index_mono {a : ℝ} {m : LogarithmicMapper} (hm : NewLogarithmicMapper a = Except.ok m)
    (v1 v2 : ℝ) (h1 : 0 < v1) (h12 : v1 ≤ v2) : Index m v1 ≤ Index m v2 := by
  have hmul := multiplier_pos hm
  have hx : Real.log v1 * m.multiplier ≤ Real.log v2 * m.multiplier :=
    mul_le_mul_of_nonneg_right (Real.log_le_log h1 h12) (le_of_lt hmul)
  unfold Index toInt
  simp only []
  by_cases hx1 : Real.log v1 * m.multiplier ≥ 0
  · have hx2 : Real.log v2 * m.multiplier ≥ 0 := le_trans hx1 hx
    rw [if_pos hx1, if_pos hx1, if_pos hx2, if_pos hx2]
    exact Int.floor_le_floor hx
  · rw [if_neg hx1, if_neg hx1]
    by_cases hx2 : Real.log v2 * m.multiplier ≥ 0
    · rw [if_pos hx2, if_pos hx2]
      have c1 : ⌈Real.log v1 * m.multiplier⌉ ≤ 0 := by
        apply Int.ceil_le.mpr
        push_cast
        linarith
      have c2 : 0 ≤ ⌊Real.log v2 * m.multiplier⌋ := Int.floor_nonneg.mpr hx2
      omega
    · rw [if_neg hx2, if_neg hx2]
      have := Int.ceil_le_ceil hx
      omega

theorem Value_eq {a : ℝ} {m : LogarithmicMapper} (hm : NewLogarithmicMapper a = Except.ok m)
    (i : Int) : Value m i = Real.exp ((i : ℝ) * Real.log m.gamma) * (1 + a) := by
  obtain ⟨h0, h1, _, hg, _⟩ := NewLogarithmicMapper_fields hm
  unfold Value
  simp only []
  rw [div_multiplier hm]
  congr 1
  rw [hg]
  have : (1 - a) ≠ 0 := by linarith
  field_simp
  ring

/-- The value reconstructed from the index of `v` is within relative accuracy `a` of `v`. -/
theorem Value_Index_accuracy {a : ℝ} {m : LogarithmicMapper}
    (hm : NewLogarithmicMapper a = Except.ok m) (v : ℝ) (hv : 0 < v) :
    |Value m (Index m v) - v| ≤ a * v := by
  obtain ⟨h0, h1, _, hg, hmu, _⟩ := NewLogarithmicMapper_fields hm
  have hlg := log_gamma_pos hm
  have hgam := gamma_gt_one hm
  have hi1 := Index_le m v
  have hi2 := le_Index_add_one m v
  have hmul : Real.log v * m.multiplier = Real.log v / Real.log m.gamma := by
    rw [hmu]; field_simp
  rw [hmul] at hi1 hi2
  rw [le_div_iff₀ hlg] at hi1
  rw [div_le_iff₀ hlg] at hi2
  have hL : Real.exp (((Index m v : Int) : ℝ) * Real.log m.gamma) ≤ v := by
    have h2 := Real.exp_le_exp.mpr hi1
    rw [Real.exp_log hv] at h2
    exact h2
  have hU : v ≤ Real.exp (((Index m v : Int) : ℝ) * Real.log m.gamma) * m.gamma := by
    have : Real.log v ≤ ((Index m v : Int) : ℝ) * Real.log m.gamma + Real.log m.gamma := by
      linarith
    have h2 := Real.exp_le_exp.mpr this
    rw [Real.exp_log hv, Real.exp_add, Real.exp_log (by linarith)] at h2
    exact h2
  rw [Value_eq hm]
  generalize Real.exp (((Index m v : Int) : ℝ) * Real.log m.gamma) = L at hL hU
  have hg2 : (1 - a) * m.gamma = 1 + a := by
    rw [hg]
    have : (1 - a) ≠ 0 := by linarith
    field_simp
  have hLpos : 0 ≤ L := by
    by_contra hc
    push_neg at hc
    have : L * m.gamma < 0 := mul_neg_of_neg_of_pos hc (by linarith)
    linarith
  rw [abs_le]
  constructor
  · have : (1 - a) * v ≤ (1 - a) * (L * m.gamma) :=
      mul_le_mul_of_nonneg_left hU (by linarith)
    have e : (1 - a) * (L * m.gamma) = L * (1 + a) := by
      rw [← hg2]; ring
    linarith
  · have : L * (1 + a) ≤ v * (1 + a) := mul_le_mul_of_nonneg_right hL (by linarith)
    linarith

theorem minValue_pos {a : ℝ} {m : LogarithmicMapper}
    (hm : NewLogarithmicMapper a = Except.ok m) : 0 < m.minValue := by
  rw [(NewLogarithmicMapper_fields hm).2.2.2.2.2.1]
  exact lt_of_lt_of_le (Real.exp_pos _) (le_max_left _ _)

/-- Every value that `RecordValue` hands to `Index` has a representable index. -/
theorem Index_isInt64 {a : ℝ} {m : LogarithmicMapper}
    (hm : NewLogarithmicMapper a = Except.ok m) (v : ℝ) (h1 : m.minValue < v)
    (h2 : v ≤ m.maxValue) : isInt64 (Index m v) := by
  obtain ⟨_, _, _, _, _, hmin, hmax⟩ := NewLogarithmicMapper_fields hm
  have hv : 0 < v := lt_trans (minValue_pos hm) h1
  have hmul := multiplier_pos hm
  have hlo : Real.exp ((minInt32 : ℝ) / m.multiplier + 1) < v := by
    rw [hmin] at h1
    exact lt_of_le_of_lt (le_max_left _ _) h1
  have hhi : v ≤ Real.exp ((maxInt32 : ℝ) / m.multiplier - 1) := by
    rw [hmax] at h2
    exact le_trans h2 (min_le_left _ _)
  have hlo2 : (minInt32 : ℝ) / m.multiplier + 1 < Real.log v :=
    (Real.lt_log_iff_exp_lt hv).mpr hlo
  have hhi2 : Real.log v ≤ (maxInt32 : ℝ) / m.multiplier - 1 :=
    (Real.log_le_iff_le_exp hv).mpr hhi
  have hlo3 : (minInt32 : ℝ) < Real.log v * m.multiplier := by
    have := mul_lt_mul_of_pos_right hlo2 hmul
    rw [add_mul, div_mul_cancel₀ _ (ne_of_gt hmul)] at this
    linarith
  have hhi3 : Real.log v * m.multiplier < (maxInt32 : ℝ) := by
    have := mul_le_mul_of_nonneg_right hhi2 (le_of_lt hmul)
    rw [sub_mul, div_mul_cancel₀ _ (ne_of_gt hmul)] at this
    linarith
  have a1 := Index_le m v
  have a2 := le_Index_add_one m v
  have b1 : ((Index m v : Int) : ℝ) < ((maxInt32 : Int) : ℝ) := by linarith
  have b2 : ((minInt32 - 1 : Int) : ℝ) < ((Index m v : Int) : ℝ) := by
    push_cast
    linarith
  have c1 : Index m v < maxInt32 := by exact_mod_cast b1
  have c2 : minInt32 - 1 < Index m v := by exact_mod_cast b2
  unfold minInt32 at c2
  unfold maxInt32 at c1
  unfold isInt64
  constructor <;> omega

/-- For accuracies between one percent and one half, every value between `1` and `10` is
recorded in the positive store. -/
theorem moderate_values_in_range {a : ℝ} {m : LogarithmicMapper}
    (hm : NewLogarithmicMapper a = Except.ok m) (ha1 : 1 / 100 ≤ a) (ha2 : a ≤ 1 / 2)
    (v : ℝ) (hv1 : 1 ≤ v) (hv2 : v ≤ 10) : m.minValue < v ∧ v ≤ m.maxValue := by
  obtain ⟨h0, h1, _, hg, _, hmin, hmax⟩ := NewLogarithmicMapper_fields hm
  have hgam := gamma_gt_one hm
  have hg3 : m.gamma ≤ 3 := by
    rw [hg, div_le_iff₀ (by linarith)]
    linarith
  have hlog : 1 / 100 ≤ Real.log m.gamma := by
    have h3 := Real.one_sub_inv_le_log_of_pos (show 0 < m.gamma by linarith)
    have h4 : 1 - m.gamma⁻¹ = 2 * a / (1 + a) := by
      rw [hg]
      have : (1 - a) ≠ 0 := by linarith
      have : (1 + a) ≠ 0 := by linarith
      field_simp
      ring
    have h5 : 1 / 100 ≤ 2 * a / (1 + a) := by
      rw [le_div_iff₀ (by linarith)]
      linarith
    linarith
  constructor
  · rw [hmin]
    apply max_lt
    · rw [div_multiplier hm]
      have : ((minInt32 : Int) : ℝ) * Real.log m.gamma + 1 < 0 := by
        have e : ((minInt32 : Int) : ℝ) = -2147483648 := by
          unfold minInt32; norm_num
        rw [e]
        nlinarith
      have := Real.exp_lt_exp.mpr this
      rw [Real.exp_zero] at this
      linarith
    · have : minNormalFloat64 * m.gamma ≤ minNormalFloat64 * 3 :=
        mul_le_mul_of_nonneg_left hg3 (by unfold minNormalFloat64; norm_num)
      have : minNormalFloat64 * 3 < 1 := by
        unfold minNormalFloat64
        norm_num
      linarith
  · rw [hmax]
    apply le_min
    · rw [div_multiplier hm]
      have hx : (10 : ℝ) ≤ ((maxInt32 : Int) : ℝ) * Real.log m.gamma - 1 + 1 := by
        have e : ((maxInt32 : Int) : ℝ) = 2147483647 := by
          unfold maxInt32; norm_num
        rw [e]
        nlinarith
      have := Real.add_one_le_exp (((maxInt32 : Int) : ℝ) * Real.log m.gamma - 1)
      linarith
    · have he : (710 : ℝ) ≤ Real.exp expOverflow := by
        have := Real.add_one_le_exp expOverflow
        unfold expOverflow at this ⊢
        norm_num at this ⊢
        linarith
      have hpos : 0 < 2 * m.gamma := by linarith
      rw [div_mul_eq_mul_div, le_div_iff₀ hpos]
      nlinarith

end mapper

/-! ## The sketch -/

namespace quantilesketch

open storage mapper

/-- The result of `GetValueAtQuantile`, in terms of the sizes and rank queries of the stores. -/
theorem GetValueAtQuantile_fst (s : QuantileSketch) (q : ℝ) :
    (GetValueAtQuantile s q).1 =
      if q < 0 ∨ q > 1 then Except.error "quantile must be between 0 and 1"
      else if s.zeroCount + Size s.positiveValues + Size s.negativeValues = 0 then
        Except.error "empty sketch"
      else if q * (s.zeroCount + Size s.positiveValues + Size s.negativeValues - 1) <
          Size s.negativeValues then
        match (KeyAtRank s.negativeValues (Size s.negativeValues - 1 -
            q * (s.zeroCount + Size s.positiveValues + Size s.negativeValues - 1))).1 with
        | Except.error err => Except.error err
        | Except.ok key => Except.ok (-Value s.mapper key)
      else if q * (s.zeroCount + Size s.positiveValues + Size s.negativeValues - 1) <
          s.zeroCount + Size s.negativeValues then
        Except.ok 0
      else
        match (KeyAtRank s.positiveValues
            (q * (s.zeroCount + Size s.positiveValues + Size s.negativeValues - 1) -
              s.zeroCount - Size s.negativeValues)).1 with
        | Except.error err => Except.error err
        | Except.ok key => Except.ok (Value s.mapper key) := by
  unfold GetValueAtQuantile
  simp only []
  split
  · rfl
  · split
    · rfl
    · split
      · split <;> simp_all
      · split
        · rfl
        · split <;> simp_all

/-- Sketches with the same mapper, the same `zeroCount` and stores of the same logical weights
answer every quantile query alike. -/
theorem GetValueAtQuantile_congr (s1 s2 : QuantileSketch) (hm : s1.mapper = s2.mapper)
    (hz : s1.zeroCount = s2.zeroCount)
    (hp1 : WF s1.positiveValues ∧ NonNeg s1.positiveValues)
    (hp2 : WF s2.positiveValues ∧ NonNeg s2.positiveValues)
    (hn1 : WF s1.negativeValues ∧ NonNeg s1.negativeValues)
    (hn2 : WF s2.negativeValues ∧ NonNeg s2.negativeValues)
    (hp : ∀ j, weightAt s1.positiveValues j = weightAt s2.positiveValues j)
    (hn : ∀ j, weightAt s1.negativeValues j = weightAt s2.negativeValues j) (q : ℝ) :
    (GetValueAtQuantile s1 q).1 = (GetValueAtQuantile s2 q).1 := by
  rw [GetValueAtQuantile_fst, GetValueAtQuantile_fst, hm, hz,
    Size_congr hp1.1 hp2.1 hp, Size_congr hn1.1 hn2.1 hn,
    KeyAtRank_congr hp1.1 hp2.1 hp1.2 hp2.2 hp, KeyAtRank_congr hn1.1 hn2.1 hn1.2 hn2.2 hn]

theorem positiveRecords_cons (m : LogarithmicMapper) (p : ℝ × ℝ) (l : List (ℝ × ℝ)) :
    positiveRecords m (p :: l) =
      if p.1 > MinValue m then (Index m p.1, p.2) :: positiveRecords m l
      else positiveRecords m l := by
  unfold positiveRecords
  by_cases h : p.1 > MinValue m
  · simp [List.filter_cons, h]
  · simp [List.filter_cons, h]

theorem negativeRecords_cons (m : LogarithmicMapper) (p : ℝ × ℝ) (l : List (ℝ × ℝ)) :
    negativeRecords m (p :: l) =
      if ¬ p.1 > MinValue m ∧ p.1 < -MinValue m then
        (Index m (-p.1), p.2) :: negativeRecords m l
      else negativeRecords m l := by
  unfold negativeRecords
  by_cases h : ¬ p.1 > MinValue m ∧ p.1 < -MinValue m
  · rw [List.filter_cons, if_pos (by simpa using h), if_pos h]
    rfl
  · rw [List.filter_cons, if_neg (by simpa using h), if_neg h]

theorem zeroWeight_cons (m : LogarithmicMapper) (p : ℝ × ℝ) (l : List (ℝ × ℝ)) :
    zeroWeight m (p :: l) =
      (if ¬ p.1 > MinValue m ∧ ¬ p.1 < -MinValue m then p.2 else 0) + zeroWeight m l := by
  unfold zeroWeight
  by_cases h : ¬ p.1 > MinValue m ∧ ¬ p.1 < -MinValue m
  · rw [List.filter_cons, if_pos (by simpa using h), if_pos h]
    simp
  · rw [List.filter_cons, if_neg (by simpa using h), if_neg h]
    simp

theorem RecordValue_accepted (growCap : Nat → Nat) (s : QuantileSketch) (p : ℝ × ℝ)
    (h : Accepted s.mapper p) :
    (RecordValue growCap s p.1 p.2).1 = none ∧
    (RecordValue growCap s p.1 p.2).2 =
      { mapper := s.mapper,
        positiveValues := recordEach growCap s.positiveValues (positiveRecords s.mapper [p]),
        negativeValues := recordEach growCap s.negativeValues (negativeRecords s.mapper [p]),
        zeroCount := s.zeroCount + zeroWeight s.mapper [p] } := by
  obtain ⟨h1, h2⟩ := h
  unfold RecordValue
  rw [if_neg (not_lt.mpr h1), if_neg h2, positiveRecords_cons, negativeRecords_cons,
    zeroWeight_cons]
  by_cases c1 : p.1 > MinValue s.mapper
  · rw [if_pos c1, if_pos c1, if_neg (fun hc => hc.1 c1), if_neg (fun hc => hc.1 c1)]
    refine ⟨rfl, ?_⟩
    simp [recordEach, positiveRecords, negativeRecords, zeroWeight]
  · rw [if_neg c1, if_neg c1]
    by_cases c2 : p.1 < -MinValue s.mapper
    · rw [if_pos c2, if_pos ⟨c1, c2⟩, if_neg (fun hc => hc.2 c2)]
      refine ⟨rfl, ?_⟩
      simp [recordEach, positiveRecords, negativeRecords, zeroWeight]
    · rw [if_neg c2, if_neg (fun hc => c2 hc.2), if_pos ⟨c1, c2⟩]
      refine ⟨rfl, ?_⟩
      simp [recordEach, positiveRecords, negativeRecords, zeroWeight]

theorem recordEach_append (growCap : Nat → Nat) (b : BufferedPaginatedStorage ℝ)
    (r1 r2 : List (Int × ℝ)) :
    recordEach growCap b (r1 ++ r2) = recordEach growCap (recordEach growCap b r1) r2 := by
  unfold recordEach
  rw [List.foldl_append]

/-- Recording a list of accepted pairs sends each pair to its store. -/
theorem recordAll_spec (growCap : Nat → Nat) (l : List (ℝ × ℝ)) :
    ∀ (s : QuantileSketch), (∀ p ∈ l, Accepted s.mapper p) →
      recordAll growCap s l =
        { mapper := s.mapper,
          positiveValues := recordEach growCap s.positiveValues (positiveRecords s.mapper l),
          negativeValues := recordEach growCap s.negativeValues (negativeRecords s.mapper l),
          zeroCount := s.zeroCount + zeroWeight s.mapper l } := by
  induction l with
  | nil =>
    intro s _
    simp [recordAll, recordEach, positiveRecords, negativeRecords, zeroWeight]
  | cons p rest ih =>
    intro s hacc
    have e : recordAll growCap s (p :: rest) =
        recordAll growCap (RecordValue growCap s p.1 p.2).2 rest := rfl
    have hp := (RecordValue_accepted growCap s p (hacc p (List.mem_cons_self _ _))).2
    rw [e, hp]
    rw [ih { mapper := s.mapper,
             positiveValues := recordEach growCap s.positiveValues (positiveRecords s.mapper [p]),
             negativeValues := recordEach growCap s.negativeValues (negativeRecords s.mapper [p]),
             zeroCount := s.zeroCount + zeroWeight s.mapper [p] }
      (fun x hx => hacc x (List.mem_cons_of_mem _ hx))]
    simp only []
    have a1 : positiveRecords s.mapper (p :: rest) =
        positiveRecords s.mapper [p] ++ positiveRecords s.mapper rest := by
      unfold positiveRecords
      rw [← List.map_append, ← List.filter_append]
      rfl
    have a2 : negativeRecords s.mapper (p :: rest) =
        negativeRecords s.mapper [p] ++ negativeRecords s.mapper rest := by
      unfold negativeRecords
      rw [← List.map_append, ← List.filter_append]
      rfl
    have a3 : zeroWeight s.mapper (p :: rest) =
        zeroWeight s.mapper [p] + zeroWeight s.mapper rest := by
      rw [zeroWeight_cons, zeroWeight_cons]
      simp [zeroWeight]
    rw [a1, a2, a3, recordEach_append, recordEach_append, add_assoc]

theorem positiveRecords_ok {a : ℝ} {m : LogarithmicMapper}
    (hm : NewLogarithmicMapper a = Except.ok m) (l : List (ℝ × ℝ))
    (hacc : ∀ p ∈ l, Accepted m p) : ∀ r ∈ positiveRecords m l, isInt64 r.1 ∧ 0 ≤ r.2 := by
  intro r hr
  unfold positiveRecords at hr
  obtain ⟨p, hp, rfl⟩ := List.mem_map.mp hr
  have hf := List.mem_filter.mp hp
  have h1 : p.1 > MinValue m := by simpa using hf.2
  obtain ⟨c1, c2⟩ := hacc p hf.1
  push_neg at c2
  exact ⟨Index_isInt64 hm p.1 h1 c2.1, c1⟩

theorem negativeRecords_ok {a : ℝ} {m : LogarithmicMapper}
    (hm : NewLogarithmicMapper a = Except.ok m) (l : List (ℝ × ℝ))
    (hacc : ∀ p ∈ l, Accepted m p) : ∀ r ∈ negativeRecords m l, isInt64 r.1 ∧ 0 ≤ r.2 := by
  intro r hr
  unfold negativeRecords at hr
  obtain ⟨p, hp, rfl⟩ := List.mem_map.mp hr
  have hf := List.mem_filter.mp hp
  have h1 : ¬ p.1 > MinValue m ∧ p.1 < -MinValue m := by simpa using hf.2
  obtain ⟨c1, c2⟩ := hacc p hf.1
  push_neg at c2
  refine ⟨Index_isInt64 hm (-p.1) ?_ ?_, c1⟩
  · have := h1.2
    unfold MinValue at this
    linarith
  · have := c2.2
    unfold MaxValue at this
    linarith

theorem New_eq {a : ℝ} {s : QuantileSketch} (hs : New a = Except.ok s) :
    NewLogarithmicMapper a = Except.ok s.mapper ∧
    s.positiveValues = NewBufferedPaginatedStorage ℝ ∧
    s.negativeValues = NewBufferedPaginatedStorage ℝ ∧ s.zeroCount = 0 := by
  unfold New at hs
  cases hm : NewLogarithmicMapper a with
  | error e =>
    rw [hm] at hs
    cases hs
  | ok m =>
    rw [hm] at hs
    injection hs with hs
    subst hs
    exact ⟨rfl, rfl, rfl, rfl⟩

theorem New_ok {a : ℝ} (h0 : 0 < a) (h1 : a < 1) : ∃ s, New a = Except.ok s := by
  obtain ⟨m, hm⟩ := NewLogarithmicMapper_ok h0 h1
  unfold New
  rw [hm]
  exact ⟨_, rfl⟩

/-- The state of a fresh sketch after a list of accepted pairs was recorded. -/
theorem recordAll_new (growCap : Nat → Nat) {a : ℝ} {s : QuantileSketch}
    (hs : New a = Except.ok s) (l : List (ℝ × ℝ)) (hacc : ∀ p ∈ l, Accepted s.mapper p) :
    (recordAll growCap s l).mapper = s.mapper ∧
    (recordAll growCap s l).zeroCount = zeroWeight s.mapper l ∧
    (recordAll growCap s l).positiveValues =
      recordEach growCap (NewBufferedPaginatedStorage ℝ) (positiveRecords s.mapper l) ∧
    (recordAll growCap s l).negativeValues =
      recordEach growCap (NewBufferedPaginatedStorage ℝ) (negativeRecords s.mapper l) := by
  obtain ⟨_, e2, e3, e4⟩ := New_eq hs
  rw [recordAll_spec growCap l s hacc, e2, e3, e4]
  exact ⟨rfl, by simp, rfl, rfl⟩

end quantilesketch

/-! ## Concrete runs -/

namespace storage

section runs

variable {F : Type} [LinearOrderedField F]

theorem add_new (growCap : Nat → Nat) (i : Int) :
    add growCap (NewBufferedPaginatedStorage F) i =
      appendBuffer growCap (NewBufferedPaginatedStorage F) i := by
  unfold add
  simp only []
  rw [if_neg, if_neg]
  · intro hc
    have := hc.1
    simp [NewBufferedPaginatedStorage] at this
  · intro hc
    have h1 := hc.1
    have h2 := hc.2.1
    simp only [NewBufferedPaginatedStorage, List.length_nil, Nat.cast_zero, add_zero] at h1 h2
    omega

theorem RecordValue_new_one_pages (growCap : Nat → Nat) (i : Int) :
    (RecordValue growCap (NewBufferedPaginatedStorage F) i 1).pages = [] ∧
    (RecordValue growCap (NewBufferedPaginatedStorage F) i 1).pageLenLog2 = 5 ∧
    (RecordValue growCap (NewBufferedPaginatedStorage F) i 1).buffer = [i] := by
  unfold RecordValue
  rw [if_neg one_ne_zero, if_pos rfl, add_new]
  exact ⟨rfl, rfl, rfl⟩

/-- `Merge` leaves `left` as it is when `right` has no page, whatever `right` has buffered. -/
theorem Merge_right_without_pages (growCap : Nat → Nat) (left right : BufferedPaginatedStorage F)
    (hl : left.pageLenLog2 = right.pageLenLog2) (hp : right.pages = []) :
    Merge growCap left right = (none, left) := by
  unfold Merge
  rw [if_neg (fun hc => hc hl), hp, mergePages]

theorem Size_new : Size (NewBufferedPaginatedStorage F) = 0 := by
  simp [Size, NewBufferedPaginatedStorage]

end runs

end storage

namespace quantilesketch

open storage mapper

/-- A fresh sketch in which one value above `MinValue` was recorded. -/
theorem RecordValue_new_positive (growCap : Nat → Nat) {a : ℝ} {s : QuantileSketch}
    (hs : New a = Except.ok s) (v c : ℝ) (hc : 0 ≤ c) (h1 : MinValue s.mapper < v)
    (h2 : v ≤ MaxValue s.mapper) :
    (RecordValue growCap s v c).1 = none ∧
    (RecordValue growCap s v c).2.mapper = s.mapper ∧
    (RecordValue growCap s v c).2.zeroCount = 0 ∧
    (RecordValue growCap s v c).2.negativeValues = NewBufferedPaginatedStorage ℝ ∧
    (RecordValue growCap s v c).2.positiveValues =
      storage.RecordValue growCap (NewBufferedPaginatedStorage ℝ) (Index s.mapper v) c := by
  obtain ⟨hm, e2, e3, e4⟩ := New_eq hs
  have hpos := minValue_pos hm
  have hacc : Accepted s.mapper (v, c) := by
    refine ⟨hc, ?_⟩
    push_neg
    refine ⟨h2, ?_⟩
    unfold MinValue MaxValue at *
    linarith
  obtain ⟨r1, r2⟩ := RecordValue_accepted growCap s (v, c) hacc
  refine ⟨r1, ?_, ?_, ?_, ?_⟩
  · rw [r2]
  · rw [r2, zeroWeight_cons, if_neg (fun hh => hh.1 h1), e4]
    simp [zeroWeight]
  · rw [r2, negativeRecords_cons, if_neg (fun hh => hh.1 h1), e3]
    rfl
  · rw [r2, positiveRecords_cons, if_pos h1, e2]
    rfl

theorem Size_RecordValue_new (growCap : Nat → Nat) (i : Int) (hi : isInt64 i) (c : ℝ)
    (hc : 0 ≤ c) :
    WF (storage.RecordValue growCap (NewBufferedPaginatedStorage ℝ) i c) ∧
    NonNeg (storage.RecordValue growCap (NewBufferedPaginatedStorage ℝ) i c) ∧
    Size (storage.RecordValue growCap (NewBufferedPaginatedStorage ℝ) i c) = c ∧
    ∀ j, weightAt (storage.RecordValue growCap (NewBufferedPaginatedStorage ℝ) i c) j =
      if j = i then c else 0 := by
  obtain ⟨w, n, hw, _, hsz⟩ := recordEach_new (F := ℝ) growCap [(i, c)]
    (fun r hr => by rw [List.mem_singleton.mp hr]; exact ⟨hi, hc⟩)
  have e : recordEach growCap (NewBufferedPaginatedStorage ℝ) [(i, c)] =
      storage.RecordValue growCap (NewBufferedPaginatedStorage ℝ) i c := rfl
  rw [e] at w n hw hsz
  refine ⟨w, n, by simpa using hsz, ?_⟩
  intro j
  rw [hw j, recordedAt_cons]
  simp [recordedAt]

theorem one_in_range {s : QuantileSketch} (hs : New (1 / 2) = Except.ok s) :
    MinValue s.mapper < 1 ∧ (1 : ℝ) ≤ MaxValue s.mapper :=
  moderate_values_in_range (New_eq hs).1 (by norm_num) (by norm_num) 1 (by norm_num)
    (by norm_num)

/-- C1 (code defect): `Merge` does not give the sketch of the whole data set.  With accuracy
`1/2`, `A` a fresh sketch (nothing recorded) and `B` a fresh sketch in which the value `1` was
recorded once, `Merge(A, B)` succeeds and returns an empty sketch, whose `GetValueAtQuantile(1/2)`
fails with "empty sketch", while the sketch in which the pairs of `A` and then of `B` were
recorded answers `Value(Index(1))`: the value buffered in `B` is never copied, because the loop
over `right.buffer` sits inside the loop over the (here absent) pages of `right`. -/
theorem merge_differs_from_recording_all :
    ∃ sA sB merged : QuantileSketch,
      New (1 / 2) = Except.ok sA ∧
      RecordValue (fun c => 2 * c) sA 1 1 = (none, sB) ∧
      Merge (fun c => 2 * c) sA sB = (none, merged) ∧
      (GetValueAtQuantile merged (1 / 2)).1 = Except.error "empty sketch" ∧
      (GetValueAtQuantile (recordAll (fun c => 2 * c) sA [(1, 1)]) (1 / 2)).1 =
        Except.ok (Value sA.mapper (Index sA.mapper 1)) := by
  obtain ⟨sA, hs⟩ := New_ok (a := 1 / 2) (by norm_num) (by norm_num)
  obtain ⟨hm, e2, e3, e4⟩ := New_eq hs
  obtain ⟨r1, r2⟩ := one_in_range hs
  obtain ⟨b1, b2, b3, b4, b5⟩ := RecordValue_new_positive (fun c => 2 * c) hs 1 1 (by norm_num) r1 r2
  have hi : isInt64 (Index sA.mapper 1) := Index_isInt64 hm 1 r1 r2
  obtain ⟨w, n, hsz, hw⟩ := Size_RecordValue_new (fun c => 2 * c) (Index sA.mapper 1) hi 1
    (by norm_num)
  obtain ⟨p1, p2, _⟩ := RecordValue_new_one_pages (F := ℝ) (fun c => 2 * c) (Index sA.mapper 1)
  have hmerge : Merge (fun c => 2 * c) sA (RecordValue (fun c => 2 * c) sA 1 1).2 =
      (none, { sA with zeroCount := sA.zeroCount + 0 }) := by
    unfold Merge isMappersMergeable IsMergeable mergeStorages
    rw [b2, b3, b4, b5]
    simp only [if_true]
    rw [Merge_right_without_pages _ _ _ (by rw [e2, p2]; rfl) p1,
      Merge_right_without_pages _ _ _ (by rw [e3]) (by rfl)]
    simp
  refine ⟨sA, (RecordValue (fun c => 2 * c) sA 1 1).2, _, hs, ?_, hmerge, ?_, ?_⟩
  · exact Prod.ext b1 rfl
  · rw [GetValueAtQuantile_fst]
    simp only []
    rw [if_neg (by norm_num), if_pos]
    rw [e2, e3, e4, Size_new]
    norm_num
  · have e : recordAll (fun c => 2 * c) sA [(1, 1)] = (RecordValue (fun c => 2 * c) sA 1 1).2 :=
      rfl
    rw [e, GetValueAtQuantile_fst, b2, b3, b4, b5, hsz, Size_new]
    rw [if_neg (by norm_num), if_neg (by norm_num), if_neg (by norm_num), if_neg (by norm_num)]
    have hk : (KeyAtRank (storage.RecordValue (fun c => 2 * c) (NewBufferedPaginatedStorage ℝ)
        (Index sA.mapper 1) 1) (1 / 2 * (0 + 1 + 0 - 1) - 0 - 0)).1 =
        Except.ok (Index sA.mapper 1) := by
      apply KeyAtRank_lowest w n
      · rw [hw, if_pos rfl]
        norm_num
      · intro j hj
        rw [hw, if_neg (by omega)]
    rw [hk]

/-- C2 (code defect): `Merge` is not size-additive.  With accuracy `1/2`, `A` a fresh sketch
and `B` a fresh sketch in which the value `1` was recorded with count 1 (so that its index is
buffered in the positive store of `B`), `Merge(A, B)` succeeds, but the positive store of the
result has size `0` while the sizes of the positive stores of `A` and `B` add up to `1`: the
buffered index of `B` is added zero times. -/
theorem merge_is_not_size_additive :
    ∃ sA sB merged : QuantileSketch,
      New (1 / 2) = Except.ok sA ∧
      RecordValue (fun c => 2 * c) sA 1 1 = (none, sB) ∧
      sB.positiveValues.buffer = [Index sA.mapper 1] ∧
      Merge (fun c => 2 * c) sA sB = (none, merged) ∧
      Size merged.positiveValues = 0 ∧
      Size sA.positiveValues + Size sB.positiveValues = 1 := by
  obtain ⟨sA, hs⟩ := New_ok (a := 1 / 2) (by norm_num) (by norm_num)
  obtain ⟨hm, e2, e3, e4⟩ := New_eq hs
  obtain ⟨r1, r2⟩ := one_in_range hs
  obtain ⟨b1, b2, b3, b4, b5⟩ := RecordValue_new_positive (fun c => 2 * c) hs 1 1 (by norm_num) r1 r2
  have hi : isInt64 (Index sA.mapper 1) := Index_isInt64 hm 1 r1 r2
  obtain ⟨w, n, hsz, hw⟩ := Size_RecordValue_new (fun c => 2 * c) (Index sA.mapper 1) hi 1
    (by norm_num)
  obtain ⟨p1, p2, p3⟩ := RecordValue_new_one_pages (F := ℝ) (fun c => 2 * c) (Index sA.mapper 1)
  have hmerge : Merge (fun c => 2 * c) sA (RecordValue (fun c => 2 * c) sA 1 1).2 =
      (none, { sA with zeroCount := sA.zeroCount + 0 }) := by
    unfold Merge isMappersMergeable IsMergeable mergeStorages
    rw [b2, b3, b4, b5]
    simp only [if_true]
    rw [Merge_right_without_pages _ _ _ (by rw [e2, p2]; rfl) p1,
      Merge_right_without_pages _ _ _ (by rw [e3]) (by rfl)]
    simp
  refine ⟨sA, (RecordValue (fun c => 2 * c) sA 1 1).2, _, hs, Prod.ext b1 rfl, ?_, hmerge, ?_, ?_⟩
  · rw [b5]
    exact p3
  · show Size sA.positiveValues = 0
    rw [e2, Size_new]
  · rw [b5, hsz, e2, Size_new]
    norm_num

/-- C10 (code defect): a sketch of positive total weight can fail for a quantile in `[0,1]`.
With accuracy `1/2` and the value `1` recorded with count `1/2` in a fresh sketch, the total
weight is `1/2`, and `GetValueAtQuantile(1)` computes the negative rank `1 * (1/2 - 1)`, takes
the branch of the (empty) negative store and returns its "max index not found" error. -/
theorem quantile_fails_on_nonempty_sketch :
    ∃ s0 s : QuantileSketch,
      New (1 / 2) = Except.ok s0 ∧
      RecordValue (fun c => 2 * c) s0 1 (1 / 2) = (none, s) ∧
      s.zeroCount + Size s.positiveValues + Size s.negativeValues = 1 / 2 ∧
      (GetValueAtQuantile s 1).1 = Except.error "max index not found" := by
  obtain ⟨s0, hs⟩ := New_ok (a := 1 / 2) (by norm_num) (by norm_num)
  obtain ⟨hm, e2, e3, e4⟩ := New_eq hs
  obtain ⟨r1, r2⟩ := one_in_range hs
  obtain ⟨b1, b2, b3, b4, b5⟩ := RecordValue_new_positive (fun c => 2 * c) hs 1 (1 / 2)
    (by norm_num) r1 r2
  have hi : isInt64 (Index s0.mapper 1) := Index_isInt64 hm 1 r1 r2
  obtain ⟨w, n, hsz, hw⟩ := Size_RecordValue_new (fun c => 2 * c) (Index s0.mapper 1) hi (1 / 2)
    (by norm_num)
  refine ⟨s0, (RecordValue (fun c => 2 * c) s0 1 (1 / 2)).2, hs, Prod.ext b1 rfl, ?_, ?_⟩
  · rw [b3, b4, b5, hsz, Size_new]
    norm_num
  · rw [GetValueAtQuantile_fst, b3, b4, b5, hsz, Size_new]
    rw [if_neg (by norm_num), if_neg (by norm_num), if_pos (by norm_num)]
    have hk := (KeyAtRank_above (F := ℝ) new_wf new_nonNeg (0 - 1 - 1 * (0 + 1 / 2 + 0 - 1))
      (by rw [Size_new]; exact le_max_left _ _)).2
      (fun j => by rw [new_weightAt]; exact lt_irrefl _)
    rw [hk]

end quantilesketch

namespace quantilesketch

open storage mapper

theorem recordedAt_positive_replicate (m : LogarithmicMapper) (v : ℝ) (N : Nat) (j : Int) :
    recordedAt (positiveRecords m (List.replicate N (v, 1))) j =
      if v > MinValue m ∧ j = Index m v then (N : ℝ) else 0 := by
  induction N with
  | zero => simp [positiveRecords, recordedAt]
  | succ n ih =>
    rw [List.replicate_succ, positiveRecords_cons]
    by_cases h : v > MinValue m
    · simp only [h, if_true, true_and] at ih ⊢
      rw [recordedAt_cons, ih]
      by_cases hj : j = Index m v
      · simp [hj]
      · simp [hj]
    · simp only [h, if_false, false_and] at ih ⊢
      exact ih

theorem recordedAt_negative_replicate (m : LogarithmicMapper) (v : ℝ) (N : Nat) (j : Int) :
    recordedAt (negativeRecords m (List.replicate N (v, 1))) j =
      if (¬ v > MinValue m ∧ v < -MinValue m) ∧ j = Index m (-v) then (N : ℝ) else 0 := by
  induction N with
  | zero => simp [negativeRecords, recordedAt]
  | succ n ih =>
    rw [List.replicate_succ, negativeRecords_cons]
    by_cases h : ¬ v > MinValue m ∧ v < -MinValue m
    · simp only [h, if_true, true_and] at ih ⊢
      simp only [not_false_eq_true, and_self, if_true, true_and] at ih ⊢
      rw [recordedAt_cons, ih]
      by_cases hj : j = Index m (-v)
      · simp [hj]
      · simp [hj]
    · rw [if_neg h, ih, if_neg (fun hc => h hc.1), if_neg (fun hc => h hc.1)]

theorem zeroWeight_replicate (m : LogarithmicMapper) (v : ℝ) (N : Nat) :
    zeroWeight m (List.replicate N (v, 1)) =
      if ¬ v > MinValue m ∧ ¬ v < -MinValue m then (N : ℝ) else 0 := by
  induction N with
  | zero => simp [zeroWeight]
  | succ n ih =>
    rw [List.replicate_succ, zeroWeight_cons, ih]
    by_cases h : ¬ v > MinValue m ∧ ¬ v < -MinValue m
    · rw [if_pos h, if_pos h, if_pos h]
      push_cast
      ring
    · rw [if_neg h, if_neg h, if_neg h]
      ring

theorem accepted_of_abs {m : LogarithmicMapper} (v c : ℝ) (hc : 0 ≤ c)
    (hv : |v| ≤ MaxValue m) : Accepted m (v, c) := by
  refine ⟨hc, ?_⟩
  have := abs_le.mp hv
  push_neg
  constructor <;> linarith [this.1, this.2]

/-- C3: for every relative accuracy `a` with `0 < a < 1`, `NewLogarithmicMapper(a)` succeeds, and
for every value `v > 0` the value reconstructed from `i = Index(v)` satisfies
`|Value(i) - v| / v ≤ a` (float64 modelled as real numbers). -/
theorem mapper_relative_error_bound (a : ℝ) (h0 : 0 < a) (h1 : a < 1) (v : ℝ) (hv : 0 < v) :
    ∃ m, NewLogarithmicMapper a = Except.ok m ∧ |Value m (Index m v) - v| / v ≤ a := by
  obtain ⟨m, hm⟩ := NewLogarithmicMapper_ok h0 h1
  refine ⟨m, hm, ?_⟩
  rw [div_le_iff₀ hv]
  exact Value_Index_accuracy hm v hv

/-- Witness of C3 at accuracy `1/2` and value `3`. -/
theorem mapper_relative_error_bound_witness :
    (0 : ℝ) < 1 / 2 ∧ (1 / 2 : ℝ) < 1 ∧ (0 : ℝ) < 3 ∧
      ∃ m, NewLogarithmicMapper (1 / 2) = Except.ok m ∧
        |Value m (Index m 3) - 3| / 3 ≤ 1 / 2 :=
  ⟨by norm_num, by norm_num, by norm_num,
    mapper_relative_error_bound (1 / 2) (by norm_num) (by norm_num) 3 (by norm_num)⟩

/-- C4: for every accuracy whose sketch `New` builds, every value `v` with
`MinValue < |v| ≤ MaxValue`, every natural number `N` and every quantile `q`, the fresh sketch in
which `RecordValue(v, 1)` was called `N` times and the fresh sketch in which `RecordValue(v, N)`
was called once give the same result of `GetValueAtQuantile(q)` (the same value or the same
error); all these `RecordValue` calls succeed. -/
theorem ingestion_paths_equivalent (growCap : Nat → Nat) (a : ℝ) (s0 : QuantileSketch)
    (hs : New a = Except.ok s0) (v : ℝ)
    (hv : MinValue s0.mapper < |v| ∧ |v| ≤ MaxValue s0.mapper) (N : Nat) (q : ℝ) :
    (∀ k, (RecordValue growCap (recordAll growCap s0 (List.replicate k (v, 1))) v 1).1 = none) ∧
    (RecordValue growCap s0 v (N : ℝ)).1 = none ∧
    (GetValueAtQuantile (recordAll growCap s0 (List.replicate N (v, 1))) q).1 =
      (GetValueAtQuantile (RecordValue growCap s0 v (N : ℝ)).2 q).1 := by
  obtain ⟨hm, e2, e3, e4⟩ := New_eq hs
  have accN : ∀ k : Nat, ∀ p ∈ List.replicate k (v, (1 : ℝ)), Accepted s0.mapper p := by
    intro k p hp
    rw [List.eq_of_mem_replicate hp]
    exact accepted_of_abs v 1 (by norm_num) hv.2
  have acc1 : ∀ p ∈ [(v, (N : ℝ))], Accepted s0.mapper p := by
    intro p hp
    rw [List.mem_singleton.mp hp]
    exact accepted_of_abs v N (Nat.cast_nonneg _) hv.2
  refine ⟨?_, ?_, ?_⟩
  · intro k
    have hmk := (recordAll_new growCap hs _ (accN k)).1
    have := (RecordValue_accepted growCap (recordAll growCap s0 (List.replicate k (v, 1)))
      (v, 1) (by rw [hmk]; exact accepted_of_abs v 1 (by norm_num) hv.2)).1
    exact this
  · exact (RecordValue_accepted growCap s0 (v, (N : ℝ)) (acc1 _ (List.mem_singleton.mpr rfl))).1
  · have e : (RecordValue growCap s0 v (N : ℝ)).2 = recordAll growCap s0 [(v, (N : ℝ))] := rfl
    rw [e]
    obtain ⟨m1, z1, p1, n1⟩ := recordAll_new growCap hs _ (accN N)
    obtain ⟨m2, z2, p2, n2⟩ := recordAll_new growCap hs _ acc1
    obtain ⟨wp1, np1, hp1, _⟩ := recordEach_new (F := ℝ) growCap _
      (positiveRecords_ok hm _ (accN N))
    obtain ⟨wp2, np2, hp2, _⟩ := recordEach_new (F := ℝ) growCap _ (positiveRecords_ok hm _ acc1)
    obtain ⟨wn1, nn1, hn1, _⟩ := recordEach_new (F := ℝ) growCap _
      (negativeRecords_ok hm _ (accN N))
    obtain ⟨wn2, nn2, hn2, _⟩ := recordEach_new (F := ℝ) growCap _ (negativeRecords_ok hm _ acc1)
    apply GetValueAtQuantile_congr
    · rw [m1, m2]
    · rw [z1, z2, zeroWeight_replicate, zeroWeight_cons]
      simp [zeroWeight]
    · rw [p1]; exact ⟨wp1, np1⟩
    · rw [p2]; exact ⟨wp2, np2⟩
    · rw [n1]; exact ⟨wn1, nn1⟩
    · rw [n2]; exact ⟨wn2, nn2⟩
    · intro j
      rw [p1, p2, hp1, hp2, recordedAt_positive_replicate, positiveRecords_cons]
      by_cases h : v > MinValue s0.mapper
      · simp only [h, if_true, true_and]
        rw [recordedAt_cons]
        simp [recordedAt, positiveRecords]
      · simp [h, recordedAt, positiveRecords]
    · intro j
      rw [n1, n2, hn1, hn2, recordedAt_negative_replicate, negativeRecords_cons]
      by_cases h : ¬ v > MinValue s0.mapper ∧ v < -MinValue s0.mapper
      · rw [if_pos h]
        simp only [h, and_self, if_true, true_and]
        rw [recordedAt_cons]
        simp [recordedAt, negativeRecords]
      · rw [if_neg h, if_neg (fun hc => h hc.1)]
        simp [recordedAt, negativeRecords]

theorem abs_one_in_range {s : QuantileSketch} (hs : New (1 / 2) = Except.ok s) :
    MinValue s.mapper < |(1 : ℝ)| ∧ |(1 : ℝ)| ≤ MaxValue s.mapper := by
  rw [abs_one]
  exact one_in_range hs

/-- Witness of C4 at accuracy `1/2`, value `1`, `N = 3` and quantile `1/2`. -/
theorem ingestion_paths_equivalent_witness :
    ∃ s0, New (1 / 2) = Except.ok s0 ∧
      (MinValue s0.mapper < |(1 : ℝ)| ∧ |(1 : ℝ)| ≤ MaxValue s0.mapper) ∧
      (RecordValue (fun c => 2 * c) s0 1 ((3 : Nat) : ℝ)).1 = none ∧
      (GetValueAtQuantile (recordAll (fun c => 2 * c) s0 (List.replicate 3 (1, 1))) (1 / 2)).1 =
        (GetValueAtQuantile (RecordValue (fun c => 2 * c) s0 1 ((3 : Nat) : ℝ)).2 (1 / 2)).1 := by
  obtain ⟨s0, hs⟩ := New_ok (a := 1 / 2) (by norm_num) (by norm_num)
  have h := ingestion_paths_equivalent (fun c => 2 * c) (1 / 2) s0 hs 1 (abs_one_in_range hs) 3
    (1 / 2)
  exact ⟨s0, hs, abs_one_in_range hs, h.2.1, h.2.2⟩

end quantilesketch

namespace storage

section claims

variable {F : Type} [LinearOrderedField F]

/-- A storage in which index `3` was recorded once: it is reachable and has size `1`. -/
theorem recorded_three (growCap : Nat → Nat) :
    Reachable growCap (RecordValue growCap (NewBufferedPaginatedStorage ℚ) 3 1) ∧
    Size (RecordValue growCap (NewBufferedPaginatedStorage ℚ) 3 1) = 1 ∧
    weightAt (RecordValue growCap (NewBufferedPaginatedStorage ℚ) 3 1) 3 = 1 := by
  have hi : isInt64 3 := by unfold isInt64; norm_num
  refine ⟨Reachable.record _ 3 1 Reachable.new hi (by norm_num), ?_, ?_⟩
  · obtain ⟨_, _, _, _, hsz⟩ := recordEach_new (F := ℚ) growCap [(3, 1)]
      (fun r hr => by rw [List.mem_singleton.mp hr]; exact ⟨hi, by norm_num⟩)
    simpa using hsz
  · obtain ⟨_, hw, _⟩ := RecordValue_spec (F := ℚ) growCap new_wf 3 hi 1
    rw [hw 3, new_weightAt]
    norm_num

/-- C8 as stated fails: the fresh storage is reachable, the rank `-1` is below its size `0`, and
`KeyAtRank(-1)` returns the "max index not found" error. -/
theorem KeyAtRank_fails_on_empty_storage :
    Reachable (fun c => 2 * c) (NewBufferedPaginatedStorage ℚ) ∧
    (-1 : ℚ) < Size (NewBufferedPaginatedStorage ℚ) ∧
    (KeyAtRank (NewBufferedPaginatedStorage ℚ) (-1)).1 =
      Except.error "max index not found" := by
  refine ⟨Reachable.new, ?_, ?_⟩
  · rw [Size_new]
    norm_num
  · exact (KeyAtRank_above (F := ℚ) new_wf new_nonNeg (-1)
      (by rw [Size_new]; exact le_max_left _ _)).2
      (fun j => by rw [new_weightAt]; exact lt_irrefl _)

/-- C8 (amended): for every storage reachable from `NewBufferedPaginatedStorage` by `RecordValue`
calls with representable indices and non-negative counts, and every rank with
`max(0, rank) < Size()`, `KeyAtRank(rank)` succeeds and returns the least index `k` such that the
total weight of all indices `≤ k` (buffer occurrences plus page slot weights) is strictly greater
than `max(0, rank)`. -/
theorem KeyAtRank_rank_scan (growCap : Nat → Nat) (b : BufferedPaginatedStorage F)
    (hb : Reachable growCap b) (rank : F) (hr : max 0 rank < Size b) :
    ∃ k, (KeyAtRank b rank).1 = Except.ok k ∧ max 0 rank < cumWeight b k ∧
      ∀ i, max 0 rank < cumWeight b i → k ≤ i := by
  obtain ⟨w, n⟩ := hb.wf
  obtain ⟨k, e, a1, a2⟩ := KeyAtRank_below w n rank hr
  refine ⟨k, e, a1, ?_⟩
  intro i hi
  by_contra hc
  have := a2 i (by omega)
  exact absurd hi (not_lt.mpr this)

/-- Witness of C8 (amended): index `3` recorded once, rank `0`. -/
theorem KeyAtRank_rank_scan_witness :
    Reachable (fun c => 2 * c)
      (RecordValue (fun c => 2 * c) (NewBufferedPaginatedStorage ℚ) 3 1) ∧
    max 0 (0 : ℚ) < Size (RecordValue (fun c => 2 * c) (NewBufferedPaginatedStorage ℚ) 3 1) ∧
    ∃ k, (KeyAtRank (RecordValue (fun c => 2 * c) (NewBufferedPaginatedStorage ℚ) 3 1) 0).1 =
        Except.ok k ∧
      max 0 (0 : ℚ) < cumWeight (RecordValue (fun c => 2 * c) (NewBufferedPaginatedStorage ℚ) 3 1) k ∧
      ∀ i, max 0 (0 : ℚ) <
        cumWeight (RecordValue (fun c => 2 * c) (NewBufferedPaginatedStorage ℚ) 3 1) i → k ≤ i :=
  have h := recorded_three (fun c => 2 * c)
  have hr : max 0 (0 : ℚ) <
      Size (RecordValue (fun c => 2 * c) (NewBufferedPaginatedStorage ℚ) 3 1) := by
    rw [h.2.1]; norm_num
  ⟨h.1, hr, KeyAtRank_rank_scan (fun c => 2 * c) _ h.1 0 hr⟩

/-- C9: for every storage reachable from `NewBufferedPaginatedStorage` by `RecordValue` calls
with representable indices and non-negative counts, and every rank `≥ Size()`: when some index
has a strictly positive total weight (buffer occurrences plus page slot), `KeyAtRank(rank)`
returns the largest such index; when the storage is empty (no index has weight), it returns the
"max index not found" error. -/
theorem KeyAtRank_fallback (growCap : Nat → Nat) (b : BufferedPaginatedStorage F)
    (hb : Reachable growCap b) (rank : F) (hr : Size b ≤ rank) :
    ((∃ j, 0 < weightAt b j) →
      ∃ k, (KeyAtRank b rank).1 = Except.ok k ∧ 0 < weightAt b k ∧
        ∀ j, 0 < weightAt b j → j ≤ k) ∧
    ((∀ j, weightAt b j = 0) → (KeyAtRank b rank).1 = Except.error "max index not found") := by
  obtain ⟨w, n⟩ := hb.wf
  obtain ⟨p, q⟩ := KeyAtRank_above w n rank (le_trans hr (le_max_right _ _))
  refine ⟨p, ?_⟩
  intro hz
  apply q
  intro j hj
  rw [hz j] at hj
  exact lt_irrefl _ hj

/-- Witness of C9: index `3` recorded once, rank `5`. -/
theorem KeyAtRank_fallback_witness :
    Reachable (fun c => 2 * c)
      (RecordValue (fun c => 2 * c) (NewBufferedPaginatedStorage ℚ) 3 1) ∧
    Size (RecordValue (fun c => 2 * c) (NewBufferedPaginatedStorage ℚ) 3 1) ≤ 5 ∧
    ∃ k, (KeyAtRank (RecordValue (fun c => 2 * c) (NewBufferedPaginatedStorage ℚ) 3 1) 5).1 =
        Except.ok k ∧
      0 < weightAt (RecordValue (fun c => 2 * c) (NewBufferedPaginatedStorage ℚ) 3 1) k ∧
      ∀ j, 0 < weightAt (RecordValue (fun c => 2 * c) (NewBufferedPaginatedStorage ℚ) 3 1) j →
        j ≤ k :=
  have h := recorded_three (fun c => 2 * c)
  have hr : Size (RecordValue (fun c => 2 * c) (NewBufferedPaginatedStorage ℚ) 3 1) ≤ 5 := by
    rw [h.2.1]; norm_num
  ⟨h.1, hr, (KeyAtRank_fallback (fun c => 2 * c) _ h.1 5 hr).1
    ⟨3, by rw [h.2.2]; norm_num⟩⟩

end claims

end storage

namespace quantilesketch

open storage mapper

theorem recordedBelow_nil (i : Int) : recordedBelow ([] : List (Int × ℝ)) i = 0 := by
  simp [recordedBelow]

theorem percent_in_range {s : QuantileSketch} (hs : New 0.01 = Except.ok s) (v : ℝ)
    (h1 : 1 ≤ v) (h2 : v ≤ 10) : MinValue s.mapper < v ∧ v ≤ MaxValue s.mapper :=
  moderate_values_in_range (New_eq hs).1 (by norm_num) (by norm_num) v h1 h2

theorem accepted_percent {s : QuantileSketch} (hs : New 0.01 = Except.ok s) (v c : ℝ)
    (h1 : 1 ≤ v) (h2 : v ≤ 10) (hc : 0 ≤ c) : Accepted s.mapper (v, c) := by
  obtain ⟨a1, a2⟩ := percent_in_range hs v h1 h2
  have hpos := minValue_pos (New_eq hs).1
  refine ⟨hc, ?_⟩
  push_neg
  unfold MinValue MaxValue at *
  constructor <;> linarith

/-- The run of the median scenario: the six records are accepted, the positive store has size
`6`, and the quantile `0.5` is answered from the bucket of the value `2`. -/
theorem median_run (growCap : Nat → Nat) :
    ∃ s0, New 0.01 = Except.ok s0 ∧
      (∀ p ∈ [((1 : ℝ), (1 : ℝ)), (2, 1), (2, 1), (3, 1), (3, 1), (3, 1)],
        Accepted s0.mapper p) ∧
      Size (recordAll growCap s0 [(1, 1), (2, 1), (2, 1), (3, 1), (3, 1), (3, 1)]).positiveValues
        = 6 ∧
      (GetValueAtQuantile
        (recordAll growCap s0 [(1, 1), (2, 1), (2, 1), (3, 1), (3, 1), (3, 1)]) 0.5).1 =
        Except.ok (Value s0.mapper (Index s0.mapper 2)) := by
  obtain ⟨s0, hs⟩ := New_ok (a := 0.01) (by norm_num) (by norm_num)
  obtain ⟨hm, e2, e3, e4⟩ := New_eq hs
  have r1 := (percent_in_range hs 1 (by norm_num) (by norm_num)).1
  have r2 := (percent_in_range hs 2 (by norm_num) (by norm_num)).1
  have r3 := (percent_in_range hs 3 (by norm_num) (by norm_num)).1
  have hacc : ∀ p ∈ [((1 : ℝ), (1 : ℝ)), (2, 1), (2, 1), (3, 1), (3, 1), (3, 1)],
      Accepted s0.mapper p := by
    intro p hp
    simp only [List.mem_cons, List.mem_singleton, List.not_mem_nil, or_false] at hp
    rcases hp with h | h | h | h | h | h <;> rw [h] <;>
      exact accepted_percent hs _ _ (by norm_num) (by norm_num) (by norm_num)
  have hP : positiveRecords s0.mapper [((1 : ℝ), (1 : ℝ)), (2, 1), (2, 1), (3, 1), (3, 1), (3, 1)]
      = [(Index s0.mapper 1, 1), (Index s0.mapper 2, 1), (Index s0.mapper 2, 1),
         (Index s0.mapper 3, 1), (Index s0.mapper 3, 1), (Index s0.mapper 3, 1)] := by
    simp only [positiveRecords_cons, r1, r2, r3, gt_iff_lt, if_true]
    rfl
  have hN : negativeRecords s0.mapper
      [((1 : ℝ), (1 : ℝ)), (2, 1), (2, 1), (3, 1), (3, 1), (3, 1)] = [] := by
    simp only [negativeRecords_cons, r1, r2, r3, gt_iff_lt, not_true_eq_false, false_and,
      if_false]
    rfl
  have hZ : zeroWeight s0.mapper [((1 : ℝ), (1 : ℝ)), (2, 1), (2, 1), (3, 1), (3, 1), (3, 1)]
      = 0 := by
    simp only [zeroWeight_cons, r1, r2, r3, gt_iff_lt, not_true_eq_false, false_and, if_false]
    simp [zeroWeight]
  obtain ⟨m1, z1, p1, n1⟩ := recordAll_new growCap hs _ hacc
  rw [hP] at p1
  rw [hN] at n1
  rw [hZ] at z1
  have i12 : Index s0.mapper 1 ≤ Index s0.mapper 2 :=
    Index_mono hm 1 2 (by norm_num) (by norm_num)
  have i23 : Index s0.mapper 2 ≤ Index s0.mapper 3 :=
    Index_mono hm 2 3 (by norm_num) (by norm_num)
  have hrec : ∀ r ∈ [(Index s0.mapper 1, (1 : ℝ)), (Index s0.mapper 2, 1), (Index s0.mapper 2, 1),
      (Index s0.mapper 3, 1), (Index s0.mapper 3, 1), (Index s0.mapper 3, 1)],
      isInt64 r.1 ∧ 0 ≤ r.2 := by
    rw [← hP]
    exact positiveRecords_ok hm _ hacc
  obtain ⟨w, n, _, hcum, hsz⟩ := recordEach_new (F := ℝ) growCap _ hrec
  have hsz6 : Size (recordAll growCap s0
      [(1, 1), (2, 1), (2, 1), (3, 1), (3, 1), (3, 1)]).positiveValues = 6 := by
    rw [p1, hsz]
    norm_num
  refine ⟨s0, hs, hacc, hsz6, ?_⟩
  rw [GetValueAtQuantile_fst, hsz6, z1, n1]
  have hn0 : Size (recordEach growCap (NewBufferedPaginatedStorage ℝ) []) = 0 := Size_new
  rw [hn0, m1]
  rw [if_neg (by norm_num), if_neg (by norm_num), if_neg (by norm_num), if_neg (by norm_num)]
  have hrank : (0.5 * (0 + 6 + 0 - 1) - 0 - 0 : ℝ) = 5 / 2 := by norm_num
  rw [hrank]
  have hmax : max (0 : ℝ) (5 / 2) = 5 / 2 := max_eq_right (by norm_num)
  have hk : (KeyAtRank (recordAll growCap s0
      [(1, 1), (2, 1), (2, 1), (3, 1), (3, 1), (3, 1)]).positiveValues (5 / 2)).1 =
      Except.ok (Index s0.mapper 2) := by
    rw [p1]
    apply KeyAtRank_unique w n
    · rw [hmax, hcum]
      simp only [recordedBelow_cons, recordedBelow_nil, le_refl, i12, if_true]
      split_ifs <;> norm_num
    · intro i hi
      rw [hmax, hcum]
      have h3 : ¬ Index s0.mapper 3 ≤ i := by omega
      have h2 : ¬ Index s0.mapper 2 ≤ i := by omega
      simp only [recordedBelow_cons, recordedBelow_nil, h2, h3, if_false]
      split_ifs <;> norm_num
  rw [hk]

/-- C6 as stated fails: in the median scenario (accuracy `0.01`, the values `1, 2, 2, 3, 3, 3`
recorded with count 1), `GetValueAtQuantile(0.5)` returns a value `r` that is not within 1% of
`3`. -/
theorem median_scenario_not_three :
    ∃ s0 r, New 0.01 = Except.ok s0 ∧
      (GetValueAtQuantile (recordAll (fun c => 2 * c) s0
        [(1, 1), (2, 1), (2, 1), (3, 1), (3, 1), (3, 1)]) 0.5).1 = Except.ok r ∧
      ¬ (|r - 3| / 3 ≤ 0.01) := by
  obtain ⟨s0, hs, _, _, hq⟩ := median_run (fun c => 2 * c)
  refine ⟨s0, _, hs, hq, ?_⟩
  have hacc := Value_Index_accuracy (New_eq hs).1 2 (by norm_num)
  have := (abs_le.mp hacc).2
  intro hc
  rw [div_le_iff₀ (by norm_num)] at hc
  have h2 := (abs_le.mp hc).1
  norm_num at this h2
  linarith

/-- C6 (amended): on a sketch constructed with relative accuracy `0.01`, the six calls of
`RecordValue` with count 1 for the values `1, 2, 2, 3, 3, 3` are accepted and make the positive
store of size `6`, and `GetValueAtQuantile(0.5)` (rank `0.5 * 5 = 2.5`, the third smallest
value) returns a value `r` with `|r - 2| / 2 ≤ 0.01`. -/
theorem median_scenario (growCap : Nat → Nat) :
    ∃ s0 r, New 0.01 = Except.ok s0 ∧
      (∀ p ∈ [((1 : ℝ), (1 : ℝ)), (2, 1), (2, 1), (3, 1), (3, 1), (3, 1)],
        Accepted s0.mapper p) ∧
      Size (recordAll growCap s0 [(1, 1), (2, 1), (2, 1), (3, 1), (3, 1), (3, 1)]).positiveValues
        = 6 ∧
      (GetValueAtQuantile (recordAll growCap s0
        [(1, 1), (2, 1), (2, 1), (3, 1), (3, 1), (3, 1)]) 0.5).1 = Except.ok r ∧
      |r - 2| / 2 ≤ 0.01 := by
  obtain ⟨s0, hs, hacc, hsz, hq⟩ := median_run growCap
  refine ⟨s0, _, hs, hacc, hsz, hq, ?_⟩
  have h := Value_Index_accuracy (New_eq hs).1 2 (by norm_num)
  rw [div_le_iff₀ (by norm_num)]
  exact h

/-- C7: on a fresh sketch with relative accuracy `0.01`, `RecordValue(0, 5)` and then
`RecordValue(10, 5)` succeed; afterwards `zeroCount` is `5`, `GetValueAtQuantile(0.4)` returns
exactly `0`, and `GetValueAtQuantile(0.9)` returns a value `r` with `|r - 10| / 10 ≤ 0.01`. -/
theorem zero_bucket_scenario (growCap : Nat → Nat) :
    ∃ s0 s1 s2 r, New 0.01 = Except.ok s0 ∧
      RecordValue growCap s0 0 5 = (none, s1) ∧
      RecordValue growCap s1 10 5 = (none, s2) ∧
      s2.zeroCount = 5 ∧
      (GetValueAtQuantile s2 0.4).1 = Except.ok 0 ∧
      (GetValueAtQuantile s2 0.9).1 = Except.ok r ∧
      |r - 10| / 10 ≤ 0.01 := by
  obtain ⟨s0, hs⟩ := New_ok (a := 0.01) (by norm_num) (by norm_num)
  obtain ⟨hm, e2, e3, e4⟩ := New_eq hs
  have hpos := minValue_pos hm
  have r10 := percent_in_range hs 10 (by norm_num) (by norm_num)
  have hmax : (0 : ℝ) ≤ MaxValue s0.mapper := by
    have := r10.2
    linarith
  have hacc0 : Accepted s0.mapper ((0 : ℝ), (5 : ℝ)) :=
    accepted_of_abs 0 5 (by norm_num) (by rw [abs_zero]; exact hmax)
  have hacc10 : Accepted s0.mapper ((10 : ℝ), (5 : ℝ)) :=
    accepted_percent hs 10 5 (by norm_num) (by norm_num) (by norm_num)
  have hacc : ∀ p ∈ [((0 : ℝ), (5 : ℝ)), (10, 5)], Accepted s0.mapper p := by
    intro p hp
    simp only [List.mem_cons, List.mem_singleton, List.not_mem_nil, or_false] at hp
    rcases hp with h | h <;> rw [h]
    · exact hacc0
    · exact hacc10
  have z0 : ¬ (0 : ℝ) > MinValue s0.mapper := by
    unfold MinValue
    linarith
  have z0n : ¬ (0 : ℝ) < -MinValue s0.mapper := by
    unfold MinValue
    linarith
  have hP : positiveRecords s0.mapper [((0 : ℝ), (5 : ℝ)), (10, 5)] =
      [(Index s0.mapper 10, 5)] := by
    rw [positiveRecords_cons, if_neg z0, positiveRecords_cons, if_pos r10.1]
    rfl
  have hN : negativeRecords s0.mapper [((0 : ℝ), (5 : ℝ)), (10, 5)] = [] := by
    rw [negativeRecords_cons, if_neg (fun hc => z0n hc.2), negativeRecords_cons,
      if_neg (fun hc => hc.1 r10.1)]
    rfl
  have hZ : zeroWeight s0.mapper [((0 : ℝ), (5 : ℝ)), (10, 5)] = 5 := by
    rw [zeroWeight_cons, if_pos ⟨z0, z0n⟩, zeroWeight_cons, if_neg (fun hc => hc.1 r10.1)]
    simp [zeroWeight]
  obtain ⟨m1, z1, p1, n1⟩ := recordAll_new growCap hs _ hacc
  rw [hP] at p1
  rw [hN] at n1
  rw [hZ] at z1
  have hstep1 := RecordValue_accepted growCap s0 ((0 : ℝ), (5 : ℝ)) hacc0
  have hm1 : (RecordValue growCap s0 0 5).2.mapper = s0.mapper := by
    rw [hstep1.2]
  have hstep2 := RecordValue_accepted growCap (RecordValue growCap s0 0 5).2 ((10 : ℝ), (5 : ℝ))
    (by rw [hm1]; exact hacc10)
  have hall : (RecordValue growCap (RecordValue growCap s0 0 5).2 10 5).2 =
      recordAll growCap s0 [(0, 5), (10, 5)] := rfl
  have hi : isInt64 (Index s0.mapper 10) := Index_isInt64 hm 10 r10.1 r10.2
  obtain ⟨w, n, hsz, hw⟩ := Size_RecordValue_new growCap (Index s0.mapper 10) hi 5 (by norm_num)
  have hp1 : (recordAll growCap s0 [(0, 5), (10, 5)]).positiveValues =
      storage.RecordValue growCap (NewBufferedPaginatedStorage ℝ) (Index s0.mapper 10) 5 := p1
  have hn0 : Size (recordEach growCap (NewBufferedPaginatedStorage ℝ) []) = 0 := Size_new
  refine ⟨s0, (RecordValue growCap s0 0 5).2,
    (RecordValue growCap (RecordValue growCap s0 0 5).2 10 5).2,
    Value s0.mapper (Index s0.mapper 10), hs, Prod.ext hstep1.1 rfl, Prod.ext hstep2.1 rfl,
    ?_, ?_, ?_, ?_⟩
  · rw [hall, z1]
  · rw [hall, GetValueAtQuantile_fst, z1, n1, hp1, hsz, hn0]
    rw [if_neg (by norm_num), if_neg (by norm_num), if_neg (by norm_num), if_pos (by norm_num)]
  · rw [hall, GetValueAtQuantile_fst, z1, n1, hp1, hsz, hn0, m1]
    rw [if_neg (by norm_num), if_neg (by norm_num), if_neg (by norm_num), if_neg (by norm_num)]
    have hk : (KeyAtRank (storage.RecordValue growCap (NewBufferedPaginatedStorage ℝ)
        (Index s0.mapper 10) 5) (0.9 * (5 + 5 + 0 - 1) - 5 - 0)).1 =
        Except.ok (Index s0.mapper 10) := by
      apply KeyAtRank_lowest w n
      · rw [hw, if_pos rfl]
        rw [max_lt_iff]
        constructor <;> norm_num
      · intro j hj
        rw [hw, if_neg (by omega)]
    rw [hk]
  · have h := Value_Index_accuracy hm 10 (by norm_num)
    rw [div_le_iff₀ (by norm_num)]
    exact h

end quantilesketch

namespace storage

section recordlists

variable {F : Type} [LinearOrderedField F]

theorem recordedAt_eq_zero (recs : List (Int × F)) (j : Int) (h : ∀ r ∈ recs, r.1 ≠ j) :
    recordedAt recs j = 0 := by
  unfold recordedAt
  have : recs.filter (fun r => decide (r.1 = j)) = [] := by
    rw [List.filter_eq_nil_iff]
    intro r hr
    simpa using h r hr
  rw [this]
  rfl

theorem recordedAt_ge_of_mem (recs : List (Int × F)) (hn : ∀ r ∈ recs, 0 ≤ r.2) (k : Int) (c : F)
    (hk : (k, c) ∈ recs) : c ≤ recordedAt recs k := by
  induction recs with
  | nil => cases hk
  | cons r rest ih =>
    rw [recordedAt_cons]
    have hrest : 0 ≤ recordedAt rest k :=
      slots_sum_nonneg _ (fun s hs => hn s (List.mem_cons_of_mem _ (List.mem_of_mem_filter hs)))
    rcases List.mem_cons.mp hk with h | h
    · rw [← h, if_pos rfl]
      simp only []
      linarith
    · have := ih (fun x hx => hn x (List.mem_cons_of_mem _ hx)) h
      have h0 := hn r (List.mem_cons_self _ _)
      split <;> linarith

/-- In a storage filled from records of count at least one, the rank `Size() - 1` is answered
by the largest recorded index. -/
theorem KeyAtRank_last_record {b : BufferedPaginatedStorage F} (h : WF b) (hn : NonNeg b)
    (recs : List (Int × F)) (hw : ∀ j, weightAt b j = recordedAt recs j)
    (hc : ∀ r ∈ recs, 1 ≤ r.2) (k : Int) (c : F) (hk : (k, c) ∈ recs)
    (hmax : ∀ r ∈ recs, r.1 ≤ k) (rank : F) (hr : rank = Size b - 1) :
    (KeyAtRank b rank).1 = Except.ok k := by
  have hn0 : ∀ r ∈ recs, (0 : F) ≤ r.2 := fun r hr => le_trans zero_le_one (hc r hr)
  have hwk : 1 ≤ weightAt b k := by
    rw [hw]
    exact le_trans (hc _ hk) (recordedAt_ge_of_mem recs hn0 k c hk)
  have hz : ∀ j, k < j → weightAt b j = 0 := by
    intro j hj
    rw [hw]
    apply recordedAt_eq_zero
    intro r hr
    have := hmax r hr
    omega
  have hsz : weightAt b k ≤ Size b := by
    rw [← cumWeight_eq_Size h k hz]
    exact weightAt_le_cumWeight h hn k
  apply KeyAtRank_highest h hn rank k
  · rw [hr]
    exact max_lt (by linarith) (by linarith)
  · rw [hr]
    exact le_trans (by linarith) (le_max_right _ _)
  · exact hz

/-- In a storage filled from records of count at least one, the rank `0` is answered by the
smallest recorded index. -/
theorem KeyAtRank_first_record {b : BufferedPaginatedStorage F} (h : WF b) (hn : NonNeg b)
    (recs : List (Int × F)) (hw : ∀ j, weightAt b j = recordedAt recs j)
    (hc : ∀ r ∈ recs, 1 ≤ r.2) (k : Int) (c : F) (hk : (k, c) ∈ recs)
    (hmin : ∀ r ∈ recs, k ≤ r.1) (rank : F) (hr : rank = 0) :
    (KeyAtRank b rank).1 = Except.ok k := by
  have hn0 : ∀ r ∈ recs, (0 : F) ≤ r.2 := fun r hr => le_trans zero_le_one (hc r hr)
  have hwk : 1 ≤ weightAt b k := by
    rw [hw]
    exact le_trans (hc _ hk) (recordedAt_ge_of_mem recs hn0 k c hk)
  apply KeyAtRank_lowest h hn rank k
  · rw [hr, max_self]
    linarith
  · intro j hj
    rw [hw]
    apply recordedAt_eq_zero
    intro r hr
    have := hmin r hr
    omega

theorem records_sum_ge (recs : List (Int × F)) (hn : ∀ r ∈ recs, 0 ≤ r.2) (r : Int × F)
    (hr : r ∈ recs) : r.2 ≤ (recs.map (fun r => r.2)).sum := by
  induction recs with
  | nil => cases hr
  | cons x rest ih =>
    simp only [List.map_cons, List.sum_cons]
    have hrest := slots_sum_nonneg rest (fun s hs => hn s (List.mem_cons_of_mem _ hs))
    rcases List.mem_cons.mp hr with h | h
    · rw [h]
      linarith
    · have := ih (fun y hy => hn y (List.mem_cons_of_mem _ hy)) h
      have := hn x (List.mem_cons_self _ _)
      linarith

end recordlists

end storage

namespace quantilesketch

open storage mapper

theorem mem_positiveRecords (m : LogarithmicMapper) (l : List (ℝ × ℝ)) (r : Int × ℝ) :
    r ∈ positiveRecords m l ↔ ∃ p ∈ l, p.1 > MinValue m ∧ r = (Index m p.1, p.2) := by
  unfold positiveRecords
  rw [List.mem_map]
  constructor
  · rintro ⟨p, hp, rfl⟩
    have := List.mem_filter.mp hp
    exact ⟨p, this.1, by simpa using this.2, rfl⟩
  · rintro ⟨p, hp, h1, rfl⟩
    exact ⟨p, List.mem_filter.mpr ⟨hp, by simpa using h1⟩, rfl⟩

theorem mem_negativeRecords (m : LogarithmicMapper) (l : List (ℝ × ℝ)) (r : Int × ℝ) :
    r ∈ negativeRecords m l ↔
      ∃ p ∈ l, (¬ p.1 > MinValue m ∧ p.1 < -MinValue m) ∧ r = (Index m (-p.1), p.2) := by
  unfold negativeRecords
  rw [List.mem_map]
  constructor
  · rintro ⟨p, hp, rfl⟩
    have := List.mem_filter.mp hp
    exact ⟨p, this.1, by simpa using this.2, rfl⟩
  · rintro ⟨p, hp, h1, rfl⟩
    exact ⟨p, List.mem_filter.mpr ⟨hp, by simpa using h1⟩, rfl⟩

theorem zeroWeight_nonneg (m : LogarithmicMapper) (l : List (ℝ × ℝ)) (hc : ∀ p ∈ l, 0 ≤ p.2) :
    0 ≤ zeroWeight m l := by
  unfold zeroWeight
  apply List.sum_nonneg
  intro x hx
  obtain ⟨p, hp, rfl⟩ := List.mem_map.mp hx
  exact hc p (List.mem_of_mem_filter hp)

theorem zeroWeight_ge (m : LogarithmicMapper) (l : List (ℝ × ℝ)) (hc : ∀ p ∈ l, 0 ≤ p.2)
    (p : ℝ × ℝ) (hp : p ∈ l) (h1 : ¬ p.1 > MinValue m) (h2 : ¬ p.1 < -MinValue m) :
    p.2 ≤ zeroWeight m l := by
  induction l with
  | nil => cases hp
  | cons x rest ih =>
    rw [zeroWeight_cons]
    have hrest := zeroWeight_nonneg m rest (fun y hy => hc y (List.mem_cons_of_mem _ hy))
    rcases List.mem_cons.mp hp with h | h
    · rw [← h, if_pos ⟨h1, h2⟩]
      linarith
    · have := ih (fun y hy => hc y (List.mem_cons_of_mem _ hy)) h
      have h0 := hc x (List.mem_cons_self _ _)
      split <;> linarith

theorem zeroWeight_eq_zero (m : LogarithmicMapper) (l : List (ℝ × ℝ))
    (h : ∀ p ∈ l, p.1 > MinValue m ∨ p.1 < -MinValue m) : zeroWeight m l = 0 := by
  unfold zeroWeight
  have : l.filter (fun p => decide (¬ p.1 > MinValue m ∧ ¬ p.1 < -MinValue m)) = [] := by
    rw [List.filter_eq_nil_iff]
    intro p hp
    rcases h p hp with h1 | h1
    · simp [h1]
    · simp only [decide_eq_true_eq, not_and, not_not]
      intro _
      exact h1
  rw [this]
  rfl

theorem negativeRecords_eq_nil (m : LogarithmicMapper) (l : List (ℝ × ℝ))
    (h : ∀ p ∈ l, ¬ p.1 < -MinValue m) : negativeRecords m l = [] := by
  unfold negativeRecords
  have : l.filter (fun p => decide (¬ p.1 > MinValue m ∧ p.1 < -MinValue m)) = [] := by
    rw [List.filter_eq_nil_iff]
    intro p hp
    simp only [decide_eq_true_eq, not_and]
    intro _
    exact h p hp
  rw [this]
  rfl

theorem positiveRecords_eq_nil (m : LogarithmicMapper) (l : List (ℝ × ℝ))
    (h : ∀ p ∈ l, ¬ p.1 > MinValue m) : positiveRecords m l = [] := by
  unfold positiveRecords
  have : l.filter (fun p => decide (p.1 > MinValue m)) = [] := by
    rw [List.filter_eq_nil_iff]
    intro p hp
    simpa using h p hp
  rw [this]
  rfl

/-- The state of a fresh sketch after a list of pairs with counts of at least one and values
within `±MaxValue` was recorded. -/
theorem recordAll_state (growCap : Nat → Nat) {a : ℝ} {s0 : QuantileSketch}
    (hs : New a = Except.ok s0) (l : List (ℝ × ℝ))
    (hl : ∀ p ∈ l, 1 ≤ p.2 ∧ |p.1| ≤ MaxValue s0.mapper) :
    (recordAll growCap s0 l).mapper = s0.mapper ∧
    (recordAll growCap s0 l).zeroCount = zeroWeight s0.mapper l ∧
    (WF (recordAll growCap s0 l).positiveValues ∧ NonNeg (recordAll growCap s0 l).positiveValues ∧
      (∀ j, weightAt (recordAll growCap s0 l).positiveValues j =
        recordedAt (positiveRecords s0.mapper l) j) ∧
      Size (recordAll growCap s0 l).positiveValues =
        ((positiveRecords s0.mapper l).map (fun r => r.2)).sum) ∧
    (WF (recordAll growCap s0 l).negativeValues ∧ NonNeg (recordAll growCap s0 l).negativeValues ∧
      (∀ j, weightAt (recordAll growCap s0 l).negativeValues j =
        recordedAt (negativeRecords s0.mapper l) j) ∧
      Size (recordAll growCap s0 l).negativeValues =
        ((negativeRecords s0.mapper l).map (fun r => r.2)).sum) := by
  obtain ⟨hm, _, _, _⟩ := New_eq hs
  have hacc : ∀ p ∈ l, Accepted s0.mapper p := fun p hp =>
    accepted_of_abs p.1 p.2 (le_trans zero_le_one (hl p hp).1) (hl p hp).2
  obtain ⟨m1, z1, p1, n1⟩ := recordAll_new growCap hs l hacc
  obtain ⟨wp, np, hp, _, sp⟩ := recordEach_new (F := ℝ) growCap _ (positiveRecords_ok hm l hacc)
  obtain ⟨wn, nn, hn, _, sn⟩ := recordEach_new (F := ℝ) growCap _ (negativeRecords_ok hm l hacc)
  rw [p1, n1]
  exact ⟨m1, z1, ⟨wp, np, hp, sp⟩, ⟨wn, nn, hn, sn⟩⟩

end quantilesketch

namespace quantilesketch

open storage mapper

/-- The quantile `0` of a sketch filled with counts of at least one is answered from the bucket
of the minimum recorded value. -/
theorem boundary_low (growCap : Nat → Nat) {a : ℝ} {s0 : QuantileSketch}
    (hs : New a = Except.ok s0) (l : List (ℝ × ℝ))
    (hl : ∀ p ∈ l, 1 ≤ p.2 ∧ |p.1| ≤ MaxValue s0.mapper) (mn c : ℝ) (hmem : (mn, c) ∈ l)
    (hmin : ∀ p ∈ l, mn ≤ p.1) (h0 : mn = 0 ∨ MinValue s0.mapper < |mn|) :
    ∃ r, (GetValueAtQuantile (recordAll growCap s0 l) 0).1 = Except.ok r ∧
      |r - mn| ≤ a * |mn| := by
  obtain ⟨hm, _, _, _⟩ := New_eq hs
  obtain ⟨m1, z1, ⟨wp, np, hwp, sp⟩, ⟨wn, nn, hwn, sn⟩⟩ := recordAll_state growCap hs l hl
  have hpos : 0 < MinValue s0.mapper := minValue_pos hm
  have hc0 : ∀ p ∈ l, 0 ≤ p.2 := fun p hp => le_trans zero_le_one (hl p hp).1
  have hc1 : 1 ≤ c := (hl _ hmem).1
  have hZ0 := zeroWeight_nonneg s0.mapper l hc0
  have hP1 : ∀ r ∈ positiveRecords s0.mapper l, 1 ≤ r.2 := by
    intro r hr
    obtain ⟨p, hp, _, rfl⟩ := (mem_positiveRecords _ _ _).mp hr
    exact (hl p hp).1
  have hN1 : ∀ r ∈ negativeRecords s0.mapper l, 1 ≤ r.2 := by
    intro r hr
    obtain ⟨p, hp, _, rfl⟩ := (mem_negativeRecords _ _ _).mp hr
    exact (hl p hp).1
  have hSP0 : 0 ≤ Size (recordAll growCap s0 l).positiveValues := by
    rw [sp]
    exact slots_sum_nonneg _ (fun r hr => le_trans zero_le_one (hP1 r hr))
  have hSN0 : 0 ≤ Size (recordAll growCap s0 l).negativeValues := by
    rw [sn]
    exact slots_sum_nonneg _ (fun r hr => le_trans zero_le_one (hN1 r hr))
  rw [GetValueAtQuantile_fst, m1, z1]
  rw [if_neg (by norm_num)]
  by_cases hA : mn < -MinValue s0.mapper
  · -- the minimum is in the negative store
    have memN : (Index s0.mapper (-mn), c) ∈ negativeRecords s0.mapper l :=
      (mem_negativeRecords _ _ _).mpr ⟨(mn, c), hmem, ⟨by simp only [gt_iff_lt]; linarith, hA⟩, rfl⟩
    have hSN1 : 1 ≤ Size (recordAll growCap s0 l).negativeValues := by
      rw [sn]
      exact le_trans (hN1 _ memN)
        (records_sum_ge _ (fun r hr => le_trans zero_le_one (hN1 r hr)) _ memN)
    have hmaxN : ∀ r ∈ negativeRecords s0.mapper l, r.1 ≤ Index s0.mapper (-mn) := by
      intro r hr
      obtain ⟨p, hp, hp2, rfl⟩ := (mem_negativeRecords _ _ _).mp hr
      have := hmin p hp
      exact Index_mono hm (-p.1) (-mn) (by linarith [hp2.2]) (by linarith)
    rw [if_neg (by linarith), if_pos (by rw [zero_mul]; linarith)]
    rw [KeyAtRank_last_record wn nn _ hwn hN1 _ c memN hmaxN _ (by ring)]
    refine ⟨_, rfl, ?_⟩
    have h := Value_Index_accuracy hm (-mn) (by linarith)
    have e : -Value s0.mapper (Index s0.mapper (-mn)) - mn =
        -(Value s0.mapper (Index s0.mapper (-mn)) - -mn) := by ring
    rw [e, abs_neg, abs_of_neg (by linarith : mn < 0)]
    exact h
  · have hNg : negativeRecords s0.mapper l = [] := by
      apply negativeRecords_eq_nil
      intro p hp
      have := hmin p hp
      linarith
    have hSN : Size (recordAll growCap s0 l).negativeValues = 0 := by
      rw [sn, hNg]
      rfl
    by_cases hB : mn > MinValue s0.mapper
    · -- every value is in the positive store
      have hZ : zeroWeight s0.mapper l = 0 := by
        apply zeroWeight_eq_zero
        intro p hp
        left
        have := hmin p hp
        exact lt_of_lt_of_le hB this
      have memP : (Index s0.mapper mn, c) ∈ positiveRecords s0.mapper l :=
        (mem_positiveRecords _ _ _).mpr ⟨(mn, c), hmem, hB, rfl⟩
      have hSP1 : 1 ≤ Size (recordAll growCap s0 l).positiveValues := by
        rw [sp]
        exact le_trans (hP1 _ memP)
          (records_sum_ge _ (fun r hr => le_trans zero_le_one (hP1 r hr)) _ memP)
      have hminP : ∀ r ∈ positiveRecords s0.mapper l, Index s0.mapper mn ≤ r.1 := by
        intro r hr
        obtain ⟨p, hp, _, rfl⟩ := (mem_positiveRecords _ _ _).mp hr
        exact Index_mono hm mn p.1 (by linarith) (hmin p hp)
      rw [if_neg (by linarith), if_neg (by rw [zero_mul, hSN]; exact lt_irrefl _),
        if_neg (by rw [zero_mul, hSN, hZ]; norm_num)]
      rw [KeyAtRank_first_record wp np _ hwp hP1 _ c memP hminP _ (by rw [hZ, hSN]; ring)]
      refine ⟨_, rfl, ?_⟩
      rw [abs_of_pos (by linarith : 0 < mn)]
      exact Value_Index_accuracy hm mn (by linarith)
    · -- the minimum is in the zero bucket
      have hmn0 : mn = 0 := by
        rcases h0 with h | h
        · exact h
        · exfalso
          have : |mn| ≤ MinValue s0.mapper := abs_le.mpr ⟨by linarith, by linarith⟩
          linarith
      have hZ1 : 1 ≤ zeroWeight s0.mapper l :=
        le_trans hc1 (zeroWeight_ge s0.mapper l hc0 (mn, c) hmem hB hA)
      rw [if_neg (by linarith), if_neg (by rw [zero_mul, hSN]; exact lt_irrefl _),
        if_pos (by rw [zero_mul, hSN]; linarith)]
      refine ⟨0, rfl, ?_⟩
      rw [hmn0]
      simp

/-- The quantile `1` of a sketch filled with counts of at least one is answered from the bucket
of the maximum recorded value. -/
theorem boundary_high (growCap : Nat → Nat) {a : ℝ} {s0 : QuantileSketch}
    (hs : New a = Except.ok s0) (l : List (ℝ × ℝ))
    (hl : ∀ p ∈ l, 1 ≤ p.2 ∧ |p.1| ≤ MaxValue s0.mapper) (mx c : ℝ) (hmem : (mx, c) ∈ l)
    (hmax : ∀ p ∈ l, p.1 ≤ mx) (h0 : mx = 0 ∨ MinValue s0.mapper < |mx|) :
    ∃ r, (GetValueAtQuantile (recordAll growCap s0 l) 1).1 = Except.ok r ∧
      |r - mx| ≤ a * |mx| := by
  obtain ⟨hm, _, _, _⟩ := New_eq hs
  obtain ⟨m1, z1, ⟨wp, np, hwp, sp⟩, ⟨wn, nn, hwn, sn⟩⟩ := recordAll_state growCap hs l hl
  have hpos : 0 < MinValue s0.mapper := minValue_pos hm
  have hc0 : ∀ p ∈ l, 0 ≤ p.2 := fun p hp => le_trans zero_le_one (hl p hp).1
  have hc1 : 1 ≤ c := (hl _ hmem).1
  have hZ0 := zeroWeight_nonneg s0.mapper l hc0
  have hP1 : ∀ r ∈ positiveRecords s0.mapper l, 1 ≤ r.2 := by
    intro r hr
    obtain ⟨p, hp, _, rfl⟩ := (mem_positiveRecords _ _ _).mp hr
    exact (hl p hp).1
  have hN1 : ∀ r ∈ negativeRecords s0.mapper l, 1 ≤ r.2 := by
    intro r hr
    obtain ⟨p, hp, _, rfl⟩ := (mem_negativeRecords _ _ _).mp hr
    exact (hl p hp).1
  have hSP0 : 0 ≤ Size (recordAll growCap s0 l).positiveValues := by
    rw [sp]
    exact slots_sum_nonneg _ (fun r hr => le_trans zero_le_one (hP1 r hr))
  have hSN0 : 0 ≤ Size (recordAll growCap s0 l).negativeValues := by
    rw [sn]
    exact slots_sum_nonneg _ (fun r hr => le_trans zero_le_one (hN1 r hr))
  rw [GetValueAtQuantile_fst, m1, z1]
  rw [if_neg (by norm_num)]
  by_cases hA : mx > MinValue s0.mapper
  · -- the maximum is in the positive store
    have memP : (Index s0.mapper mx, c) ∈ positiveRecords s0.mapper l :=
      (mem_positiveRecords _ _ _).mpr ⟨(mx, c), hmem, hA, rfl⟩
    have hSP1 : 1 ≤ Size (recordAll growCap s0 l).positiveValues := by
      rw [sp]
      exact le_trans (hP1 _ memP)
        (records_sum_ge _ (fun r hr => le_trans zero_le_one (hP1 r hr)) _ memP)
    have hmaxP : ∀ r ∈ positiveRecords s0.mapper l, r.1 ≤ Index s0.mapper mx := by
      intro r hr
      obtain ⟨p, hp, hp2, rfl⟩ := (mem_positiveRecords _ _ _).mp hr
      exact Index_mono hm p.1 mx (by linarith) (hmax p hp)
    rw [if_neg (by linarith), if_neg (by rw [one_mul]; linarith),
      if_neg (by rw [one_mul]; linarith)]
    rw [KeyAtRank_last_record wp np _ hwp hP1 _ c memP hmaxP _ (by ring)]
    refine ⟨_, rfl, ?_⟩
    rw [abs_of_pos (by linarith : 0 < mx)]
    exact Value_Index_accuracy hm mx (by linarith)
  · have hPg : positiveRecords s0.mapper l = [] := by
      apply positiveRecords_eq_nil
      intro p hp
      have := hmax p hp
      simp only [gt_iff_lt, not_lt] at hA ⊢
      linarith
    have hSP : Size (recordAll growCap s0 l).positiveValues = 0 := by
      rw [sp, hPg]
      rfl
    by_cases hB : mx < -MinValue s0.mapper
    · -- every value is in the negative store
      have hZ : zeroWeight s0.mapper l = 0 := by
        apply zeroWeight_eq_zero
        intro p hp
        right
        have := hmax p hp
        exact lt_of_le_of_lt this hB
      have memN : (Index s0.mapper (-mx), c) ∈ negativeRecords s0.mapper l :=
        (mem_negativeRecords _ _ _).mpr ⟨(mx, c), hmem, ⟨hA, hB⟩, rfl⟩
      have hSN1 : 1 ≤ Size (recordAll growCap s0 l).negativeValues := by
        rw [sn]
        exact le_trans (hN1 _ memN)
          (records_sum_ge _ (fun r hr => le_trans zero_le_one (hN1 r hr)) _ memN)
      have hminN : ∀ r ∈ negativeRecords s0.mapper l, Index s0.mapper (-mx) ≤ r.1 := by
        intro r hr
        obtain ⟨p, hp, _, rfl⟩ := (mem_negativeRecords _ _ _).mp hr
        have := hmax p hp
        exact Index_mono hm (-mx) (-p.1) (by linarith) (by linarith)
      rw [if_neg (by linarith), if_pos (by rw [one_mul, hSP, hZ]; linarith)]
      rw [KeyAtRank_first_record wn nn _ hwn hN1 _ c memN hminN _ (by rw [hZ, hSP]; ring)]
      refine ⟨_, rfl, ?_⟩
      have h := Value_Index_accuracy hm (-mx) (by linarith)
      have e : -Value s0.mapper (Index s0.mapper (-mx)) - mx =
          -(Value s0.mapper (Index s0.mapper (-mx)) - -mx) := by ring
      rw [e, abs_neg, abs_of_neg (by linarith : mx < 0)]
      exact h
    · -- the maximum is in the zero bucket
      have hmx0 : mx = 0 := by
        rcases h0 with h | h
        · exact h
        · exfalso
          have : |mx| ≤ MinValue s0.mapper :=
            abs_le.mpr ⟨by linarith, by simp only [gt_iff_lt, not_lt] at hA; exact hA⟩
          linarith
      have hZ1 : 1 ≤ zeroWeight s0.mapper l :=
        le_trans hc1 (zeroWeight_ge s0.mapper l hc0 (mx, c) hmem hA hB)
      rw [if_neg (by linarith), if_neg (by rw [one_mul, hSP]; linarith),
        if_pos (by rw [one_mul, hSP]; linarith)]
      refine ⟨0, rfl, ?_⟩
      rw [hmx0]
      simp

end quantilesketch

namespace quantilesketch

open storage mapper

/-- C5 (amended): for every fresh sketch of relative accuracy `a` into which a list of
`(value, count)` pairs with `count ≥ 1` and `|value| ≤ MaxValue` has been recorded, with `m` the
minimum and `M` the maximum recorded value, each of them either `0` or of magnitude above
`MinValue`: `GetValueAtQuantile(0)` returns `r0` with `|r0 - m| ≤ a * |m|` and
`GetValueAtQuantile(1)` returns `r1` with `|r1 - M| ≤ a * |M|`. -/
theorem boundary_quantiles (growCap : Nat → Nat) (a : ℝ) (s0 : QuantileSketch)
    (hs : New a = Except.ok s0) (l : List (ℝ × ℝ))
    (hl : ∀ p ∈ l, 1 ≤ p.2 ∧ |p.1| ≤ MaxValue s0.mapper)
    (m M : ℝ) (hm : (∃ c, (m, c) ∈ l) ∧ ∀ p ∈ l, m ≤ p.1)
    (hM : (∃ c, (M, c) ∈ l) ∧ ∀ p ∈ l, p.1 ≤ M)
    (hm0 : m = 0 ∨ MinValue s0.mapper < |m|) (hM0 : M = 0 ∨ MinValue s0.mapper < |M|) :
    ∃ r0 r1, (GetValueAtQuantile (recordAll growCap s0 l) 0).1 = Except.ok r0 ∧
      |r0 - m| ≤ a * |m| ∧
      (GetValueAtQuantile (recordAll growCap s0 l) 1).1 = Except.ok r1 ∧
      |r1 - M| ≤ a * |M| := by
  obtain ⟨⟨c, hc⟩, hmin⟩ := hm
  obtain ⟨⟨d, hd⟩, hmax⟩ := hM
  obtain ⟨r0, e0, b0⟩ := boundary_low growCap hs l hl m c hc hmin hm0
  obtain ⟨r1, e1, b1⟩ := boundary_high growCap hs l hl M d hd hmax hM0
  exact ⟨r0, r1, e0, b0, e1, b1⟩

/-- Witness of C5 (amended): accuracy `1/2`, the value `1` recorded once. -/
theorem boundary_quantiles_witness :
    ∃ s0, New (1 / 2) = Except.ok s0 ∧
      (∀ p ∈ [((1 : ℝ), (1 : ℝ))], 1 ≤ p.2 ∧ |p.1| ≤ MaxValue s0.mapper) ∧
      (((1 : ℝ) = 0 ∨ MinValue s0.mapper < |(1 : ℝ)|)) ∧
      ∃ r0 r1, (GetValueAtQuantile (recordAll (fun c => 2 * c) s0 [(1, 1)]) 0).1 = Except.ok r0 ∧
        |r0 - 1| ≤ 1 / 2 * |(1 : ℝ)| ∧
        (GetValueAtQuantile (recordAll (fun c => 2 * c) s0 [(1, 1)]) 1).1 = Except.ok r1 ∧
        |r1 - 1| ≤ 1 / 2 * |(1 : ℝ)| := by
  obtain ⟨s0, hs⟩ := New_ok (a := 1 / 2) (by norm_num) (by norm_num)
  have hr := abs_one_in_range hs
  have hl : ∀ p ∈ [((1 : ℝ), (1 : ℝ))], 1 ≤ p.2 ∧ |p.1| ≤ MaxValue s0.mapper := by
    intro p hp
    rw [List.mem_singleton.mp hp]
    exact ⟨le_rfl, hr.2⟩
  have hmem : (∃ c, ((1 : ℝ), c) ∈ [((1 : ℝ), (1 : ℝ))]) := ⟨1, List.mem_singleton.mpr rfl⟩
  have hmin : ∀ p ∈ [((1 : ℝ), (1 : ℝ))], (1 : ℝ) ≤ p.1 := by
    intro p hp
    rw [List.mem_singleton.mp hp]
  have hmax : ∀ p ∈ [((1 : ℝ), (1 : ℝ))], p.1 ≤ (1 : ℝ) := by
    intro p hp
    rw [List.mem_singleton.mp hp]
  exact ⟨s0, hs, hl, Or.inr hr.1,
    boundary_quantiles (fun c => 2 * c) (1 / 2) s0 hs [(1, 1)] hl 1 1 ⟨hmem, hmin⟩ ⟨hmem, hmax⟩
      (Or.inr hr.1) (Or.inr hr.1)⟩

theorem minNormal_bounds : (0 : ℝ) < minNormalFloat64 ∧ minNormalFloat64 < 1 := by
  unfold minNormalFloat64
  constructor <;> norm_num

/-- C5 as stated fails, in two ways.  With accuracy `1/2` and the only recorded value
`minNormalFloat64` (count 1), the value is counted in the zero bucket and `GetValueAtQuantile(0)`
returns `0`, which is not within relative accuracy of the minimum.  With accuracy `0.01` and the
values `1` (count 1) and `2` (count `1/2`), `GetValueAtQuantile(1)` is answered from the bucket of
`1`, which is not within relative accuracy of the maximum `2`. -/
theorem boundary_quantiles_fail :
    (∃ s0 r0, New (1 / 2) = Except.ok s0 ∧
      Accepted s0.mapper (minNormalFloat64, 1) ∧
      (GetValueAtQuantile (recordAll (fun c => 2 * c) s0 [(minNormalFloat64, 1)]) 0).1 =
        Except.ok r0 ∧
      ¬ (|r0 - minNormalFloat64| ≤ 1 / 2 * |minNormalFloat64|)) ∧
    (∃ s0 r1, New 0.01 = Except.ok s0 ∧
      Accepted s0.mapper (1, 1) ∧ Accepted s0.mapper (2, 1 / 2) ∧
      (GetValueAtQuantile (recordAll (fun c => 2 * c) s0 [(1, 1), (2, 1 / 2)]) 1).1 =
        Except.ok r1 ∧
      ¬ (|r1 - 2| ≤ 0.01 * |(2 : ℝ)|)) := by
  constructor
  · obtain ⟨s0, hs⟩ := New_ok (a := 1 / 2) (by norm_num) (by norm_num)
    obtain ⟨hm, e2, e3, e4⟩ := New_eq hs
    obtain ⟨f0, f1, _, fg, _, fmin, _⟩ := NewLogarithmicMapper_fields hm
    obtain ⟨n0, n1⟩ := minNormal_bounds
    have hone := one_in_range hs
    have hgam := gamma_gt_one hm
    have hle : minNormalFloat64 ≤ MinValue s0.mapper := by
      unfold MinValue
      rw [fmin]
      refine le_trans ?_ (le_max_right _ _)
      nlinarith
    have z1 : ¬ minNormalFloat64 > MinValue s0.mapper := not_lt.mpr hle
    have z2 : ¬ minNormalFloat64 < -MinValue s0.mapper := by
      have := minValue_pos hm
      unfold MinValue
      linarith
    have hacc : Accepted s0.mapper (minNormalFloat64, 1) :=
      accepted_of_abs _ 1 (by norm_num) (by rw [abs_of_pos n0]; linarith [hone.2])
    have hall : ∀ p ∈ [(minNormalFloat64, (1 : ℝ))], Accepted s0.mapper p := by
      intro p hp
      rw [List.mem_singleton.mp hp]
      exact hacc
    obtain ⟨m1, q1, p1, g1⟩ := recordAll_new (fun c => 2 * c) hs _ hall
    have hP : positiveRecords s0.mapper [(minNormalFloat64, (1 : ℝ))] = [] := by
      rw [positiveRecords_cons, if_neg z1]
      rfl
    have hN : negativeRecords s0.mapper [(minNormalFloat64, (1 : ℝ))] = [] := by
      rw [negativeRecords_cons, if_neg (fun hc => z2 hc.2)]
      rfl
    have hZ : zeroWeight s0.mapper [(minNormalFloat64, (1 : ℝ))] = 1 := by
      rw [zeroWeight_cons, if_pos ⟨z1, z2⟩]
      simp [zeroWeight]
    rw [hP] at p1
    rw [hN] at g1
    rw [hZ] at q1
    have hn0 : Size (recordEach (fun c => 2 * c) (NewBufferedPaginatedStorage ℝ) []) = 0 :=
      Size_new
    refine ⟨s0, 0, hs, hacc, ?_, ?_⟩
    · rw [GetValueAtQuantile_fst, q1, p1, g1, hn0]
      rw [if_neg (by norm_num), if_neg (by norm_num), if_neg (by norm_num), if_pos (by norm_num)]
    · rw [zero_sub, abs_neg, abs_of_pos n0]
      intro hc
      linarith
  · obtain ⟨s0, hs⟩ := New_ok (a := 0.01) (by norm_num) (by norm_num)
    obtain ⟨hm, e2, e3, e4⟩ := New_eq hs
    have r1 := percent_in_range hs 1 (by norm_num) (by norm_num)
    have r2 := percent_in_range hs 2 (by norm_num) (by norm_num)
    have hacc1 : Accepted s0.mapper (1, 1) :=
      accepted_percent hs 1 1 (by norm_num) (by norm_num) (by norm_num)
    have hacc2 : Accepted s0.mapper (2, 1 / 2) :=
      accepted_percent hs 2 (1 / 2) (by norm_num) (by norm_num) (by norm_num)
    have hall : ∀ p ∈ [((1 : ℝ), (1 : ℝ)), (2, 1 / 2)], Accepted s0.mapper p := by
      intro p hp
      simp only [List.mem_cons, List.mem_singleton, List.not_mem_nil, or_false] at hp
      rcases hp with h | h <;> rw [h]
      · exact hacc1
      · exact hacc2
    obtain ⟨m1, q1, p1, g1⟩ := recordAll_new (fun c => 2 * c) hs _ hall
    have hP : positiveRecords s0.mapper [((1 : ℝ), (1 : ℝ)), (2, 1 / 2)] =
        [(Index s0.mapper 1, 1), (Index s0.mapper 2, 1 / 2)] := by
      rw [positiveRecords_cons, if_pos r1.1, positiveRecords_cons, if_pos r2.1]
      rfl
    have hN : negativeRecords s0.mapper [((1 : ℝ), (1 : ℝ)), (2, 1 / 2)] = [] := by
      rw [negativeRecords_cons, if_neg (fun hc => hc.1 r1.1), negativeRecords_cons,
        if_neg (fun hc => hc.1 r2.1)]
      rfl
    have hZ : zeroWeight s0.mapper [((1 : ℝ), (1 : ℝ)), (2, 1 / 2)] = 0 := by
      rw [zeroWeight_cons, if_neg (fun hc => hc.1 r1.1), zeroWeight_cons,
        if_neg (fun hc => hc.1 r2.1)]
      simp [zeroWeight]
    have hrec : ∀ r ∈ [(Index s0.mapper 1, (1 : ℝ)), (Index s0.mapper 2, 1 / 2)],
        isInt64 r.1 ∧ 0 ≤ r.2 := by
      rw [← hP]
      exact positiveRecords_ok hm _ hall
    obtain ⟨w, n, _, hcum, hsz⟩ := recordEach_new (F := ℝ) (fun c => 2 * c) _ hrec
    rw [hP] at p1
    rw [hN] at g1
    rw [hZ] at q1
    have hn0 : Size (recordEach (fun c => 2 * c) (NewBufferedPaginatedStorage ℝ) []) = 0 :=
      Size_new
    have i12 : Index s0.mapper 1 ≤ Index s0.mapper 2 :=
      Index_mono hm 1 2 (by norm_num) (by norm_num)
    have hsz2 : Size (recordAll (fun c => 2 * c) s0 [(1, 1), (2, 1 / 2)]).positiveValues
        = 3 / 2 := by
      rw [p1, hsz]
      norm_num
    refine ⟨s0, Value s0.mapper (Index s0.mapper 1), hs, hacc1, hacc2, ?_, ?_⟩
    · rw [GetValueAtQuantile_fst, q1, hsz2, g1, hn0, m1]
      rw [if_neg (by norm_num), if_neg (by norm_num), if_neg (by norm_num),
        if_neg (by norm_num)]
      have hrank : (1 * (0 + 3 / 2 + 0 - 1) - 0 - 0 : ℝ) = 1 / 2 := by norm_num
      rw [hrank]
      have hmax : max (0 : ℝ) (1 / 2) = 1 / 2 := max_eq_right (by norm_num)
      have hk : (KeyAtRank (recordAll (fun c => 2 * c) s0
          [(1, 1), (2, 1 / 2)]).positiveValues (1 / 2)).1 = Except.ok (Index s0.mapper 1) := by
        rw [p1]
        apply KeyAtRank_unique w n
        · rw [hmax, hcum]
          simp only [recordedBelow_cons, recordedBelow_nil, le_refl, if_true]
          split_ifs <;> norm_num
        · intro i hi
          rw [hmax, hcum]
          have h1 : ¬ Index s0.mapper 1 ≤ i := by omega
          have h2 : ¬ Index s0.mapper 2 ≤ i := by omega
          simp only [recordedBelow_cons, recordedBelow_nil, h1, h2, if_false]
          norm_num
      rw [hk]
    · have h := Value_Index_accuracy hm 1 (by norm_num)
      have hu := (abs_le.mp h).2
      intro hc
      have hl := (abs_le.mp hc).1
      norm_num at hu hl
      linarith

end quantilesketch

/-! ## Recording, page growth and queries of the storage -/

namespace storage

section storageclaims

variable {F : Type} [LinearOrderedField F]

/-- When every logical weight grows by `c` at index `i` only, the size grows by `c`. -/
theorem Size_of_weightAt_add {b b1 : BufferedPaginatedStorage F} (h : WF b) (h1 : WF b1)
    (i : Int) (c : F) (hw : ∀ j, weightAt b1 j = weightAt b j + if j = i then c else 0) :
    Size b1 = Size b + c := by
  obtain ⟨l, hl⟩ := cumWeight_eq_sum h
  obtain ⟨l1, hl1⟩ := cumWeight_eq_sum h1
  obtain ⟨u, hu⟩ := Size_eq_cumWeight h
  obtain ⟨u1, hu1⟩ := Size_eq_cumWeight h1
  have hlo1 : min (min l l1) i ≤ l := le_trans (min_le_left _ _) (min_le_left _ _)
  have hlo2 : min (min l l1) i ≤ l1 := le_trans (min_le_left _ _) (min_le_right _ _)
  have hhi1 : u ≤ max (max u u1) i := le_trans (le_max_left _ _) (le_max_left _ _)
  have hhi2 : u1 ≤ max (max u u1) i := le_trans (le_max_right _ _) (le_max_left _ _)
  rw [hu _ hhi1, hu1 _ hhi2, hl _ hlo1, hl1 _ hlo2]
  simp only [hw, Finset.sum_add_distrib]
  congr 1
  rw [Finset.sum_ite_eq', if_pos]
  exact Finset.mem_Icc.mpr ⟨min_le_right _ _, le_max_right _ _⟩

/-- C16: for every storage reachable from `NewBufferedPaginatedStorage` by `RecordValue` calls,
every representable index `i` and every count `c ≥ 0`, after `RecordValue(i, c)` the logical
weight of `i` (occurrences in the buffer plus page slot) has grown by exactly `c`, the logical
weight of every other index is unchanged (also when the call compacts the buffer or grows the
page table), `Size()` has grown by exactly `c`, and with `c = 0` the storage is unchanged. -/
theorem RecordValue_adds_weight (growCap : Nat → Nat) (b : BufferedPaginatedStorage F)
    (hb : Reachable growCap b) (i : Int) (hi : isInt64 i) (c : F) (hc : 0 ≤ c) :
    Reachable growCap (RecordValue growCap b i c) ∧
    (∀ j, weightAt (RecordValue growCap b i c) j = weightAt b j + if j = i then c else 0) ∧
    Size (RecordValue growCap b i c) = Size b + c ∧
    (c = 0 → RecordValue growCap b i c = b) := by
  obtain ⟨w, _⟩ := hb.wf
  obtain ⟨w1, hw, _⟩ := RecordValue_spec growCap w i hi c
  refine ⟨Reachable.record b i c hb hi hc, hw, Size_of_weightAt_add w w1 i c hw, ?_⟩
  intro h0
  unfold RecordValue
  rw [if_pos h0]

/-- Witness of C16: the fresh storage, index `3`, count `2`. -/
theorem RecordValue_adds_weight_witness :
    Reachable (fun c => 2 * c) (NewBufferedPaginatedStorage ℚ) ∧ isInt64 3 ∧ (0 : ℚ) ≤ 2 ∧
    (∀ j, weightAt (RecordValue (fun c => 2 * c) (NewBufferedPaginatedStorage ℚ) 3 2) j =
      weightAt (NewBufferedPaginatedStorage ℚ) j + if j = 3 then 2 else 0) ∧
    Size (RecordValue (fun c => 2 * c) (NewBufferedPaginatedStorage ℚ) 3 2) =
      Size (NewBufferedPaginatedStorage ℚ) + 2 :=
  have hi : isInt64 3 := by unfold isInt64; norm_num
  have h := RecordValue_adds_weight (fun c => 2 * c) (NewBufferedPaginatedStorage ℚ)
    Reachable.new 3 hi 2 (by norm_num)
  ⟨Reachable.new, hi, by norm_num, h.2.1, h.2.2.1⟩

/-- C19: for every well-formed storage state and every page index `p` of a representable index,
`page(p, true)` returns a page of length `2^pageLenLog2` that is the entry at offset
`p - minPageIndex` of the new table, and leaves the weight stored for every index unchanged,
however the table grows: every other page number keeps its page, and the page `p` keeps its page
when it existed; nothing but the page table changes.  `page(p, false)` changes nothing. -/
theorem page_preserves_content (b : BufferedPaginatedStorage F) (hb : WF b) (p : Int)
    (hp : -2 ^ 58 ≤ p ∧ p < 2 ^ 58) :
    ((page b p true).2.length = 2 ^ b.pageLenLog2 ∧
      (page b p true).1.minPageIndex ≤ p ∧
      p < (page b p true).1.minPageIndex + ((page b p true).1.pages.length : Int) ∧
      (page b p true).2 = pageAt (page b p true).1 (p - (page b p true).1.minPageIndex).toNat ∧
      (∀ i, slotAt (page b p true).1 i = slotAt b i) ∧
      (∀ q, q ≠ p → pageOf (page b p true).1 q = pageOf b q) ∧
      (pageOf b p ≠ [] → pageOf (page b p true).1 p = pageOf b p) ∧
      (page b p true).1.buffer = b.buffer ∧
      (page b p true).1.compactionTriggerSize = b.compactionTriggerSize ∧
      WF (page b p true).1) ∧
    (page b p false).1 = b := by
  have s := page_step hb p true hp
  have s2 := page_step hb p false hp
  have hlen := s.ensured rfl
  have hr := pageOf_inRange (b := (page b p true).1) (q := p) (by omega)
  refine ⟨⟨?_, hr.1, hr.2, ?_, s.slotAt_preserved hb, ?_, ?_, s.buffer, s.trigger, s.wf⟩,
    s2.unchanged rfl⟩
  · rw [s.returned, hlen, hb.log2]
    norm_num
  · rw [s.returned, pageOf_of_inRange hr]
  · intro q hq
    rcases s.pages q with h | ⟨h, _⟩
    · exact h
    · exact absurd h hq
  · intro hne
    rcases s.pages p with h | ⟨_, _, h, _⟩
    · exact h
    · exact absurd h hne

/-- Witness of C19: the fresh storage and page `0`. -/
theorem page_preserves_content_witness :
    WF (NewBufferedPaginatedStorage ℚ) ∧ (-2 ^ 58 ≤ (0 : Int) ∧ (0 : Int) < 2 ^ 58) ∧
    (page (NewBufferedPaginatedStorage ℚ) 0 true).2.length =
      2 ^ (NewBufferedPaginatedStorage ℚ).pageLenLog2 ∧
    (∀ i, slotAt (page (NewBufferedPaginatedStorage ℚ) 0 true).1 i =
      slotAt (NewBufferedPaginatedStorage ℚ) i) ∧
    (page (NewBufferedPaginatedStorage ℚ) 0 false).1 = NewBufferedPaginatedStorage ℚ :=
  have hp : -2 ^ 58 ≤ (0 : Int) ∧ (0 : Int) < 2 ^ 58 := by constructor <;> norm_num
  have h := page_preserves_content (NewBufferedPaginatedStorage ℚ) new_wf 0 hp
  ⟨new_wf, hp, h.1.1, h.1.2.2.2.2.1, h.2⟩

theorem sortBuffer_idem (b : BufferedPaginatedStorage F) :
    sortBuffer (sortBuffer b) = sortBuffer b := by
  unfold sortBuffer
  simp only []
  rw [List.Sorted.insertionSort_eq (List.sorted_insertionSort (fun x y : Int => x ≤ y) b.buffer)]

/-- A rank query on the state that a rank query left behind gives what it gives on the state
before. -/
theorem KeyAtRank_sortBuffer (b : BufferedPaginatedStorage F) (rank : F) :
    (KeyAtRank (sortBuffer b) rank).1 = (KeyAtRank b rank).1 := by
  unfold KeyAtRank minIndexWithCumulativeCount
  simp only [sortBuffer_idem]

/-- What `KeyAtRank` does to the state: the buffer is sorted, nothing else changes. -/
theorem KeyAtRank_frame (b : BufferedPaginatedStorage F) (rank : F) :
    (KeyAtRank b rank).2.pages = b.pages ∧
    (KeyAtRank b rank).2.minPageIndex = b.minPageIndex ∧
    (KeyAtRank b rank).2.buffer.Perm b.buffer ∧
    (∀ j, weightAt (KeyAtRank b rank).2 j = weightAt b j) ∧
    Size (KeyAtRank b rank).2 = Size b ∧
    ∀ rank2, (KeyAtRank (KeyAtRank b rank).2 rank2).1 = (KeyAtRank b rank2).1 := by
  rw [KeyAtRank_snd]
  exact ⟨rfl, rfl, List.perm_insertionSort _ _, sortBuffer_weightAt b, Size_sortBuffer b,
    fun rank2 => KeyAtRank_sortBuffer b rank2⟩

end storageclaims

end storage

/-! ## What `compact` keeps in the buffer -/

namespace storage

section compaction

variable {F : Type} [LinearOrderedField F]

theorem incrementLines_pageOf (group : List Int) :
    ∀ (b : BufferedPaginatedStorage F) (p : Int), WF b → (pageOf b p).length = 32 →
      ∀ q, q ≠ p → pageOf (incrementLines b p group) q = pageOf b q := by
  induction group with
  | nil =>
    intro b p _ _ q _
    rfl
  | cons e rest ih =>
    intro b p h hlen q hq
    have hl := lineIndex_toNat_lt h e
    obtain ⟨w, _, _, _, _, hp⟩ := addToSlot_spec h p (lineIndex b e).toNat 1 hlen hl
    have hlen1 : (pageOf (addToSlot b (p - b.minPageIndex).toNat (lineIndex b e).toNat 1)
        p).length = 32 := by
      rw [hp, if_pos rfl, List.length_set]
      exact hlen
    have hstep : incrementLines b p (e :: rest) =
        incrementLines (addToSlot b (p - b.minPageIndex).toNat (lineIndex b e).toNat 1) p rest := by
      simp [incrementLines]
    rw [hstep, ih _ p w hlen1 q hq, hp, if_neg hq]

theorem dropWhile_page_gt (P : Int) (tail : List Int) (hs : tail.Pairwise (fun x y => x ≤ y))
    (hge : ∀ x ∈ tail, P ≤ x / 32) :
    ∀ x ∈ tail.dropWhile (fun e => decide (e / 32 = P)), P < x / 32 := by
  induction tail with
  | nil =>
    intro x hx
    cases hx
  | cons t ts ih =>
    intro x hx
    by_cases ht : t / 32 = P
    · rw [List.dropWhile_cons_of_pos (by simpa using ht)] at hx
      exact ih (List.pairwise_cons.mp hs).2 (fun y hy => hge y (List.mem_cons_of_mem _ hy)) x hx
    · rw [List.dropWhile_cons_of_neg (by simpa using ht)] at hx
      have h1 := hge t (List.mem_cons_self _ _)
      rcases List.mem_cons.mp hx with h | h
      · rw [h]; omega
      · have := (List.pairwise_cons.mp hs).1 x h
        omega

theorem foldsEntry_eq {b : BufferedPaginatedStorage F} (h : WF b) (buffer : List Int) (e : Int) :
    foldsEntry b buffer e =
      (decide ((pageOf b (e / 32)).length > 0) ||
        decide (32 ≤ (buffer.filter (fun x => decide (x / 32 = e / 32))).length)) := by
  unfold foldsEntry groupSize float64size
  rw [pageSize_eq h, h.entrySize, pageIndex_eq h]
  have hf : (buffer.filter (fun x => decide (pageIndex b x = e / 32))) =
      (buffer.filter (fun x => decide (x / 32 = e / 32))) := by
    apply List.filter_congr
    intro x _
    rw [pageIndex_eq h]
  rw [hf]
  congr 1
  apply decide_eq_decide.mpr
  constructor <;> intro hc <;> omega

/-- The buffer that the loop of `compact` leaves: the entries that are not folded, in order. -/
theorem compactLoop_buffer (n : Nat) :
    ∀ (b : BufferedPaginatedStorage F) (kept rest : List Int), rest.length ≤ n → WF b →
      (∀ e ∈ rest, isInt64 e) → rest.Pairwise (fun x y => x ≤ y) →
      (compactLoop b kept rest).2 =
        kept ++ rest.filter (fun e => !foldsEntry b rest e) := by
  induction n with
  | zero =>
    intro b kept rest hlen _ _ _
    have : rest = [] := List.eq_nil_of_length_eq_zero (by omega)
    subst this
    rw [compactLoop]
    simp
  | succ n ih =>
    intro b kept rest hlen h hrange hsorted
    cases rest with
    | nil =>
      rw [compactLoop]
      simp
    | cons first tail =>
      rw [compactLoop]
      simp only []
      have hpf : ∀ x : Int, decide (pageIndex b x = pageIndex b first) =
          decide (x / 32 = first / 32) := by
        intro x
        rw [pageIndex_eq h, pageIndex_eq h]
      have hfun : (fun e => decide (pageIndex b e = pageIndex b first)) =
          (fun e => decide (e / 32 = first / 32)) := funext hpf
      rw [hfun]
      have htail_ge : ∀ x ∈ tail, first / 32 ≤ x / 32 := by
        intro x hx
        have := (List.pairwise_cons.mp hsorted).1 x hx
        omega
      have hsorted_tail := (List.pairwise_cons.mp hsorted).2
      have hgt := dropWhile_page_gt (first / 32) tail hsorted_tail htail_ge
      have hsplit : tail.takeWhile (fun e => decide (e / 32 = first / 32)) ++
          tail.dropWhile (fun e => decide (e / 32 = first / 32)) = tail :=
        List.takeWhile_append_dropWhile _ _
      have hdrop : (tail.dropWhile (fun e => decide (e / 32 = first / 32))).length ≤ n := by
        have := (List.dropWhile_sublist (fun e => decide (e / 32 = first / 32))
          (l := tail)).length_le
        simp only [List.length_cons] at hlen
        omega
      have hrest : ∀ e ∈ tail.dropWhile (fun e => decide (e / 32 = first / 32)), isInt64 e :=
        fun e he => hrange e (List.mem_cons_of_mem _ (List.dropWhile_subset _ he))
      have hsorted_rest : (tail.dropWhile (fun e => decide (e / 32 = first / 32))).Pairwise
          (fun x y => x ≤ y) :=
        List.Pairwise.sublist (List.dropWhile_sublist _) hsorted_tail
      have hgroup : ∀ e ∈ first :: tail.takeWhile (fun e => decide (e / 32 = first / 32)),
          e / 32 = first / 32 := by
        intro e he
        rcases List.mem_cons.mp he with he | he
        · rw [he]
        · have := List.mem_takeWhile_imp he
          simpa using this
      -- the group of an entry within the remaining buffer
      have hwhole : first :: tail =
          (first :: tail.takeWhile (fun e => decide (e / 32 = first / 32))) ++
            tail.dropWhile (fun e => decide (e / 32 = first / 32)) := by
        rw [List.cons_append, hsplit]
      have hsize_group : ∀ e ∈ first :: tail.takeWhile (fun e => decide (e / 32 = first / 32)),
          ((first :: tail).filter (fun x => decide (x / 32 = e / 32))).length =
            (first :: tail.takeWhile (fun e => decide (e / 32 = first / 32))).length := by
        intro e he
        conv_lhs => rw [hwhole]
        rw [List.filter_append, hgroup e he]
        have h1 : (first :: tail.takeWhile (fun e => decide (e / 32 = first / 32))).filter
            (fun x => decide (x / 32 = first / 32)) =
            first :: tail.takeWhile (fun e => decide (e / 32 = first / 32)) := by
          rw [List.filter_eq_self]
          intro x hx
          simpa using hgroup x hx
        have h2 : (tail.dropWhile (fun e => decide (e / 32 = first / 32))).filter
            (fun x => decide (x / 32 = first / 32)) = [] := by
          rw [List.filter_eq_nil_iff]
          intro x hx
          have := hgt x hx
          simp only [decide_eq_true_eq]
          omega
        rw [h1, h2, List.append_nil]
      have hsize_rest : ∀ e ∈ tail.dropWhile (fun e => decide (e / 32 = first / 32)),
          ((first :: tail).filter (fun x => decide (x / 32 = e / 32))) =
            ((tail.dropWhile (fun e => decide (e / 32 = first / 32))).filter
              (fun x => decide (x / 32 = e / 32))) := by
        intro e he
        conv_lhs => rw [hwhole]
        rw [List.filter_append]
        have h1 : (first :: tail.takeWhile (fun e => decide (e / 32 = first / 32))).filter
            (fun x => decide (x / 32 = e / 32)) = [] := by
          rw [List.filter_eq_nil_iff]
          intro x hx
          have := hgroup x hx
          have := hgt e he
          simp only [decide_eq_true_eq]
          omega
        rw [h1, List.nil_append]
      have hpb : -2 ^ 58 ≤ pageIndex b first ∧ pageIndex b first < 2 ^ 58 :=
        pageIndex_bound h first (hrange first (List.mem_cons_self _ _))
      have hens : decide (((first :: tail.takeWhile
          (fun e => decide (e / 32 = first / 32))).length : Int) *
          b.bufferEntrySize ≥ (1 : Int) <<< (b.pageLenLog2 : Int) * float64size) =
          decide (32 ≤ (first :: tail.takeWhile
            (fun e => decide (e / 32 = first / 32))).length) := by
        unfold float64size
        rw [pageSize_eq h, h.entrySize]
        apply decide_eq_decide.mpr
        constructor <;> intro hc <;> omega
      rw [hens]
      generalize hE : decide (32 ≤ (first :: tail.takeWhile
          (fun e => decide (e / 32 = first / 32))).length) = ens
      have s := page_step h (pageIndex b first) ens hpb
      have hP : pageIndex b first = first / 32 := pageIndex_eq h first
      -- the filter over the whole remaining buffer, split at the group
      have hfilter : ∀ (keepGroup : Bool),
          (∀ e ∈ first :: tail.takeWhile (fun e => decide (e / 32 = first / 32)),
            (!foldsEntry b (first :: tail) e) = keepGroup) →
          (first :: tail).filter (fun e => !foldsEntry b (first :: tail) e) =
            (if keepGroup then first :: tail.takeWhile (fun e => decide (e / 32 = first / 32))
              else []) ++
            (tail.dropWhile (fun e => decide (e / 32 = first / 32))).filter
              (fun e => !foldsEntry b (tail.dropWhile (fun e => decide (e / 32 = first / 32))) e) := by
        intro keepGroup hk
        conv_lhs => rw [hwhole, List.filter_append]
        rw [← hwhole]
        congr 1
        · cases keepGroup with
          | true =>
            simp only [if_true]
            rw [List.filter_eq_self]
            intro x hx
            exact hk x hx
          | false =>
            simp only [Bool.false_eq_true, if_false]
            rw [List.filter_eq_nil_iff]
            intro x hx
            rw [hk x hx]
            simp
        · apply List.filter_congr
          intro e he
          rw [foldsEntry_eq h, foldsEntry_eq h, hsize_rest e he]
      by_cases hpg : (page b (pageIndex b first) ens).2.length > 0
      · rw [if_pos hpg]
        have hlen32 : (pageOf (page b (pageIndex b first) ens).1 (pageIndex b first)).length = 32 := by
          have := pageOf_length s.wf (pageIndex b first)
          rw [← s.returned] at this ⊢
          omega
        have hgroup2 : ∀ e ∈ first :: tail.takeWhile (fun e => decide (e / 32 = first / 32)),
            e / 32 = pageIndex b first := by
          intro e he
          rw [hP]
          exact hgroup e he
        obtain ⟨w1, _, _, _, _⟩ := incrementLines_spec
          (first :: tail.takeWhile (fun e => decide (e / 32 = first / 32)))
          (page b (pageIndex b first) ens).1 (pageIndex b first) s.wf hlen32 hgroup2
        rw [ih _ kept _ hdrop w1 hrest hsorted_rest]
        have hfolds : ∀ e ∈ first :: tail.takeWhile (fun e => decide (e / 32 = first / 32)),
            (!foldsEntry b (first :: tail) e) = false := by
          intro e he
          rw [foldsEntry_eq h, hsize_group e he, hgroup e he, hE]
          cases ens with
          | true => simp
          | false =>
            have hb1 := s.unchanged rfl
            have hret := s.returned
            rw [hb1, hP] at hret
            rw [← hret]
            simp only [Bool.or_false, Bool.not_eq_false', decide_eq_true_eq]
            rw [← hP]
            exact hpg
        rw [hfilter false hfolds]
        simp only [Bool.false_eq_true, if_false, List.nil_append]
        congr 1
        apply List.filter_congr
        intro e he
        rw [foldsEntry_eq w1, foldsEntry_eq h]
        have hne : e / 32 ≠ pageIndex b first := by
          have := hgt e he
          rw [hP]
          omega
        rw [incrementLines_pageOf _ _ _ s.wf hlen32 _ hne]
        rcases s.pages (e / 32) with hq | ⟨hq, _⟩
        · rw [hq]
        · exact absurd hq hne
      · rw [if_neg hpg]
        have hens_false : ens = false := by
          cases ens with
          | false => rfl
          | true =>
            exfalso
            have := s.ensured rfl
            rw [← s.returned] at this
            omega
        have hb1 : (page b (pageIndex b first) ens).1 = b := s.unchanged hens_false
        rw [hb1]
        rw [ih b _ _ hdrop h hrest hsorted_rest]
        have hkeeps : ∀ e ∈ first :: tail.takeWhile (fun e => decide (e / 32 = first / 32)),
            (!foldsEntry b (first :: tail) e) = true := by
          intro e he
          rw [foldsEntry_eq h, hsize_group e he, hgroup e he, hE, hens_false]
          have hret := s.returned
          rw [hb1, hP] at hret
          rw [← hret]
          simp only [Bool.or_false, Bool.not_eq_true', decide_eq_false_iff_not]
          rw [← hP]
          exact hpg
        rw [hfilter true hkeeps]
        simp only [if_true, List.append_assoc]

end compaction

end storage

/-! ## Compaction preserves the content -/

namespace storage

section compactContent

variable {F : Type} [LinearOrderedField F]

theorem foldsEntry_sortBuffer {b : BufferedPaginatedStorage F} (h : WF b) (e : Int) :
    foldsEntry (sortBuffer b) (sortBuffer b).buffer e = foldsEntry b b.buffer e := by
  rw [foldsEntry_eq (sortBuffer_wf h), foldsEntry_eq h]
  have hp : pageOf (sortBuffer b) (e / 32) = pageOf b (e / 32) := rfl
  have hl : ((sortBuffer b).buffer.filter (fun x => decide (x / 32 = e / 32))).length =
      (b.buffer.filter (fun x => decide (x / 32 = e / 32))).length :=
    ((List.perm_insertionSort (fun x y : Int => x ≤ y) b.buffer).filter _).length_eq
  rw [hp, hl]

theorem compact_buffer {b : BufferedPaginatedStorage F} (h : WF b) :
    (compact b).buffer =
      (sortBuffer b).buffer.filter (fun e => !foldsEntry b b.buffer e) := by
  have w1 := sortBuffer_wf h
  have hb := compactLoop_buffer (sortBuffer b).buffer.length (sortBuffer b) []
    (sortBuffer b).buffer le_rfl w1 w1.bufferRange (sortBuffer_sorted b)
  show (compactLoop (sortBuffer b) [] (sortBuffer b).buffer).2 = _
  rw [hb, List.nil_append]
  apply List.filter_congr
  intro e _
  rw [foldsEntry_sortBuffer h]

theorem compact_count {b : BufferedPaginatedStorage F} (h : WF b) (i : Int) :
    (compact b).buffer.count i = if foldsEntry b b.buffer i then 0 else b.buffer.count i := by
  rw [compact_buffer h]
  have hc : (sortBuffer b).buffer.count i = b.buffer.count i :=
    (List.perm_insertionSort _ _).count_eq i
  by_cases hf : foldsEntry b b.buffer i = true
  · rw [if_pos hf, List.count_eq_zero]
    intro hm
    have := (List.mem_filter.mp hm).2
    rw [hf] at this
    cases this
  · rw [if_neg hf, List.count_filter (by simpa using hf), hc]

/-- C18: for every well-formed storage state, `compact()` leaves the logical weight of every
index (buffer occurrences plus page slot value) unchanged. The buffer afterwards is the sorted
buffer without the folded entries, where an entry is folded exactly when the page of its group
already exists or the group (the buffered entries of the same page) is large enough to justify
creating the page; every folded occurrence of an index is added exactly once to the slot of
the index, and the other slots are unchanged. Afterwards `compactionTriggerSize` equals
`len(buffer)` plus the page length `2^pageLenLog2`. -/
theorem compact_preserves_content {b : BufferedPaginatedStorage F} (h : WF b) :
    (∀ i, weightAt (compact b) i = weightAt b i) ∧
    (compact b).buffer =
      (sortBuffer b).buffer.filter (fun e => !foldsEntry b b.buffer e) ∧
    (∀ i, (compact b).buffer.count i =
      if foldsEntry b b.buffer i then 0 else b.buffer.count i) ∧
    (∀ i, slotAt (compact b) i =
      slotAt b i + if foldsEntry b b.buffer i then ((b.buffer.count i : Nat) : F) else 0) ∧
    (compact b).compactionTriggerSize =
      ((compact b).buffer.length : Int) + 2 ^ b.pageLenLog2 ∧
    WF (compact b) := by
  obtain ⟨w, hw, _, _⟩ := compact_spec h
  refine ⟨hw, compact_buffer h, compact_count h, ?_, ?_, w⟩
  · intro i
    have h1 := hw i
    unfold weightAt at h1
    rw [compact_count h i] at h1
    by_cases hf : foldsEntry b b.buffer i = true
    · rw [if_pos hf] at h1
      rw [if_pos hf]
      simp only [Nat.cast_zero, zero_add] at h1
      rw [h1]
      ring
    · rw [if_neg hf] at h1
      rw [if_neg hf, add_zero]
      exact add_left_cancel h1
  · show ((compactLoop (sortBuffer b) [] (sortBuffer b).buffer).2.length : Int) +
      (1 : Int) <<< (b.pageLenLog2 : Int) = _
    rw [pageSize_eq h, h.log2]
    rfl

/-- Witness of C18: the storage after one recording at index `3`. -/
theorem compact_preserves_content_witness :
    WF (RecordValue (fun c => 2 * c) (NewBufferedPaginatedStorage ℚ) 3 1) ∧
    (∀ i, weightAt (compact (RecordValue (fun c => 2 * c) (NewBufferedPaginatedStorage ℚ) 3 1)) i =
      weightAt (RecordValue (fun c => 2 * c) (NewBufferedPaginatedStorage ℚ) 3 1) i) :=
  have hi : isInt64 3 := by unfold isInt64; norm_num
  have hw : WF (RecordValue (fun c => 2 * c) (NewBufferedPaginatedStorage ℚ) 3 1) :=
    (RecordValue_spec (fun c => 2 * c) new_wf 3 hi 1).1
  ⟨hw, (compact_preserves_content hw).1⟩

end compactContent

end storage

/-! ## Queries leave the sketch as it is -/

namespace quantilesketch

open storage mapper

theorem GetValueAtQuantile_snd (s : QuantileSketch) (q : ℝ) :
    (GetValueAtQuantile s q).2 = s ∨
    (GetValueAtQuantile s q).2 = { s with negativeValues := sortBuffer s.negativeValues } ∨
    (GetValueAtQuantile s q).2 = { s with positiveValues := sortBuffer s.positiveValues } := by
  unfold GetValueAtQuantile
  by_cases hq : q < 0 ∨ q > 1
  · rw [if_pos hq]
    exact Or.inl rfl
  rw [if_neg hq]
  simp only []
  by_cases hc : s.zeroCount + Size s.positiveValues + Size s.negativeValues = 0
  · rw [if_pos hc]
    exact Or.inl rfl
  rw [if_neg hc]
  by_cases hn : q * (s.zeroCount + Size s.positiveValues + Size s.negativeValues - 1) <
      Size s.negativeValues
  · rw [if_pos hn]
    right; left
    split <;> simp only [KeyAtRank_snd]
  rw [if_neg hn]
  by_cases hz : q * (s.zeroCount + Size s.positiveValues + Size s.negativeValues - 1) <
      s.zeroCount + Size s.negativeValues
  · rw [if_pos hz]
    exact Or.inl rfl
  rw [if_neg hz]
  right; right
  split <;> simp only [KeyAtRank_snd]

theorem GetValueAtQuantile_sortNegative (s : QuantileSketch) (q : ℝ) :
    (GetValueAtQuantile { s with negativeValues := sortBuffer s.negativeValues } q).1 =
      (GetValueAtQuantile s q).1 := by
  rw [GetValueAtQuantile_fst, GetValueAtQuantile_fst]
  simp only [Size_sortBuffer, KeyAtRank_sortBuffer]

theorem GetValueAtQuantile_sortPositive (s : QuantileSketch) (q : ℝ) :
    (GetValueAtQuantile { s with positiveValues := sortBuffer s.positiveValues } q).1 =
      (GetValueAtQuantile s q).1 := by
  rw [GetValueAtQuantile_fst, GetValueAtQuantile_fst]
  simp only [Size_sortBuffer, KeyAtRank_sortBuffer]

/-- Sorting the buffer leaves the page table, the logical weights and the size as they are. -/
theorem sortBuffer_frame (b : BufferedPaginatedStorage ℝ) :
    (sortBuffer b).pages = b.pages ∧ (sortBuffer b).minPageIndex = b.minPageIndex ∧
    (sortBuffer b).buffer.Perm b.buffer ∧ (∀ j, weightAt (sortBuffer b) j = weightAt b j) ∧
    Size (sortBuffer b) = Size b :=
  ⟨rfl, rfl, List.perm_insertionSort _ _, sortBuffer_weightAt b, Size_sortBuffer b⟩

theorem refl_frame (b : BufferedPaginatedStorage ℝ) :
    b.pages = b.pages ∧ b.minPageIndex = b.minPageIndex ∧
    b.buffer.Perm b.buffer ∧ (∀ j, weightAt b j = weightAt b j) ∧ Size b = Size b :=
  ⟨rfl, rfl, List.Perm.refl _, fun _ => rfl, rfl⟩

/-- C17: quantile queries are non-destructive. For every sketch and every `q`,
`GetValueAtQuantile(q)` leaves `zeroCount`, the mapper, and in both stores the page table, its
base `minPageIndex`, the logical weight of every index and `Size()` unchanged, the buffer of a
store is at most permuted, and a query on the state left behind returns what it returns on the
state before (so repeating the same query gives the same result); the same holds for
`KeyAtRank(rank)` of a store, for every store and rank. -/
theorem queries_are_non_destructive (s : QuantileSketch) (q : ℝ) :
    (GetValueAtQuantile s q).2.zeroCount = s.zeroCount ∧
    (GetValueAtQuantile s q).2.mapper = s.mapper ∧
    ((GetValueAtQuantile s q).2.positiveValues.pages = s.positiveValues.pages ∧
      (GetValueAtQuantile s q).2.positiveValues.minPageIndex = s.positiveValues.minPageIndex ∧
      (GetValueAtQuantile s q).2.positiveValues.buffer.Perm s.positiveValues.buffer ∧
      (∀ j, weightAt (GetValueAtQuantile s q).2.positiveValues j = weightAt s.positiveValues j) ∧
      Size (GetValueAtQuantile s q).2.positiveValues = Size s.positiveValues) ∧
    ((GetValueAtQuantile s q).2.negativeValues.pages = s.negativeValues.pages ∧
      (GetValueAtQuantile s q).2.negativeValues.minPageIndex = s.negativeValues.minPageIndex ∧
      (GetValueAtQuantile s q).2.negativeValues.buffer.Perm s.negativeValues.buffer ∧
      (∀ j, weightAt (GetValueAtQuantile s q).2.negativeValues j = weightAt s.negativeValues j) ∧
      Size (GetValueAtQuantile s q).2.negativeValues = Size s.negativeValues) ∧
    (∀ q2, (GetValueAtQuantile (GetValueAtQuantile s q).2 q2).1 = (GetValueAtQuantile s q2).1) ∧
    (GetValueAtQuantile (GetValueAtQuantile s q).2 q).1 = (GetValueAtQuantile s q).1 ∧
    (∀ (b : BufferedPaginatedStorage ℝ) (rank : ℝ),
      (KeyAtRank b rank).2.pages = b.pages ∧
      (KeyAtRank b rank).2.minPageIndex = b.minPageIndex ∧
      (KeyAtRank b rank).2.buffer.Perm b.buffer ∧
      (∀ j, weightAt (KeyAtRank b rank).2 j = weightAt b j) ∧
      Size (KeyAtRank b rank).2 = Size b ∧
      (∀ rank2, (KeyAtRank (KeyAtRank b rank).2 rank2).1 = (KeyAtRank b rank2).1) ∧
      (KeyAtRank (KeyAtRank b rank).2 rank).1 = (KeyAtRank b rank).1) := by
  have hk : ∀ (b : BufferedPaginatedStorage ℝ) (rank : ℝ),
      (KeyAtRank b rank).2.pages = b.pages ∧
      (KeyAtRank b rank).2.minPageIndex = b.minPageIndex ∧
      (KeyAtRank b rank).2.buffer.Perm b.buffer ∧
      (∀ j, weightAt (KeyAtRank b rank).2 j = weightAt b j) ∧
      Size (KeyAtRank b rank).2 = Size b ∧
      (∀ rank2, (KeyAtRank (KeyAtRank b rank).2 rank2).1 = (KeyAtRank b rank2).1) ∧
      (KeyAtRank (KeyAtRank b rank).2 rank).1 = (KeyAtRank b rank).1 := by
    intro b rank
    obtain ⟨h1, h2, h3, h4, h5, h6⟩ := KeyAtRank_frame b rank
    exact ⟨h1, h2, h3, h4, h5, h6, h6 rank⟩
  rcases GetValueAtQuantile_snd s q with h | h | h
  · rw [h]
    exact ⟨rfl, rfl, refl_frame _, refl_frame _, fun _ => rfl, rfl, hk⟩
  · rw [h]
    exact ⟨rfl, rfl, refl_frame _, sortBuffer_frame _,
      fun q2 => GetValueAtQuantile_sortNegative s q2, GetValueAtQuantile_sortNegative s q, hk⟩
  · rw [h]
    exact ⟨rfl, rfl, sortBuffer_frame _, refl_frame _,
      fun q2 => GetValueAtQuantile_sortPositive s q2, GetValueAtQuantile_sortPositive s q, hk⟩

/-! ## Validation of `RecordValue` -/

theorem RecordValue_error_iff (growCap : Nat → Nat) (s : QuantileSketch) (value count : ℝ) :
    ((RecordValue growCap s value count).1 ≠ none ↔
      count < 0 ∨ |value| > MaxValue s.mapper) ∧
    ((RecordValue growCap s value count).1 ≠ none →
      (RecordValue growCap s value count).2 = s) := by
  have habs : |value| > MaxValue s.mapper ↔
      (value > MaxValue s.mapper ∨ value < -MaxValue s.mapper) := by
    rw [gt_iff_lt, lt_abs]
    constructor
    · rintro (h | h)
      · exact Or.inl h
      · exact Or.inr (by linarith)
    · rintro (h | h)
      · exact Or.inl h
      · exact Or.inr (by linarith)
  unfold RecordValue
  by_cases hc : count < 0
  · rw [if_pos hc]
    exact ⟨⟨fun _ => Or.inl hc, fun _ => by simp⟩, fun _ => rfl⟩
  rw [if_neg hc]
  by_cases hv : value > MaxValue s.mapper ∨ value < -MaxValue s.mapper
  · rw [if_pos hv]
    exact ⟨⟨fun _ => Or.inr (habs.mpr hv), fun _ => by simp⟩, fun _ => rfl⟩
  rw [if_neg hv]
  have hno : ¬ (count < 0 ∨ |value| > MaxValue s.mapper) := by
    rintro (h | h)
    · exact hc h
    · exact hv (habs.mp h)
  by_cases h1 : value > MinValue s.mapper
  · rw [if_pos h1]
    exact ⟨⟨fun h => absurd rfl h, fun h => absurd h hno⟩, fun h => absurd rfl h⟩
  rw [if_neg h1]
  by_cases h2 : value < -MinValue s.mapper
  · rw [if_pos h2]
    exact ⟨⟨fun h => absurd rfl h, fun h => absurd h hno⟩, fun h => absurd rfl h⟩
  rw [if_neg h2]
  exact ⟨⟨fun h => absurd rfl h, fun h => absurd h hno⟩, fun h => absurd rfl h⟩

/-- C11: validation of the sketch's `RecordValue` is atomic. For every sketch, every `float64`
value (a real number, an infinity or NaN) and every count, `RecordValue(value, count)` returns
an error if and only if `count < 0`, or the value is NaN or infinite, or
`|value| > mapper.MaxValue()`; and whenever it returns an error the whole sketch (mapper,
`zeroCount` and both stores) is the one before the call. -/
theorem RecordValue_validation_atomic (growCap : Nat → Nat) (s : QuantileSketch)
    (value : Float64) (count : ℝ) :
    ((RecordValueFloat growCap s value count).1 ≠ none ↔
      count < 0 ∨ value = Float64.nan ∨ value = Float64.posInf ∨ value = Float64.negInf ∨
        ∃ x, value = Float64.finite x ∧ |x| > MaxValue s.mapper) ∧
    ((RecordValueFloat growCap s value count).1 ≠ none →
      (RecordValueFloat growCap s value count).2 = s ∧
      (RecordValueFloat growCap s value count).2.zeroCount = s.zeroCount ∧
      (RecordValueFloat growCap s value count).2.positiveValues = s.positiveValues ∧
      (RecordValueFloat growCap s value count).2.negativeValues = s.negativeValues) := by
  have hnf : ∀ v : Float64, (∀ x, v ≠ Float64.finite x) →
      RecordValueFloat growCap s v count =
        (if count < 0 then (some "count must be non-negative", s)
          else (some "value is not within proper range", s)) := by
    intro v hv
    cases v with
    | finite x => exact absurd rfl (hv x)
    | posInf => rfl
    | negInf => rfl
    | nan => rfl
  have hrest : ∀ v : Float64, (∀ x, v ≠ Float64.finite x) →
      (v = Float64.nan ∨ v = Float64.posInf ∨ v = Float64.negInf) := by
    intro v hv
    cases v with
    | finite x => exact absurd rfl (hv x)
    | posInf => exact Or.inr (Or.inl rfl)
    | negInf => exact Or.inr (Or.inr rfl)
    | nan => exact Or.inl rfl
  by_cases hfin : ∃ x, value = Float64.finite x
  · obtain ⟨x, hx⟩ := hfin
    subst hx
    have h := RecordValue_error_iff growCap s x count
    have hdef : RecordValueFloat growCap s (Float64.finite x) count =
        RecordValue growCap s x count := rfl
    rw [hdef]
    refine ⟨?_, ?_⟩
    · rw [h.1]
      constructor
      · rintro (hc | hv)
        · exact Or.inl hc
        · exact Or.inr (Or.inr (Or.inr (Or.inr ⟨x, rfl, hv⟩)))
      · rintro (hc | hc | hc | hc | ⟨y, hy, hv⟩)
        · exact Or.inl hc
        · cases hc
        · cases hc
        · cases hc
        · cases hy
          exact Or.inr hv
    · intro he
      have := h.2 he
      rw [this]
      exact ⟨rfl, rfl, rfl, rfl⟩
  · have hv : ∀ x, value ≠ Float64.finite x := fun x hx => hfin ⟨x, hx⟩
    rw [hnf value hv]
    have hr := hrest value hv
    have hgoal : count < 0 ∨ value = Float64.nan ∨ value = Float64.posInf ∨
        value = Float64.negInf ∨ ∃ x, value = Float64.finite x ∧ |x| > MaxValue s.mapper := by
      rcases hr with h | h | h
      · exact Or.inr (Or.inl h)
      · exact Or.inr (Or.inr (Or.inl h))
      · exact Or.inr (Or.inr (Or.inr (Or.inl h)))
    by_cases hc : count < 0
    · rw [if_pos hc]
      exact ⟨⟨fun _ => hgoal, fun _ => by simp⟩, fun _ => ⟨rfl, rfl, rfl, rfl⟩⟩
    · rw [if_neg hc]
      exact ⟨⟨fun _ => hgoal, fun _ => by simp⟩, fun _ => ⟨rfl, rfl, rfl, rfl⟩⟩

end quantilesketch

/-! ## Routing of `RecordValue` -/

namespace quantilesketch

open storage mapper

theorem New_wellFormed {a : ℝ} {s : QuantileSketch} (hs : New a = Except.ok s) :
    WellFormed s := by
  obtain ⟨hm, hp, hn, _⟩ := New_eq hs
  refine ⟨⟨a, hm⟩, ?_, ?_⟩
  · rw [hp]
    exact new_wf
  · rw [hn]
    exact new_wf

/-- C12: routing of the sketch's `RecordValue`. For every well-formed sketch and every
accepted `(value, count)` the call succeeds and exactly one component changes: if
`value > minValue` the weight of the positive store at `Index(value)` (and its size) grows by
`count`; if `value < -minValue` the weight of the negative store at `Index(-value)` (and its
size) grows by `count`; otherwise (`|value| <= minValue`) `zeroCount` grows by `count`. The
weights of the other indices and the other two components are unchanged, and so is the
mapper. -/
theorem RecordValue_routing (growCap : Nat → Nat) (s : QuantileSketch) (v c : ℝ)
    (hs : WellFormed s) (hacc : Accepted s.mapper (v, c)) :
    (RecordValue growCap s v c).1 = none ∧
    (RecordValue growCap s v c).2.mapper = s.mapper ∧
    WellFormed (RecordValue growCap s v c).2 ∧
    (v > MinValue s.mapper →
      (∀ j, weightAt (RecordValue growCap s v c).2.positiveValues j =
        weightAt s.positiveValues j + if j = Index s.mapper v then c else 0) ∧
      Size (RecordValue growCap s v c).2.positiveValues = Size s.positiveValues + c ∧
      (RecordValue growCap s v c).2.negativeValues = s.negativeValues ∧
      (RecordValue growCap s v c).2.zeroCount = s.zeroCount) ∧
    (v < -MinValue s.mapper →
      (∀ j, weightAt (RecordValue growCap s v c).2.negativeValues j =
        weightAt s.negativeValues j + if j = Index s.mapper (-v) then c else 0) ∧
      Size (RecordValue growCap s v c).2.negativeValues = Size s.negativeValues + c ∧
      (RecordValue growCap s v c).2.positiveValues = s.positiveValues ∧
      (RecordValue growCap s v c).2.zeroCount = s.zeroCount) ∧
    (|v| ≤ MinValue s.mapper →
      (RecordValue growCap s v c).2.zeroCount = s.zeroCount + c ∧
      (RecordValue growCap s v c).2.positiveValues = s.positiveValues ∧
      (RecordValue growCap s v c).2.negativeValues = s.negativeValues) := by
  obtain ⟨⟨a, hm⟩, wp, wn⟩ := hs
  obtain ⟨hc, hr⟩ := hacc
  simp only [] at hc hr
  have hmin : 0 < MinValue s.mapper := minValue_pos hm
  have hc0 : ¬ c < 0 := not_lt.mpr hc
  have hup : v ≤ s.mapper.maxValue := by
    by_contra hcon
    exact hr (Or.inl (not_le.mp hcon))
  have hlow : -v ≤ s.mapper.maxValue := by
    by_contra hcon
    have : s.mapper.maxValue < -v := not_le.mp hcon
    exact hr (Or.inr (by unfold MaxValue; linarith))
  unfold RecordValue
  rw [if_neg hc0, if_neg hr]
  by_cases h1 : v > MinValue s.mapper
  · rw [if_pos h1]
    have hi : isInt64 (Index s.mapper v) := Index_isInt64 hm v h1 hup
    obtain ⟨w1, hw, _⟩ := storage.RecordValue_spec growCap wp (Index s.mapper v) hi c
    refine ⟨rfl, rfl, ⟨⟨a, hm⟩, w1, wn⟩, ?_, ?_, ?_⟩
    · intro _
      exact ⟨hw, Size_of_weightAt_add wp w1 _ _ hw, rfl, rfl⟩
    · intro h2
      exfalso
      linarith
    · intro h3
      exfalso
      have := le_abs_self v
      linarith
  rw [if_neg h1]
  by_cases h2 : v < -MinValue s.mapper
  · rw [if_pos h2]
    have h2m : s.mapper.minValue < -v := by
      unfold MinValue at h2
      linarith
    have hi : isInt64 (Index s.mapper (-v)) := Index_isInt64 hm (-v) h2m hlow
    obtain ⟨w1, hw, _⟩ := storage.RecordValue_spec growCap wn (Index s.mapper (-v)) hi c
    refine ⟨rfl, rfl, ⟨⟨a, hm⟩, wp, w1⟩, ?_, ?_, ?_⟩
    · intro h
      exact absurd h h1
    · intro _
      exact ⟨hw, Size_of_weightAt_add wn w1 _ _ hw, rfl, rfl⟩
    · intro h3
      exfalso
      have := neg_abs_le v
      linarith
  rw [if_neg h2]
  refine ⟨rfl, rfl, ⟨⟨a, hm⟩, wp, wn⟩, ?_, ?_, ?_⟩
  · intro h
    exact absurd h h1
  · intro h
    exact absurd h h2
  · intro _
    exact ⟨rfl, rfl, rfl⟩

/-- Witness of C12: the fresh sketch of accuracy `1/2`, value `1`, count `1`. -/
theorem RecordValue_routing_witness :
    ∃ s0, New (1 / 2) = Except.ok s0 ∧ WellFormed s0 ∧ Accepted s0.mapper (1, 1) ∧
      (1 : ℝ) > MinValue s0.mapper ∧
      (RecordValue (fun c => 2 * c) s0 1 1).1 = none ∧
      Size (RecordValue (fun c => 2 * c) s0 1 1).2.positiveValues =
        Size s0.positiveValues + 1 := by
  obtain ⟨s0, hs⟩ := New_ok (a := 1 / 2) (by norm_num) (by norm_num)
  have hr := one_in_range hs
  have hacc : Accepted s0.mapper (1, 1) :=
    accepted_of_abs 1 1 (by norm_num) (by rw [abs_one]; exact hr.2)
  have h := RecordValue_routing (fun c => 2 * c) s0 1 1 (New_wellFormed hs) hacc
  exact ⟨s0, hs, New_wellFormed hs, hacc, hr.1, h.1, (h.2.2.2.1 hr.1).2.1⟩

/-! ## Merging sketches of different accuracy -/

theorem IsMergeable_iff (l r : LogarithmicMapper) :
    IsMergeable l r = true ↔ l.relativeAccuracy = r.relativeAccuracy := by
  unfold IsMergeable
  by_cases h : l.relativeAccuracy = r.relativeAccuracy
  · rw [if_pos h]
    exact ⟨fun _ => h, fun _ => rfl⟩
  · rw [if_neg h]
    exact ⟨fun hc => (by cases hc), fun hc => absurd hc h⟩

/-- C13: `Merge` rejects mismatched accuracy without mutation. For every two sketches whose
mappers were built with relative accuracies `a` and `b`: if `a ≠ b`, `Merge(left, right)`
returns an error and `left` afterwards is `left` before (the call returns before any store is
touched, and `right` is never written by `Merge`); if `a = b` the mapper check passes.
`IsMergeable` is true if and only if the two `relativeAccuracy` fields are equal. -/
theorem Merge_rejects_mismatched_accuracy (growCap : Nat → Nat) (a b : ℝ)
    (left right : QuantileSketch) (hl : NewLogarithmicMapper a = Except.ok left.mapper)
    (hr : NewLogarithmicMapper b = Except.ok right.mapper) :
    (a ≠ b → ∃ err, Merge growCap left right = (some err, left)) ∧
    (a = b → isMappersMergeable left.mapper right.mapper = none) ∧
    (IsMergeable left.mapper right.mapper = true ↔
      left.mapper.relativeAccuracy = right.mapper.relativeAccuracy) ∧
    (IsMergeable left.mapper right.mapper = true ↔ a = b) := by
  have ha := (NewLogarithmicMapper_fields hl).2.2.1
  have hb := (NewLogarithmicMapper_fields hr).2.2.1
  have hiff := IsMergeable_iff left.mapper right.mapper
  refine ⟨?_, ?_, hiff, ?_⟩
  · intro hne
    have hf : IsMergeable left.mapper right.mapper = false := by
      cases hI : IsMergeable left.mapper right.mapper with
      | false => rfl
      | true =>
        exfalso
        have := hiff.mp hI
        rw [ha, hb] at this
        exact hne this
    refine ⟨"mappers are not mergeable", ?_⟩
    unfold Merge isMappersMergeable
    rw [if_pos hf]
  · intro he
    have ht : IsMergeable left.mapper right.mapper = true := by
      apply hiff.mpr
      rw [ha, hb, he]
    unfold isMappersMergeable
    rw [if_neg (by rw [ht]; exact Bool.noConfusion)]
  · rw [hiff, ha, hb]

/-- Witness of C13: fresh sketches of accuracies `1/2` and `1/4`. -/
theorem Merge_rejects_mismatched_accuracy_witness :
    ∃ sL sR, New (1 / 2) = Except.ok sL ∧ New (1 / 4) = Except.ok sR ∧
      ∃ err, Merge (fun c => 2 * c) sL sR = (some err, sL) := by
  obtain ⟨sL, hL⟩ := New_ok (a := 1 / 2) (by norm_num) (by norm_num)
  obtain ⟨sR, hR⟩ := New_ok (a := 1 / 4) (by norm_num) (by norm_num)
  have h := Merge_rejects_mismatched_accuracy (fun c => 2 * c) (1 / 2) (1 / 4) sL sR
    (New_eq hL).1 (New_eq hR).1
  exact ⟨sL, sR, hL, hR, h.1 (by norm_num)⟩

end quantilesketch

/-! ## Construction -/

namespace quantilesketch

open storage mapper

theorem NewLogarithmicMapper_error_iff (a : ℝ) :
    (∃ err, NewLogarithmicMapper a = Except.error err) ↔ ¬ (0 < a ∧ a < 1) := by
  unfold NewLogarithmicMapper
  by_cases h : a ≤ 0 ∨ a ≥ 1
  · rw [if_pos h]
    refine ⟨fun _ => ?_, fun _ => ⟨_, rfl⟩⟩
    rintro ⟨h0, h1⟩
    rcases h with h | h
    · linarith
    · linarith
  · rw [if_neg h]
    refine ⟨?_, ?_⟩
    · rintro ⟨err, he⟩
      cases he
    · intro hn
      exfalso
      apply hn
      constructor
      · by_contra hc
        exact h (Or.inl (not_lt.mp hc))
      · by_contra hc
        exact h (Or.inr (not_lt.mp hc))

theorem New_error_iff (a : ℝ) :
    (∃ err, New a = Except.error err) ↔ ∃ err, NewLogarithmicMapper a = Except.error err := by
  unfold New
  cases hm : NewLogarithmicMapper a with
  | error e => exact ⟨fun _ => ⟨e, rfl⟩, fun _ => ⟨e, rfl⟩⟩
  | ok m =>
    constructor
    · rintro ⟨err, he⟩
      cases he
    · rintro ⟨err, he⟩
      cases he

/-- Construction over the real numbers: `NewLogarithmicMapper(a)` returns an error if and only
if it is not the case that `0 < a < 1`, and so does `New(a)`; for `0 < a < 1` both return a
result, the returned sketch has `zeroCount` `0`, both stores have `Size()` `0`, the mapper is
the one of `NewLogarithmicMapper(a)` and its `gamma` is `(1 + a) / (1 - a)`, which is greater
than `1`. -/
theorem construction_validation (a : ℝ) :
    ((∃ err, NewLogarithmicMapper a = Except.error err) ↔ ¬ (0 < a ∧ a < 1)) ∧
    ((∃ err, New a = Except.error err) ↔ ¬ (0 < a ∧ a < 1)) ∧
    ((0 < a ∧ a < 1) → (∃ m, NewLogarithmicMapper a = Except.ok m) ∧ ∃ s, New a = Except.ok s) ∧
    (∀ m, NewLogarithmicMapper a = Except.ok m →
      m.relativeAccuracy = a ∧ m.gamma = (1 + a) / (1 - a) ∧ 1 < m.gamma) ∧
    (∀ s, New a = Except.ok s →
      s.zeroCount = 0 ∧ Size s.positiveValues = 0 ∧ Size s.negativeValues = 0 ∧
      NewLogarithmicMapper a = Except.ok s.mapper ∧
      s.mapper.gamma = (1 + a) / (1 - a) ∧ 1 < s.mapper.gamma) := by
  refine ⟨NewLogarithmicMapper_error_iff a, ?_, ?_, ?_, ?_⟩
  · rw [New_error_iff]
    exact NewLogarithmicMapper_error_iff a
  · rintro ⟨h0, h1⟩
    exact ⟨NewLogarithmicMapper_ok h0 h1, New_ok h0 h1⟩
  · intro m hm
    have hf := NewLogarithmicMapper_fields hm
    exact ⟨hf.2.2.1, hf.2.2.2.1, gamma_gt_one hm⟩
  · intro s hs
    obtain ⟨hm, hp, hn, hz⟩ := New_eq hs
    have hf := NewLogarithmicMapper_fields hm
    refine ⟨hz, ?_, ?_, hm, hf.2.2.2.1, gamma_gt_one hm⟩
    · rw [hp]
      exact Size_new
    · rw [hn]
      exact Size_new

/-- On a real argument the guard of the `float64` model is the guard of `NewLogarithmicMapper`:
both return an error for the same arguments. -/
theorem NewLogarithmicMapperFloat_finite (x : ℝ) :
    (NewLogarithmicMapperFloat (Float64.finite x) ≠ none ↔
      ∃ err, NewLogarithmicMapper x = Except.error err) ∧
    (NewFloat (Float64.finite x) ≠ none ↔ ∃ err, New x = Except.error err) := by
  have h1 : NewLogarithmicMapperFloat (Float64.finite x) ≠ none ↔
      ∃ err, NewLogarithmicMapper x = Except.error err := by
    unfold NewLogarithmicMapperFloat NewLogarithmicMapper Float64.le
    simp only [decide_eq_true_eq, ge_iff_le]
    by_cases h : x ≤ 0 ∨ 1 ≤ x
    · rw [if_pos h, if_pos h]
      exact ⟨fun _ => ⟨_, rfl⟩, fun _ => by simp⟩
    · rw [if_neg h, if_neg h]
      refine ⟨fun hc => absurd rfl hc, ?_⟩
      rintro ⟨err, he⟩
      cases he
  refine ⟨h1, ?_⟩
  rw [New_error_iff, ← h1]
  unfold NewFloat
  cases NewLogarithmicMapperFloat (Float64.finite x) with
  | none => simp
  | some e => simp

/-- C14 (failing input): at the `float64` NaN, which is no number between `0` and `1`, the
guard `relativeAccuracy <= 0 || relativeAccuracy >= 1` of `NewLogarithmicMapper` does not fire,
so `NewLogarithmicMapper(NaN)` and `New(NaN)` return no error; both infinities are rejected. -/
theorem New_accepts_NaN :
    NewLogarithmicMapperFloat Float64.nan = none ∧ NewFloat Float64.nan = none ∧
    (∀ x : ℝ, Float64.nan ≠ Float64.finite x) ∧
    NewFloat Float64.posInf ≠ none ∧ NewFloat Float64.negInf ≠ none := by
  have h1 : NewLogarithmicMapperFloat Float64.nan = none := by
    unfold NewLogarithmicMapperFloat Float64.le
    simp
  have h2 : NewLogarithmicMapperFloat Float64.posInf ≠ none := by
    unfold NewLogarithmicMapperFloat Float64.le
    simp
  have h3 : NewLogarithmicMapperFloat Float64.negInf ≠ none := by
    unfold NewLogarithmicMapperFloat Float64.le
    simp
  refine ⟨h1, ?_, ?_, ?_, ?_⟩
  · unfold NewFloat
    rw [h1]
  · intro x hx
    cases hx
  · unfold NewFloat
    cases h : NewLogarithmicMapperFloat Float64.posInf with
    | none => exact absurd h h2
    | some e => simp
  · unfold NewFloat
    cases h : NewLogarithmicMapperFloat Float64.negInf with
    | none => exact absurd h h3
    | some e => simp

/-! ## `Index` and the floor of the scaled logarithm -/

/-- Where `Index` is the floor: the scaled logarithm is not negative, or is not a whole
number. -/
theorem Index_eq_floor (m : LogarithmicMapper) (v : ℝ)
    (h : 0 ≤ Real.log v * m.multiplier ∨ ∀ k : Int, Real.log v * m.multiplier ≠ (k : ℝ)) :
    Index m v = ⌊Real.log v * m.multiplier⌋ := by
  unfold Index toInt
  simp only []
  by_cases h0 : Real.log v * m.multiplier ≥ 0
  · rw [if_pos h0, if_pos h0]
  · rw [if_neg h0, if_neg h0]
    rcases h with h | h
    · exact absurd h h0
    · have h1 : ⌈Real.log v * m.multiplier⌉ ≤ ⌊Real.log v * m.multiplier⌋ + 1 :=
        Int.ceil_le_floor_add_one _
      have h2 : ⌊Real.log v * m.multiplier⌋ ≤ ⌈Real.log v * m.multiplier⌉ :=
        Int.floor_le_ceil _
      have h3 : ⌊Real.log v * m.multiplier⌋ ≠ ⌈Real.log v * m.multiplier⌉ := by
        intro he
        have hl := Int.floor_le (Real.log v * m.multiplier)
        have hu := Int.le_ceil (Real.log v * m.multiplier)
        rw [← he] at hu
        exact h _ (le_antisymm hu hl)
      omega

/-- Where `Index` is not the floor: at a negative whole scaled logarithm `k` it is `k - 1`. -/
theorem Index_of_neg_whole (m : LogarithmicMapper) (v : ℝ) (k : Int) (hk : k < 0)
    (h : Real.log v * m.multiplier = (k : ℝ)) :
    Index m v = k - 1 ∧ ⌊Real.log v * m.multiplier⌋ = k := by
  have hneg : ¬ ((k : ℝ) ≥ 0) := by
    have : (k : ℝ) < 0 := by exact_mod_cast hk
    linarith
  unfold Index toInt
  simp only []
  rw [h, if_neg hneg, if_neg hneg, Int.ceil_intCast, Int.floor_intCast]
  exact ⟨rfl, rfl⟩

/-- C15 (failing input): on the mapper of relative accuracy `1/2` (`gamma = 3`) and the value
`1/3` the scaled logarithm `ln(1/3) * multiplier` is the whole number `-1`, its floor is `-1`,
and `Index(1/3)` is `-2`. -/
theorem Index_is_not_floor_at_negative_whole :
    ∃ m, NewLogarithmicMapper (1 / 2) = Except.ok m ∧
      Real.log (1 / 3) * m.multiplier = -1 ∧
      ⌊Real.log (1 / 3) * m.multiplier⌋ = -1 ∧
      Index m (1 / 3) = -2 ∧
      Index m (1 / 3) ≠ ⌊Real.log (1 / 3) * m.multiplier⌋ := by
  obtain ⟨m, hm⟩ := NewLogarithmicMapper_ok (a := 1 / 2) (by norm_num) (by norm_num)
  have hf := NewLogarithmicMapper_fields hm
  have hg : m.gamma = 3 := by
    rw [hf.2.2.2.1]
    norm_num
  have hlog3 : 0 < Real.log 3 := Real.log_pos (by norm_num)
  have hx : Real.log (1 / 3) * m.multiplier = ((-1 : Int) : ℝ) := by
    rw [hf.2.2.2.2.1, hg, one_div, Real.log_inv]
    field_simp
  obtain ⟨hi, hfl⟩ := Index_of_neg_whole m (1 / 3) (-1) (by norm_num) hx
  refine ⟨m, hm, ?_, hfl, ?_, ?_⟩
  · rw [hx]
    norm_num
  · rw [hi]
    norm_num
  · rw [hi, hfl]
    norm_num

end quantilesketch

/-! ## Rank queries are monotone in the rank -/

namespace storage

section rankOrder

variable {F : Type} [LinearOrderedField F]

theorem cumWeight_mono {b : BufferedPaginatedStorage F} (h : WF b) (hn : NonNeg b) (i k : Int)
    (hik : i ≤ k) : cumWeight b i ≤ cumWeight b k := by
  rcases lt_or_eq_of_le hik with hlt | heq
  · have h1 := cumWeight_add_le h hn i k hlt
    have h2 := weightAt_nonneg hn k
    linarith
  · rw [heq]

theorem Size_nonneg {b : BufferedPaginatedStorage F} (h : WF b) (hn : NonNeg b) : 0 ≤ Size b := by
  have h1 := weightAt_nonneg hn 0
  have h2 := weightAt_le_cumWeight h hn 0
  have h3 := cumWeight_le_Size h hn 0
  linarith

/-- The rank is clamped at zero before anything else. -/
theorem KeyAtRank_clamp (b : BufferedPaginatedStorage F) (rank : F) :
    (KeyAtRank b rank).1 = (KeyAtRank b (max 0 rank)).1 := by
  unfold KeyAtRank
  simp only [max_eq_right (le_max_left (0 : F) rank)]

/-- On a storage of size zero every rank query fails. -/
theorem KeyAtRank_of_Size_zero {b : BufferedPaginatedStorage F} (h : WF b) (hn : NonNeg b)
    (hs : Size b = 0) (rank : F) :
    (KeyAtRank b rank).1 = Except.error "max index not found" := by
  apply (KeyAtRank_above h hn rank (by rw [hs]; exact le_max_left 0 rank)).2
  intro j hj
  have h2 := weightAt_le_cumWeight h hn j
  have h3 := cumWeight_le_Size h hn j
  rw [hs] at h3
  linarith

/-- A higher rank is answered by an index that is not lower. -/
theorem KeyAtRank_mono {b : BufferedPaginatedStorage F} (h : WF b) (hn : NonNeg b) (r1 r2 : F)
    (hr : r1 ≤ r2) (k1 k2 : Int) (e1 : (KeyAtRank b r1).1 = Except.ok k1)
    (e2 : (KeyAtRank b r2).1 = Except.ok k2) : k1 ≤ k2 := by
  have hm : max 0 r1 ≤ max 0 r2 := max_le_max le_rfl hr
  by_cases h2 : max 0 r2 < Size b
  · have h1 : max 0 r1 < Size b := lt_of_le_of_lt hm h2
    obtain ⟨j1, f1, a1, b1⟩ := KeyAtRank_below h hn r1 h1
    obtain ⟨j2, f2, a2, b2⟩ := KeyAtRank_below h hn r2 h2
    rw [e1] at f1
    rw [e2] at f2
    cases f1
    cases f2
    by_contra hc
    have := b1 k2 (not_le.mp hc)
    linarith
  · have h2 : Size b ≤ max 0 r2 := not_lt.mp h2
    obtain ⟨hpos, hnone⟩ := KeyAtRank_above h hn r2 h2
    have hex : ∃ j, 0 < weightAt b j := by
      by_contra hc
      have := hnone (fun j hj => hc ⟨j, hj⟩)
      rw [e2] at this
      cases this
    obtain ⟨j2, f2, w2, m2⟩ := hpos hex
    rw [e2] at f2
    cases f2
    by_cases h1 : max 0 r1 < Size b
    · obtain ⟨j1, f1, a1, b1⟩ := KeyAtRank_below h hn r1 h1
      rw [e1] at f1
      cases f1
      by_contra hc
      have hlt : k2 < k1 := not_le.mp hc
      have hz : ∀ j, k2 < j → weightAt b j = 0 := by
        intro j hj
        have h0 := weightAt_nonneg hn j
        by_contra hne
        have hp : 0 < weightAt b j := lt_of_le_of_ne h0 (Ne.symm hne)
        have := m2 j hp
        omega
      have hS := cumWeight_eq_Size h k2 hz
      have := b1 k2 hlt
      linarith
    · have h1 : Size b ≤ max 0 r1 := not_lt.mp h1
      obtain ⟨j1, f1, w1, _⟩ := (KeyAtRank_above h hn r1 h1).1 hex
      rw [e1] at f1
      cases f1
      exact m2 k1 w1

end rankOrder

end storage

namespace quantilesketch

open storage mapper

theorem Value_pos {a : ℝ} {m : LogarithmicMapper} (hm : NewLogarithmicMapper a = Except.ok m)
    (i : Int) : 0 < Value m i := by
  rw [Value_eq hm]
  have h0 := (NewLogarithmicMapper_fields hm).1
  exact mul_pos (Real.exp_pos _) (by linarith)

theorem Value_mono {a : ℝ} {m : LogarithmicMapper} (hm : NewLogarithmicMapper a = Except.ok m)
    (i j : Int) (hij : i ≤ j) : Value m i ≤ Value m j := by
  rw [Value_eq hm, Value_eq hm]
  have h0 := (NewLogarithmicMapper_fields hm).1
  have hl := log_gamma_pos hm
  have hc : (i : ℝ) ≤ (j : ℝ) := by exact_mod_cast hij
  apply mul_le_mul_of_nonneg_right _ (by linarith)
  apply Real.exp_le_exp.mpr
  exact mul_le_mul_of_nonneg_right hc (le_of_lt hl)

/-- What a successful quantile query returns, by the branch that answered it. -/
theorem GetValueAtQuantile_ok (s : QuantileSketch) (q r : ℝ)
    (h : (GetValueAtQuantile s q).1 = Except.ok r) :
    (0 ≤ q ∧ q ≤ 1) ∧ s.zeroCount + Size s.positiveValues + Size s.negativeValues ≠ 0 ∧
    ((q * (s.zeroCount + Size s.positiveValues + Size s.negativeValues - 1) <
        Size s.negativeValues ∧
      ∃ k, (KeyAtRank s.negativeValues (Size s.negativeValues - 1 -
          q * (s.zeroCount + Size s.positiveValues + Size s.negativeValues - 1))).1 =
            Except.ok k ∧ r = -Value s.mapper k) ∨
     (¬ q * (s.zeroCount + Size s.positiveValues + Size s.negativeValues - 1) <
        Size s.negativeValues ∧
      q * (s.zeroCount + Size s.positiveValues + Size s.negativeValues - 1) <
        s.zeroCount + Size s.negativeValues ∧ r = 0) ∨
     (¬ q * (s.zeroCount + Size s.positiveValues + Size s.negativeValues - 1) <
        Size s.negativeValues ∧
      ¬ q * (s.zeroCount + Size s.positiveValues + Size s.negativeValues - 1) <
        s.zeroCount + Size s.negativeValues ∧
      ∃ k, (KeyAtRank s.positiveValues
          (q * (s.zeroCount + Size s.positiveValues + Size s.negativeValues - 1) -
            s.zeroCount - Size s.negativeValues)).1 = Except.ok k ∧ r = Value s.mapper k)) := by
  rw [GetValueAtQuantile_fst] at h
  by_cases hq : q < 0 ∨ q > 1
  · rw [if_pos hq] at h
    cases h
  rw [if_neg hq] at h
  have hq2 : 0 ≤ q ∧ q ≤ 1 := by
    constructor
    · by_contra hc
      exact hq (Or.inl (not_le.mp hc))
    · by_contra hc
      exact hq (Or.inr (not_le.mp hc))
  by_cases hc : s.zeroCount + Size s.positiveValues + Size s.negativeValues = 0
  · rw [if_pos hc] at h
    cases h
  rw [if_neg hc] at h
  refine ⟨hq2, hc, ?_⟩
  by_cases hn : q * (s.zeroCount + Size s.positiveValues + Size s.negativeValues - 1) <
      Size s.negativeValues
  · rw [if_pos hn] at h
    left
    refine ⟨hn, ?_⟩
    cases hk : (KeyAtRank s.negativeValues (Size s.negativeValues - 1 -
        q * (s.zeroCount + Size s.positiveValues + Size s.negativeValues - 1))).1 with
    | error e =>
      rw [hk] at h
      cases h
    | ok k =>
      rw [hk] at h
      simp only [Except.ok.injEq] at h
      exact ⟨k, rfl, h.symm⟩
  rw [if_neg hn] at h
  by_cases hz : q * (s.zeroCount + Size s.positiveValues + Size s.negativeValues - 1) <
      s.zeroCount + Size s.negativeValues
  · rw [if_pos hz] at h
    right; left
    simp only [Except.ok.injEq] at h
    exact ⟨hn, hz, h.symm⟩
  rw [if_neg hz] at h
  right; right
  refine ⟨hn, hz, ?_⟩
  cases hk : (KeyAtRank s.positiveValues
      (q * (s.zeroCount + Size s.positiveValues + Size s.negativeValues - 1) -
        s.zeroCount - Size s.negativeValues)).1 with
  | error e =>
    rw [hk] at h
    cases h
  | ok k =>
    rw [hk] at h
    simp only [Except.ok.injEq] at h
    exact ⟨k, rfl, h.symm⟩

end quantilesketch

/-! ## Quantiles are monotone -/

namespace quantilesketch

open storage mapper

/-- Monotonicity of the quantile on a sketch with well-formed stores of non-negative weights
and a non-negative `zeroCount`. -/
theorem GetValueAtQuantile_mono_core (s : QuantileSketch) (a : ℝ)
    (hm : NewLogarithmicMapper a = Except.ok s.mapper)
    (wp : WF s.positiveValues) (np : NonNeg s.positiveValues)
    (wn : WF s.negativeValues) (nn : NonNeg s.negativeValues) (hz : 0 ≤ s.zeroCount)
    (q1 q2 : ℝ) (hq : q1 ≤ q2) (r1 r2 : ℝ)
    (e1 : (GetValueAtQuantile s q1).1 = Except.ok r1)
    (e2 : (GetValueAtQuantile s q2).1 = Except.ok r2) : r1 ≤ r2 := by
  obtain ⟨⟨h10, h11⟩, hT, c1⟩ := GetValueAtQuantile_ok s q1 r1 e1
  obtain ⟨⟨h20, h21⟩, _, c2⟩ := GetValueAtQuantile_ok s q2 r2 e2
  have hP := Size_nonneg wp np
  have hN := Size_nonneg wn nn
  obtain ⟨x1, hx1⟩ : ∃ x, x = q1 * (s.zeroCount + Size s.positiveValues +
    Size s.negativeValues - 1) := ⟨_, rfl⟩
  obtain ⟨x2, hx2⟩ : ∃ x, x = q2 * (s.zeroCount + Size s.positiveValues +
    Size s.negativeValues - 1) := ⟨_, rfl⟩
  rw [← hx1] at c1
  rw [← hx2] at c2
  have vpos := Value_pos hm
  have vmono := Value_mono hm
  by_cases hT1 : 1 ≤ s.zeroCount + Size s.positiveValues + Size s.negativeValues
  · have hx : x1 ≤ x2 := by
      rw [hx1, hx2]
      exact mul_le_mul_of_nonneg_right hq (by linarith)
    rcases c1 with ⟨a1, k1, f1, g1⟩ | ⟨a1, b1, g1⟩ | ⟨a1, b1, k1, f1, g1⟩
    · rcases c2 with ⟨a2, k2, f2, g2⟩ | ⟨a2, b2, g2⟩ | ⟨a2, b2, k2, f2, g2⟩
      · have hk := KeyAtRank_mono wn nn _ _ (by linarith) k2 k1 f2 f1
        have := vmono k2 k1 hk
        rw [g1, g2]
        linarith
      · have := vpos k1
        rw [g1, g2]
        linarith
      · have := vpos k1
        have := vpos k2
        rw [g1, g2]
        linarith
    · rcases c2 with ⟨a2, k2, f2, g2⟩ | ⟨a2, b2, g2⟩ | ⟨a2, b2, k2, f2, g2⟩
      · exfalso
        apply a1
        linarith
      · rw [g1, g2]
      · have := vpos k2
        rw [g1, g2]
        linarith
    · rcases c2 with ⟨a2, k2, f2, g2⟩ | ⟨a2, b2, g2⟩ | ⟨a2, b2, k2, f2, g2⟩
      · exfalso
        apply a1
        linarith
      · exfalso
        apply b1
        linarith
      · have hk := KeyAtRank_mono wp np _ _ (by linarith) k1 k2 f1 f2
        rw [g1, g2]
        exact vmono k1 k2 hk
  · have hT2 : s.zeroCount + Size s.positiveValues + Size s.negativeValues - 1 < 0 := by
      linarith
    have hx10 : x1 ≤ 0 := by
      rw [hx1]
      exact mul_nonpos_of_nonneg_of_nonpos h10 (le_of_lt hT2)
    have hx20 : x2 ≤ 0 := by
      rw [hx2]
      exact mul_nonpos_of_nonneg_of_nonpos h20 (le_of_lt hT2)
    have hlow : ∀ q x : ℝ, q ≤ 1 → 0 ≤ q →
        x = q * (s.zeroCount + Size s.positiveValues + Size s.negativeValues - 1) →
        Size s.negativeValues - 1 - x ≤ 0 := by
      intro q x hq1 hq0 hx
      have : q * (1 - (s.zeroCount + Size s.positiveValues + Size s.negativeValues)) ≤
          1 * (1 - (s.zeroCount + Size s.positiveValues + Size s.negativeValues)) :=
        mul_le_mul_of_nonneg_right hq1 (by linarith)
      rw [hx]
      nlinarith
    by_cases hN0 : 0 < Size s.negativeValues
    · rcases c1 with ⟨a1, k1, f1, g1⟩ | ⟨a1, b1, g1⟩ | ⟨a1, b1, k1, f1, g1⟩
      · rcases c2 with ⟨a2, k2, f2, g2⟩ | ⟨a2, b2, g2⟩ | ⟨a2, b2, k2, f2, g2⟩
        · rw [KeyAtRank_clamp, max_eq_left (hlow q1 x1 h11 h10 hx1)] at f1
          rw [KeyAtRank_clamp, max_eq_left (hlow q2 x2 h21 h20 hx2)] at f2
          rw [f1] at f2
          cases f2
          rw [g1, g2]
        · exfalso
          apply a2
          linarith
        · exfalso
          apply a2
          linarith
      · exfalso
        apply a1
        linarith
      · exfalso
        apply a1
        linarith
    · have hN1 : Size s.negativeValues = 0 := le_antisymm (not_lt.mp hN0) hN
      by_cases hq2 : 0 < q2
      · exfalso
        have hx2neg : x2 < 0 := by
          rw [hx2]
          exact mul_neg_of_pos_of_neg hq2 hT2
        rcases c2 with ⟨a2, k2, f2, g2⟩ | ⟨a2, b2, g2⟩ | ⟨a2, b2, k2, f2, g2⟩
        · rw [KeyAtRank_of_Size_zero wn nn hN1] at f2
          cases f2
        · apply a2
          rw [hN1]
          exact hx2neg
        · apply a2
          rw [hN1]
          exact hx2neg
      · have h2 : q2 = 0 := le_antisymm (not_lt.mp hq2) h20
        have h1 : q1 = 0 := le_antisymm (by rw [← h2]; exact hq) h10
        rw [h1] at e1
        rw [h2, e1] at e2
        cases e2
        exact le_rfl

/-- C20: quantile monotonicity. For every sketch reached from `New(a)` by a list of accepted
(successful) `RecordValue` calls and every `q1 <= q2` for which both queries succeed (which
they only do for quantiles in `[0, 1]`), the result of `GetValueAtQuantile(q1)` is at most the
result of `GetValueAtQuantile(q2)`. -/
theorem quantile_monotone (growCap : Nat → Nat) (a : ℝ) (s0 : QuantileSketch)
    (hs : New a = Except.ok s0) (l : List (ℝ × ℝ)) (hacc : ∀ p ∈ l, Accepted s0.mapper p)
    (q1 q2 : ℝ) (hq : q1 ≤ q2) (r1 r2 : ℝ)
    (e1 : (GetValueAtQuantile (recordAll growCap s0 l) q1).1 = Except.ok r1)
    (e2 : (GetValueAtQuantile (recordAll growCap s0 l) q2).1 = Except.ok r2) : r1 ≤ r2 := by
  obtain ⟨hm, _, _, _⟩ := New_eq hs
  obtain ⟨m1, z1, p1, n1⟩ := recordAll_new growCap hs l hacc
  obtain ⟨wp, np, _⟩ := recordEach_new (F := ℝ) growCap _ (positiveRecords_ok hm l hacc)
  obtain ⟨wn, nn, _⟩ := recordEach_new (F := ℝ) growCap _ (negativeRecords_ok hm l hacc)
  have hz : 0 ≤ (recordAll growCap s0 l).zeroCount := by
    rw [z1]
    exact zeroWeight_nonneg _ _ (fun p hp => (hacc p hp).1)
  rw [← p1] at wp np
  rw [← n1] at wn nn
  rw [← m1] at hm
  exact GetValueAtQuantile_mono_core (recordAll growCap s0 l) a hm wp np wn nn hz q1 q2 hq r1 r2
    e1 e2

/-- Witness of C20: accuracy `1/2`, the value `1` recorded once, quantiles `0` and `1`. -/
theorem quantile_monotone_witness :
    ∃ s0 r1 r2, New (1 / 2) = Except.ok s0 ∧
      (∀ p ∈ [((1 : ℝ), (1 : ℝ))], Accepted s0.mapper p) ∧
      (0 : ℝ) ≤ 1 ∧
      (GetValueAtQuantile (recordAll (fun c => 2 * c) s0 [(1, 1)]) 0).1 = Except.ok r1 ∧
      (GetValueAtQuantile (recordAll (fun c => 2 * c) s0 [(1, 1)]) 1).1 = Except.ok r2 ∧
      r1 ≤ r2 := by
  obtain ⟨s0, hs⟩ := New_ok (a := 1 / 2) (by norm_num) (by norm_num)
  have hr := abs_one_in_range hs
  have hl : ∀ p ∈ [((1 : ℝ), (1 : ℝ))], 1 ≤ p.2 ∧ |p.1| ≤ MaxValue s0.mapper := by
    intro p hp
    rw [List.mem_singleton.mp hp]
    exact ⟨le_rfl, hr.2⟩
  have hacc : ∀ p ∈ [((1 : ℝ), (1 : ℝ))], Accepted s0.mapper p := fun p hp =>
    accepted_of_abs p.1 p.2 (le_trans zero_le_one (hl p hp).1) (hl p hp).2
  have hmem : ((1 : ℝ), (1 : ℝ)) ∈ [((1 : ℝ), (1 : ℝ))] := List.mem_singleton.mpr rfl
  have hmin : ∀ p ∈ [((1 : ℝ), (1 : ℝ))], (1 : ℝ) ≤ p.1 := by
    intro p hp
    rw [List.mem_singleton.mp hp]
  have hmax : ∀ p ∈ [((1 : ℝ), (1 : ℝ))], p.1 ≤ (1 : ℝ) := by
    intro p hp
    rw [List.mem_singleton.mp hp]
  obtain ⟨r1, e1, _⟩ := boundary_low (fun c => 2 * c) hs [(1, 1)] hl 1 1 hmem hmin (Or.inr hr.1)
  obtain ⟨r2, e2, _⟩ := boundary_high (fun c => 2 * c) hs [(1, 1)] hl 1 1 hmem hmax (Or.inr hr.1)
  exact ⟨s0, r1, r2, hs, hacc, zero_le_one, e1, e2,
    quantile_monotone (fun c => 2 * c) (1 / 2) s0 hs [(1, 1)] hacc 0 1 zero_le_one r1 r2 e1 e2⟩

end quantilesketch
